import Mathlib

/-!
# crossworth/cfg: a shallow embedding of `cfg.go`

The development models the decoder (`Unmarshal`) and the encoder (`Marshal`) of
the configuration codec in `cfg.go`.

Modelling conventions.

* A Go `string` is a `List Char` (`Str`): the text is taken to be valid UTF-8, so
  byte offsets returned by `strings.Index` for the one-byte separators used by the
  program (`#`, `:`, `[`, `]`, `\x7b`, `\x7d`, `,`, space, the two quotation marks)
  correspond to positions in the list, and `s[a:b]` is `(s.take b).drop a`.
* `bufio.Scanner` with the default `ScanLines` split function is `scanLines`: the
  text is cut at every line feed, one trailing carriage return is removed from
  each line, and a final empty piece yields no line.  The scanner stops, for
  good, at the first line of `MaxScanTokenSize` (64 KiB) bytes or more; the
  program never looks at `scanner.Err()`, so that to it the text ends there.
* A call ends by returning `nil` (`none`), by returning an error, or by a run-time
  panic; errors are modelled by their kind, without the diagnostic text (the line
  counter `d.line` only feeds that text and is therefore not modelled).
* Reflection: a record is `Value.struct` with the declared fields in order.  A
  declared field carries its package path, which is empty exactly for the
  exported fields; the handle of an unexported field is read-only, and the
  setters and `Interface` panic on it.  `reflect.Int` and `reflect.Uint` are 64
  bits wide.
  Floating point values are kept abstract: the type `F` of floats and the
  functions `strconv.ParseFloat` and the `%f`, `%v` renderings are parameters
  (`FloatOps`).
* The `for` loops that read from the scanner are recursive functions on the list
  of remaining raw lines.  The main loop of `decodeState.unmarshal` restarts after
  an entry has consumed an arbitrary number of lines and calls itself on nested
  records, so it is defined with a fuel argument; `Unmarshal` supplies one more
  unit of fuel than the text has characters, which always suffices
  (`unmarshalLoop_fuel`, `Unmarshal_ne_outOfFuel`).
-/

namespace Cfg

/-- Go strings. -/
abbrev Str := List Char

/-- The single quotation mark. -/
def sq : Char := Char.ofNat 39

/-- The double quotation mark. -/
def dq : Char := Char.ofNat 34

/-- The opening curly brace. -/
def lbrace : Char := Char.ofNat 123

/-- The closing curly brace. -/
def rbrace : Char := Char.ofNat 125

/-- The predicate `unicode.IsSpace`, which `strings.TrimSpace` uses. -/
def isSpace (c : Char) : Bool :=
  let n := c.toNat
  n = 32 || (9 ≤ n && n ≤ 13) || n = 0x85 || n = 0xA0 || n = 0x1680 ||
  (0x2000 ≤ n && n ≤ 0x200a) || n = 0x2028 || n = 0x2029 || n = 0x202f ||
  n = 0x205f || n = 0x3000

/-- The function `strings.TrimSpace`. -/
def TrimSpace (s : Str) : Str :=
  ((s.dropWhile isSpace).reverse.dropWhile isSpace).reverse

/-- The function `strings.Index` for a one-character needle; `-1` when absent. -/
def Index : Str → Char → Int
  | [], _ => -1
  | x :: xs, c =>
    if x = c then 0
    else
      let r := Index xs c
      if r < 0 then -1 else r + 1

/-- The function `strings.Contains` for a one-character needle. -/
def Contains (s : Str) (c : Char) : Bool := decide (Index s c ≥ 0)

/-- The slice expression `s[lo:hi]`; `none` is the run-time panic
"slice bounds out of range". -/
def slice (s : Str) (lo hi : Int) : Option Str :=
  if 0 ≤ lo ∧ lo ≤ hi ∧ hi ≤ (s.length : Int) then
    some ((s.take hi.toNat).drop lo.toNat)
  else none

/-- The function `strings.Split` for a one-character separator. -/
def Split : Str → Char → List Str
  | [], _ => [[]]
  | x :: xs, c =>
    if x = c then [] :: Split xs c
    else
      match Split xs c with
      | [] => [[x]]
      | l :: ls => (x :: l) :: ls

/-- The function `strings.Join`. -/
def Join : List Str → Str → Str
  | [], _ => []
  | [a], _ => a
  | a :: b :: rest, sep => a ++ sep ++ Join (b :: rest) sep

/-- The function `strings.ReplaceAll` for a one-character pattern. -/
def ReplaceAll (s : Str) (old : Char) (new : Str) : Str :=
  s.flatMap (fun c => if c = old then new else [c])

/-- The function `strings.ToLower`, on the ASCII range (no character outside it
lower-cases to a letter of the words `boolValue` accepts). -/
def ToLower (s : Str) : Str := s.map Char.toLower

/-- Removal of one trailing carriage return (`dropCR` of `bufio`). -/
def dropCR (l : Str) : Str :=
  if l.getLast? = some '\r' then l.dropLast else l

/-- The constant `bufio.MaxScanTokenSize`. -/
def MaxScanTokenSize : Nat := 64 * 1024

/-- The number of bytes of the UTF-8 encoding of a character. -/
def utf8Size (c : Char) : Nat :=
  if c.toNat < 0x80 then 1 else if c.toNat < 0x800 then 2 else if c.toNat < 0x10000 then 3 else 4

/-- The length `len(s)` of a string in bytes. -/
def byteLen (s : Str) : Nat := (s.map utf8Size).sum

/-- The pieces of a text between its line feeds, without the empty piece after a
final line feed: the lines as `ScanLines` cuts them, carriage returns
included. -/
def rawLines (data : Str) : List Str :=
  let parts := Split data '\n'
  if parts.getLast? = some [] then parts.dropLast else parts

/-- The lines `bufio.Scanner` yields for a text.  A line of `MaxScanTokenSize`
bytes or more does not fit the buffer: `Scan` returns false there (with
`ErrTooLong`) and ever after, so that the lines end before it. -/
def scanLines (data : Str) : List Str :=
  ((rawLines data).takeWhile fun l => decide (byteLen l < MaxScanTokenSize)).map dropCR

/-! ## Errors and panics -/

/-- Context added by `errors.Wrap`. -/
inductive Msg where
  | parseLine
  | parseInner
  | marshalInner
  | marshalField
  | convert
  deriving DecidableEq

/-- The errors the package returns, by kind. -/
inductive Err where
  | decodeNotPointer
  | decodeNil
  | decodeNotStruct
  | endOfFile
  | expectedValue
  | couldNotDecodeLine
  | arrayIntoNonSlice
  | innerIntoNonStruct
  | invalidType
  | encodeNotStruct
  | couldNotEncode
  | wrap (m : Msg) (cause : Err)
  deriving DecidableEq

/-- Run-time panics. -/
inductive Panic where
  | indexOutOfRange
  | sliceBounds
  | wrongImplementation
  | reflect
  deriving DecidableEq

/-- The ways a call ends other than by returning a nil error. -/
inductive Fault where
  | error (e : Err)
  | panic (p : Panic)
  | outOfFuel
  deriving DecidableEq

/-- The effect of `errors.Wrap` on the way a callee ended: errors are wrapped,
panics unwind unchanged. -/
def Fault.wrap (m : Msg) : Fault → Fault
  | .error e => .error (.wrap m e)
  | f => f

/-! ## Records -/

/-- The kinds `reflect.Int` to `reflect.Int64`. -/
inductive IntKind where
  | Int | Int8 | Int16 | Int32 | Int64
  deriving DecidableEq

/-- The kinds `reflect.Uint` to `reflect.Uint64`. -/
inductive UintKind where
  | Uint | Uint8 | Uint16 | Uint32 | Uint64
  deriving DecidableEq

/-- The kinds `reflect.Float32` and `reflect.Float64`. -/
inductive FloatKind where
  | Float32 | Float64
  deriving DecidableEq

/-- The type `reflect.Kind`, as far as the program distinguishes kinds. -/
inductive Kind where
  | String
  | Bool
  | Int (k : IntKind)
  | Uint (k : UintKind)
  | Float (k : FloatKind)
  | Slice
  | Struct
  | Other
  deriving DecidableEq

/-- Width in bits of a signed integer kind. -/
def IntKind.bits : IntKind → Nat
  | .Int => 64 | .Int8 => 8 | .Int16 => 16 | .Int32 => 32 | .Int64 => 64

/-- Width in bits of an unsigned integer kind. -/
def UintKind.bits : UintKind → Nat
  | .Uint => 64 | .Uint8 => 8 | .Uint16 => 16 | .Uint32 => 32 | .Uint64 => 64

/-- A slice value, by element kind.  Elements of a kind the program has no rule
for are represented by their `%v` rendering. -/
inductive SliceValue (F : Type) where
  | strings (xs : List Str)
  | bools (xs : List Bool)
  | ints (k : IntKind) (xs : List Int)
  | uints (k : UintKind) (xs : List Nat)
  | floats (k : FloatKind) (xs : List F)
  | others (shown : List Str)

/-- A declared struct field (`reflect.StructField`): its name, its package path,
which is empty for an exported (upper-case) name and qualifies an unexported one,
and the value of the `cfg` key of its tag (empty when the tag has no such key). -/
structure StructField where
  Name : Str
  PkgPath : Str
  Tag : Str
  deriving DecidableEq

/-- The method `StructField.IsExported`. -/
def StructField.IsExported (sf : StructField) : Bool := sf.PkgPath.isEmpty

/-- A Go value as reflection sees it. -/
inductive Value (F : Type) where
  | string (s : Str)
  | bool (b : Bool)
  | int (k : IntKind) (n : Int)
  | uint (k : UintKind) (n : Nat)
  | float (k : FloatKind) (x : F)
  | slice (xs : SliceValue F)
  | struct (fields : List (StructField × Value F))
  | other (id : Nat)

/-- An argument of type `interface{}`. -/
inductive Arg (F : Type) where
  | nil
  | value (v : Value F)
  | pointer (target : Option (Value F))

/-- The floating point operations the program relies on. -/
structure FloatOps (F : Type) where
  /-- The zero value. -/
  zero : F
  /-- The function `floatValue`: `strconv.ParseFloat` with failure mapped to zero. -/
  parse : FloatKind → Str → F
  /-- The rendering `%f`. -/
  fmtF : F → Str
  /-- The rendering `%v`. -/
  fmtV : F → Str

variable {F : Type}

/-- The kind of a value. -/
def Value.Kind : Value F → Kind
  | .string _ => .String
  | .bool _ => .Bool
  | .int k _ => .Int k
  | .uint k _ => .Uint k
  | .float k _ => .Float k
  | .slice _ => .Slice
  | .struct _ => .Struct
  | .other _ => .Other

/-- The field descriptor of `cfg.go`.  `Value` and `Exported` stand for the handle
into the record: `Value` holds the current contents of the field, and `Exported`
is false when the handle is read-only, which it is for an unexported field;
`Kind`, `IsArray` and `IsInner` depend only on the type of the field and are
computed from it. -/
structure field (F : Type) where
  Tag : Str
  Value : Value F
  Exported : Bool := true

/-- The component `Kind` of a descriptor. -/
def field.Kind (f : field F) : Kind := f.Value.Kind

/-- The component `IsArray` of a descriptor. -/
def field.IsArray (f : field F) : Bool := decide (f.Kind = Kind.Slice)

/-- The component `IsInner` of a descriptor. -/
def field.IsInner (f : field F) : Bool := decide (f.Kind = Kind.Struct)

/-- The body of the loop of `extractFields` for one declared field. -/
def mkField (d : StructField × Value F) : field F :=
  let fieldTag := if d.1.Tag.length = 0 then d.1.Name else d.1.Tag
  { Tag := TrimSpace fieldTag, Value := d.2, Exported := d.1.IsExported }

/-- The descriptors of the declared fields of a struct, in declaration order. -/
def fieldsOf (decls : List (StructField × Value F)) : List (field F) :=
  decls.map mkField

/-- The function `extractFields`; `none` is the panic of `NumField` on a value
that is not a struct. -/
def extractFields : Arg F → Option (List (field F))
  | .value (.struct decls) => some (fieldsOf decls)
  | .pointer (some (.struct decls)) => some (fieldsOf decls)
  | _ => none

/-- The record after the assignments made through the descriptors. -/
def store (decls : List (StructField × Value F)) (fields : List (field F)) :
    List (StructField × Value F) :=
  List.zipWith (fun d f => (d.1, f.Value)) decls fields

/-! ## Value coercion -/

/-- The decimal value of a digit character. -/
def digitVal (c : Char) : Option Nat :=
  if 48 ≤ c.toNat ∧ c.toNat ≤ 57 then some (c.toNat - 48) else none

/-- The value of a string of decimal digits read after the prefix value `acc`. -/
def parseDigits : Str → Nat → Option Nat
  | [], acc => some acc
  | c :: cs, acc =>
    match digitVal c with
    | none => none
    | some d => parseDigits cs (acc * 10 + d)

/-- The call `strconv.ParseUint(s, 10, 64)`; `none` when it reports an error. -/
def ParseUint (s : Str) : Option Nat :=
  match s with
  | [] => none
  | _ :: _ =>
    match parseDigits s 0 with
    | none => none
    | some n => if n < 2 ^ 64 then some n else none

/-- The call `strconv.ParseInt(s, 10, 64)`; `none` when it reports an error. -/
def ParseInt (s : Str) : Option Int :=
  match s with
  | [] => none
  | c :: cs =>
    if c = '+' then
      match ParseUint cs with
      | some un => if un < 2 ^ 63 then some (un : Int) else none
      | none => none
    else if c = '-' then
      match ParseUint cs with
      | some un => if un ≤ 2 ^ 63 then some (-(un : Int)) else none
      | none => none
    else
      match ParseUint (c :: cs) with
      | some un => if un < 2 ^ 63 then some (un : Int) else none
      | none => none

/-- The function `intValue`; its error result is always nil. -/
def intValue (s : Str) : Int × Option Err :=
  match ParseInt s with
  | none => (0, none)
  | some i => (i, none)

/-- The function `uintValue`; its error result is always nil. -/
def uintValue (s : Str) : Nat × Option Err :=
  match ParseUint s with
  | none => (0, none)
  | some i => (i, none)

/-- The function `floatValue`; its error result is always nil. -/
def floatValue (fo : FloatOps F) (s : Str) (k : FloatKind) : F × Option Err :=
  (fo.parse k s, none)

/-- The function `boolValue`. -/
def boolValue (s : Str) : Bool :=
  let l := ToLower s
  decide (l = ['t'] ∨ l = ['t', 'r', 'u', 'e'] ∨ l = ['y'] ∨ l = ['y', 'e', 's'] ∨ l = ['1'])

/-- The function `unwrapQuotationMarks`.  `input[0]` panics on the empty string and
`input[1:last]` panics when the input is a single quotation mark. -/
def unwrapQuotationMarks (input : Str) : Except Fault Str :=
  match input with
  | [] => .error (.panic .indexOutOfRange)
  | first :: _ =>
    let last : Int := (input.length : Int) - 1
    if (first = sq ∧ input.getLast? = some sq) ∨ (first = dq ∧ input.getLast? = some dq) then
      match slice input 1 last with
      | none => .error (.panic .sliceBounds)
      | some r => .ok r
    else .ok input

/-- The function `removeCommaFromEnd`.  `input[len(input)-1]` panics on the empty
string. -/
def removeCommaFromEnd (input : Str) : Except Fault Str :=
  match input.getLast? with
  | none => .error (.panic .indexOutOfRange)
  | some c => if c = ',' then .ok input.dropLast else .ok input

/-- The value an `int64` takes when stored in a signed integer of the given
width (`reflect.Value.SetInt`). -/
def wrapInt (bits : Nat) (n : Int) : Int :=
  (n + 2 ^ (bits - 1)) % 2 ^ bits - 2 ^ (bits - 1)

/-- The value a `uint64` takes when stored in an unsigned integer of the given
width (`reflect.Value.SetUint`). -/
def wrapUint (bits : Nat) (n : Nat) : Nat := n % 2 ^ bits

/-- A setter of `reflect.Value` (`SetString`, `SetBool`, `SetInt`, `SetUint`,
`SetFloat`, `Set`): it panics on the read-only handle of an unexported field. -/
def assign (f : field F) (v : Value F) : Except Fault (field F) :=
  if f.Exported then .ok { f with Value := v } else .error (.panic .reflect)

/-- The function `setValue`: the descriptor after the assignment, or the way the
call failed. -/
def setValue (fo : FloatOps F) (f : field F) (value : Str) : Except Fault (field F) :=
  if f.IsArray then .error (.panic .wrongImplementation)
  else
    match f.Value with
    | .string _ => assign f (.string value)
    | .bool _ => assign f (.bool (boolValue value))
    | .int k _ =>
      match intValue value with
      | (_, some err) => .error (.error (.wrap .convert err))
      | (n, none) => assign f (.int k (wrapInt k.bits n))
    | .uint k _ =>
      match uintValue value with
      | (_, some err) => .error (.error (.wrap .convert err))
      | (n, none) => assign f (.uint k (wrapUint k.bits n))
    | .float k _ =>
      match floatValue fo value k with
      | (_, some err) => .error (.error (.wrap .convert err))
      | (n, none) => assign f (.float k n)
    | _ => .ok f

/-- The function `setSliceValue`.  `reflect.Append` panics when the appended value
(`string`, `bool`, `int64`, `uint64`) is not of the element type, and on the
read-only handle of an unexported field, as `Set` does; `f.Value.Type().Bits()`
panics on a slice type. -/
def setSliceValue (_fo : FloatOps F) (f : field F) (value : Str) : Except Fault (field F) :=
  if !f.IsArray then .error (.panic .wrongImplementation)
  else
    match f.Value with
    | .slice (.strings xs) => assign f (.slice (.strings (xs ++ [value])))
    | .slice (.bools xs) => assign f (.slice (.bools (xs ++ [boolValue value])))
    | .slice (.ints k xs) =>
      match intValue value with
      | (_, some err) => .error (.error (.wrap .convert err))
      | (n, none) =>
        if k = IntKind.Int64 then assign f (.slice (.ints k (xs ++ [n])))
        else .error (.panic .reflect)
    | .slice (.uints k xs) =>
      match uintValue value with
      | (_, some err) => .error (.error (.wrap .convert err))
      | (n, none) =>
        if k = UintKind.Uint64 then assign f (.slice (.uints k (xs ++ [n])))
        else .error (.panic .reflect)
    | .slice (.floats _ _) => .error (.panic .reflect)
    | .slice (.others _) => .error (.error .invalidType)
    | _ => .error (.panic .wrongImplementation)

/-! ## Line source -/

/-- The body of the loop of `readNextValidLine` for one raw line: `none` when the
line is skipped, otherwise the line that is returned. -/
def validLine (line : Str) : Option Str :=
  if line.length < 1 ∨ line.head? = some '#' then none
  else
    let commentPos := Index line '#'
    if commentPos ≥ 0 then some (TrimSpace (line.take commentPos.toNat))
    else some line

/-- The method `readNextValidLine` on the remaining raw lines: the line returned
and the lines left, or `none` for the end-of-file error. -/
def readNextValidLine : List Str → Option (Str × List Str)
  | [] => none
  | raw :: rest =>
    match validLine raw with
    | none => readNextValidLine rest
    | some line => some (line, rest)

/-- The loop that collects the elements of a multi-line array. -/
def scanArray : List Str → Nat → List Str → Except Fault (List Str × List Str)
  | [], _, _ => .error (.error .endOfFile)
  | raw :: rest, numberOfBrackets, lines =>
    match validLine raw with
    | none => scanArray rest numberOfBrackets lines
    | some line =>
      match removeCommaFromEnd (TrimSpace line) with
      | .error p => .error p
      | .ok line =>
        let n1 := if Contains line '[' then numberOfBrackets + 1 else numberOfBrackets
        let endArrayPos := Index line ']'
        let n2 := if endArrayPos ≥ 0 then n1 - 1 else n1
        let line := if endArrayPos ≥ 0 then line.take endArrayPos.toNat else line
        let lines := if line.length > 0 then lines ++ [line] else lines
        if n2 = 0 then .ok (lines, rest) else scanArray rest n2 lines

/-- The loop that collects the text of a multi-line nested record. -/
def scanInner : List Str → Nat → Str → Except Fault (Str × List Str)
  | [], _, _ => .error (.error .endOfFile)
  | raw :: rest, numberOfCurlyBraces, innerData =>
    match validLine raw with
    | none => scanInner rest numberOfCurlyBraces innerData
    | some line =>
      let n1 := if Contains line lbrace then numberOfCurlyBraces + 1 else numberOfCurlyBraces
      let endInnerPos := Index line rbrace
      let n2 := if endInnerPos ≥ 0 then n1 - 1 else n1
      let line := if endInnerPos ≥ 0 then line.take endInnerPos.toNat else line
      let innerData := if line.length > 0 then innerData ++ line ++ ['\n'] else innerData
      if n2 = 0 then .ok (innerData, rest) else scanInner rest n2 innerData

/-! ## Decoding -/

/-- What the decoder extracts from an entry before it looks at the fields: the
key, the value, the array elements and the text of the nested record. -/
structure Entry where
  key : Str
  value : Str
  lines : List Str
  innerData : Str
  deriving DecidableEq

/-- The continuation step of `decodeState.unmarshal` for a line whose key stands
alone: the value is the next valid line. -/
def keyOnlyValue (rest : List Str) : Except Fault (Str × List Str) :=
  match readNextValidLine rest with
  | none => .error (.error .endOfFile)
  | some (nextLine, rest1) =>
    if Contains nextLine ':' then .error (.error .expectedValue)
    else .ok (nextLine, rest1)

/-- The loop `for i := range lines` of the one-line array branch, which removes
the trailing comma of every element and stops at the first panic. -/
def removeCommas : List Str → Except Fault (List Str)
  | [] => .ok []
  | l :: ls =>
    match removeCommaFromEnd l with
    | .error p => .error p
    | .ok l1 =>
      match removeCommas ls with
      | .error p => .error p
      | .ok ls1 => .ok (l1 :: ls1)

/-- The one-line array branch: the new contents of `value` and the elements. -/
def oneLineArray (value : Str) (startArrayPos endArrayPos : Int) :
    Except Fault (Str × List Str) :=
  match slice value (startArrayPos + 1) endArrayPos with
  | none => .error (.panic .sliceBounds)
  | some v =>
    let value1 := TrimSpace v
    let lines := Split value1 ' '
    let lines := if lines.length = 1 then Split value1 ',' else lines
    match removeCommas lines with
    | .error p => .error p
    | .ok lines => .ok (value1, lines)

/-- The removal of a trailing comment from the value of an entry. -/
def removeComment (value : Str) : Str :=
  let commentPos := Index value '#'
  if commentPos ≥ 0 then TrimSpace (value.take commentPos.toNat) else value

/-- The part of one iteration of the loop of `decodeState.unmarshal` that follows
the removal of the comment from the value: the array and nested-record branches.
`rest` holds the raw lines after the entry read so far. -/
def parseValue (key value : Str) (rest : List Str) : Except Fault (Entry × List Str) :=
  let startArrayPos := Index value '['
  let endArrayPos := Index value ']'
  let startInnerPos := Index value lbrace
  let endInnerPos := Index value rbrace
  -- multi-line array
  match (if startArrayPos ≥ 0 ∧ endArrayPos < 0 then scanArray rest 1 []
         else .ok ([], rest)) with
  | .error p => .error p
  | .ok (lines, rest) =>
    -- one-line array
    match (if startArrayPos ≥ 0 ∧ endArrayPos ≥ 0 then
             oneLineArray value startArrayPos endArrayPos
           else .ok (value, lines)) with
    | .error p => .error p
    | .ok (value, lines) =>
      -- multi-line inner
      match (if startInnerPos ≥ 0 ∧ endInnerPos < 0 then scanInner rest 1 []
             else .ok ([], rest)) with
      | .error p => .error p
      | .ok (innerData, rest) =>
        -- one-line inner
        if startInnerPos ≥ 0 ∧ endInnerPos ≥ 0 then
          match slice value (startArrayPos + 1) endArrayPos with
          | none => .error (.panic .sliceBounds)
          | some v =>
            .ok ({ key := key, value := value, lines := lines,
                   innerData := TrimSpace v }, rest)
        else
          .ok ({ key := key, value := value, lines := lines,
                 innerData := innerData }, rest)

/-- The part of one iteration of the loop of `decodeState.unmarshal` that reads
the entry starting at the trimmed line `line` (which is neither empty nor a
comment), with `rest` the raw lines after it: the entry and the raw lines left.
Since the line contains the separator, `strings.SplitN(line, ":", 2)` has exactly
two elements, the text before the first separator and the text after it. -/
def parseEntry (line : Str) (rest : List Str) : Except Fault (Entry × List Str) :=
  let valueSeparatorPos := Index line ':'
  if valueSeparatorPos ≥ 0 then
    let matches0 := line.take valueSeparatorPos.toNat
    let matches1 := line.drop (valueSeparatorPos.toNat + 1)
    match (if matches1.length = 0 then keyOnlyValue rest else .ok (matches1, rest)) with
    | .error p => .error p
    | .ok (matches1, rest) =>
      parseValue (TrimSpace matches0) (removeComment (TrimSpace matches1)) rest
  else .error (.error .couldNotDecodeLine)

/-- The loop `for _, line := range lines` that appends the array elements to a
slice field. -/
def setSliceValues (fo : FloatOps F) (f : field F) : List Str → Option Fault × field F
  | [] => (none, f)
  | line :: rest =>
    match unwrapQuotationMarks line with
    | .error p => (some p, f)
    | .ok v =>
      match setSliceValue fo f v with
      | .error p => (some (p.wrap .parseLine), f)
      | .ok f1 => setSliceValues fo f1 rest

/-- The body of the loop `for _, f := range fields` for one descriptor: how the
iteration ends (`none` when the loop goes on) and the descriptor afterwards.
`inner` is the recursive call of `Unmarshal` on the lines of a nested text;
`f.Value.Addr().Interface()` panics on the handle of an unexported field. -/
def assignField (inner : List Str → List (field F) → Option Fault × List (field F))
    (fo : FloatOps F) (e : Entry) (f : field F) : Option Fault × field F :=
  if f.Tag = ['-'] then (none, f)
  else if f.Tag = e.key then
    let isArray := decide (e.lines.length > 0)
    let isInner := decide (e.innerData.length > 0)
    if isArray ∧ ¬ f.IsArray then (some (.error .arrayIntoNonSlice), f)
    else if isArray ∧ f.IsArray then setSliceValues fo f e.lines
    else if isInner ∧ ¬ f.IsInner then (some (.error .innerIntoNonStruct), f)
    else if isInner ∧ f.IsInner then
      match f.Value with
      | .struct decls =>
        if f.Exported then
          let r := inner (scanLines e.innerData) (fieldsOf decls)
          (r.1.map (Fault.wrap .parseInner), { f with Value := .struct (store decls r.2) })
        else (some (.panic .reflect), f)
      | _ => (none, f)
    else
      match removeCommaFromEnd e.value with
      | .error p => (some p, f)
      | .ok v =>
        match unwrapQuotationMarks v with
        | .error p => (some p, f)
        | .ok v =>
          match setValue fo f v with
          | .error p => (some (p.wrap .parseLine), f)
          | .ok f1 => (none, f1)
  else (none, f)

/-- The loop `for _, f := range fields`: it stops at the first descriptor whose
iteration fails. -/
def assignFields (inner : List Str → List (field F) → Option Fault × List (field F))
    (fo : FloatOps F) (e : Entry) : List (field F) → Option Fault × List (field F)
  | [] => (none, [])
  | f :: fs =>
    match assignField inner fo e f with
    | (some p, f1) => (some p, f1 :: fs)
    | (none, f1) =>
      let r := assignFields inner fo e fs
      (r.1, f1 :: r.2)

/-- The main loop of `decodeState.unmarshal` on the remaining raw lines and the
descriptors: how the call ends and the descriptors afterwards. -/
def unmarshalLoop (fo : FloatOps F) :
    Nat → List Str → List (field F) → Option Fault × List (field F)
  | _, [], fields => (none, fields)
  | 0, _ :: _, fields => (some .outOfFuel, fields)
  | n + 1, raw :: rest, fields =>
    let line := TrimSpace raw
    if line.length < 1 ∨ line.head? = some '#' then unmarshalLoop fo n rest fields
    else
      match parseEntry line rest with
      | .error p => (some p, fields)
      | .ok (e, rest1) =>
        match assignFields (unmarshalLoop fo n) fo e fields with
        | (some p, fields1) => (some p, fields1)
        | (none, fields1) => unmarshalLoop fo n rest1 fields1

/-- The function `Unmarshal`: how the call ends (`none` for a nil error) and the
argument afterwards. -/
def Unmarshal (fo : FloatOps F) (data : Str) (v : Arg F) : Option Fault × Arg F :=
  match v with
  | .nil => (some (.error .decodeNotPointer), v)
  | .value _ => (some (.error .decodeNotPointer), v)
  | .pointer none => (some (.error .decodeNil), v)
  | .pointer (some (.struct decls)) =>
    let lines := scanLines data
    let r := unmarshalLoop fo (data.length + 1) lines (fieldsOf decls)
    (r.1, .pointer (some (.struct (store decls r.2))))
  | .pointer (some _) => (some (.error .decodeNotStruct), v)

/-! ## Encoding -/

/-- The rendering `%d` of a signed integer. -/
def formatInt (n : Int) : Str :=
  if n < 0 then '-' :: Nat.toDigits 10 n.natAbs else Nat.toDigits 10 n.natAbs

/-- The rendering of a boolean. -/
def formatBool (b : Bool) : Str :=
  if b then ['t', 'r', 'u', 'e'] else ['f', 'a', 'l', 's', 'e']

/-- The renderings `%v` of the elements of a slice. -/
def SliceValue.shown (fo : FloatOps F) : SliceValue F → List Str
  | .strings xs => xs
  | .bools xs => xs.map formatBool
  | .ints _ xs => xs.map formatInt
  | .uints _ xs => xs.map (Nat.toDigits 10)
  | .floats _ xs => xs.map fo.fmtV
  | .others shown => shown

/-- The function `marshalField`. -/
def marshalField (fo : FloatOps F) (f : field F) : Except Fault Str :=
  match f.Value with
  | .string s => .ok (f.Tag ++ [':', ' ', sq] ++ s ++ [sq])
  | .int _ n => .ok (f.Tag ++ [':', ' '] ++ formatInt n)
  | .uint _ n => .ok (f.Tag ++ [':', ' '] ++ Nat.toDigits 10 n)
  | .float _ x => .ok (f.Tag ++ [':', ' '] ++ fo.fmtF x)
  | .bool b => .ok (f.Tag ++ [':', ' '] ++ formatBool b)
  | _ => .error (.error .couldNotEncode)

/-- The entry `Marshal` emits for a slice field. -/
def arrayEntry (tag : Str) (elems : List Str) : Str :=
  tag ++ [':', ' ', '[', '\n'] ++
    Join (elems.map (fun e => [' ', ' ', sq] ++ e ++ [sq])) [',', '\n'] ++ ['\n', ']']

/-- The entry `Marshal` emits for a nested record whose encoding is `out`. -/
def innerEntry (tag : Str) (out : Str) : Str :=
  tag ++ [':', ' ', lbrace, '\n', ' ', ' '] ++ ReplaceAll out '\n' ['\n', ' ', ' '] ++
    ['\n', rbrace]

mutual
/-- The entry `Marshal` emits for a field with external key `tag` that is not
excluded; `exported` tells whether the field is exported.  For a nested record,
`field.Value.Interface()` panics on the handle of an unexported field. -/
def marshalEntry (fo : FloatOps F) (tag : Str) (exported : Bool) :
    Value F → Except Fault Str
  | .slice xs => .ok (arrayEntry tag (xs.shown fo))
  | .struct decls =>
    if exported then
      match marshalLines fo decls with
      | .error p => .error (p.wrap .marshalInner)
      | .ok ls => .ok (innerEntry tag (Join ls [',', '\n']))
    else .error (.panic .reflect)
  | v =>
    match marshalField fo { Tag := tag, Value := v, Exported := exported } with
    | .error p => .error (p.wrap .marshalField)
    | .ok line => .ok line
/-- The loop of `Marshal` over the fields of a struct: the entries, in order. -/
def marshalLines (fo : FloatOps F) : List (StructField × Value F) → Except Fault (List Str)
  | [] => .ok []
  | (sf, v) :: rest =>
    if (mkField (sf, v)).Tag = ['-'] then marshalLines fo rest
    else
      match marshalEntry fo (mkField (sf, v)).Tag sf.IsExported v with
      | .error p => .error p
      | .ok line =>
        match marshalLines fo rest with
        | .error p => .error p
        | .ok ls => .ok (line :: ls)
end

/-- The function `Marshal`.  For an argument that is neither a struct nor a
pointer, building the error message panics (`rv.Elem()`, and `rv.Type()` for a
nil interface).  The handles of the fields of a struct passed by value are
read-only exactly for the unexported fields. -/
def Marshal (fo : FloatOps F) (v : Arg F) : Except Fault Str :=
  match v with
  | .nil => .error (.panic .reflect)
  | .value (.struct decls) =>
    match marshalLines fo decls with
    | .error p => .error p
    | .ok ls => .ok (Join ls [',', '\n'])
  | .value _ => .error (.panic .reflect)
  | .pointer _ => .error (.error .encodeNotStruct)

/-- Floating point operations for closed examples: floats are not inspected. -/
def unitFloat : FloatOps Unit :=
  { zero := (), parse := fun _ _ => (), fmtF := fun _ => [], fmtV := fun _ => [] }

mutual
/-- The zero value of the type of a value. -/
def Value.zero (fo : FloatOps F) : Value F → Value F
  | .string _ => .string []
  | .bool _ => .bool false
  | .int k _ => .int k 0
  | .uint k _ => .uint k 0
  | .float k _ => .float k fo.zero
  | .slice (.strings _) => .slice (.strings [])
  | .slice (.bools _) => .slice (.bools [])
  | .slice (.ints k _) => .slice (.ints k [])
  | .slice (.uints k _) => .slice (.uints k [])
  | .slice (.floats k _) => .slice (.floats k [])
  | .slice (.others _) => .slice (.others [])
  | .struct decls => .struct (zeroFields fo decls)
  | .other _ => .other 0
/-- The zero values of the fields of a struct. -/
def zeroFields (fo : FloatOps F) : List (StructField × Value F) → List (StructField × Value F)
  | [] => []
  | (sf, v) :: rest => (sf, Value.zero fo v) :: zeroFields fo rest
end

/-! ## Vocabulary of the statements -/

/-- The descriptor `g` is a later state of the descriptor `f`: the key is the
same, and an excluded field still holds its value. -/
def Framed (f g : field F) : Prop := g.Tag = f.Tag ∧ (f.Tag = ['-'] → g = f)

/-- The total size of a list of lines, each counted with its line feed. -/
def textSize (lines : List Str) : Nat := (lines.map (fun l => l.length + 1)).sum

/-- Characters a key may consist of for the line `key: value` to be read back as
that key: no white space, no separator, no comment marker, no curly brace.
Letters, digits and the underscore all qualify. -/
def keyChar (c : Char) : Bool :=
  !isSpace c && c != ':' && c != '#' && c != lbrace && c != rbrace

/-- A well-formed external key: non-empty, not the exclusion mark `-`, made of
key characters.  Every identifier is one. -/
def IsKey (k : Str) : Prop := k ≠ [] ∧ k ≠ ['-'] ∧ ∀ c ∈ k, keyChar c = true

/-- Characters of a plain token: no white space, comment marker, bracket, curly
brace, comma or quotation mark.  Letters, digits and hyphens all qualify. -/
def tokenChar (c : Char) : Bool :=
  !isSpace c && c != '#' && c != '[' && c != ']' && c != lbrace && c != rbrace &&
  c != ',' && c != sq && c != dq

/-- The characters that keep a value on one line and out of the comment, array
and nested-record branches of the decoder. -/
def plainChar (c : Char) : Prop :=
  c ≠ '#' ∧ c ≠ '[' ∧ c ≠ ']' ∧ c ≠ lbrace ∧ c ≠ rbrace ∧ c ≠ '\n'

instance : DecidablePred plainChar := fun c => by
  unfold plainChar
  infer_instance

/-- A string value free of the comment marker, brackets, curly braces and line
feeds. -/
def CleanStr (s : Str) : Prop := ∀ c ∈ s, plainChar c

instance (k : Str) : Decidable (IsKey k) := by
  unfold IsKey
  infer_instance

instance (s : Str) : Decidable (CleanStr s) := by
  unfold CleanStr
  infer_instance

/-- A token between double quotation marks. -/
def dquote (t : Str) : Str := dq :: (t ++ [dq])

/-- The single-line array `k: ["t1","t2"]`, elements separated by commas. -/
def arrayCommaForm (k : Str) (ts : List Str) : Str :=
  k ++ [':', ' ', '['] ++ Join (ts.map dquote) [','] ++ [']']

/-- The single-line array `k: [ "t1", "t2"]`, elements separated by a comma and a
space. -/
def arrayCommaSpaceForm (k : Str) (ts : List Str) : Str :=
  k ++ [':', ' ', '[', ' '] ++ Join (ts.map dquote) [',', ' '] ++ [']']

/-- An element line of a multi-line array: two spaces, the quoted token and an
optional trailing comma. -/
def arrayLine (t : Str) (comma : Bool) : Str :=
  [' ', ' '] ++ dquote t ++ (if comma then [','] else [])

/-- The multi-line array with one quoted element per line; `commas` tells for each
element whether its line ends with a comma. -/
def arrayMultiLineForm (k : Str) (ts : List Str) (commas : List Bool) : Str :=
  k ++ [':', ' ', '[', '\n'] ++
    (List.zipWith arrayLine ts commas).flatMap (fun l => l ++ ['\n']) ++ [']']

/-- The list `xs` with `p` appended to every element but the last: the pieces of
`Join xs (p ++ [c])` between the occurrences of `c`. -/
def sepInit (p : Str) : List Str → List Str
  | [] => []
  | [x] => [x]
  | x :: y :: r => (x ++ p) :: sepInit p (y :: r)

/-- The range of a signed integer kind. -/
def IntKind.InRange (k : IntKind) (n : ℤ) : Prop :=
  -(2 : ℤ) ^ (k.bits - 1) ≤ n ∧ n < (2 : ℤ) ^ (k.bits - 1)

/-- A value that is a string, bool or signed-integer scalar, with a clean string
and an integer within the range of its type. -/
def IsScalar : Value F → Prop
  | .string s => CleanStr s
  | .bool _ => True
  | .int k n => k.InRange n
  | _ => False

/-- The text `Marshal` writes after the key and the separator for a string, bool
or signed-integer field. -/
def scalarText : Value F → Str
  | .string s => sq :: (s ++ [sq])
  | .bool b => formatBool b
  | .int _ n => formatInt n
  | _ => []

/-- The entry `Marshal` writes for a string, bool or signed-integer field. -/
def scalarEntry (d : StructField × Value F) : Str :=
  (mkField d).Tag ++ ':' :: ' ' :: scalarText d.2

/-- The entry `Marshal` writes for a scalar field or for a nested record of
scalars. -/
def nestedEntry (d : StructField × Value F) : Str :=
  match d.2 with
  | .struct inner => innerEntry (mkField d).Tag (Join (inner.map scalarEntry) [',', '\n'])
  | _ => scalarEntry d

/-- The lines of the entry of a field followed by `comma`. -/
def entryLines (comma : Str) (d : StructField × Value F) : List Str :=
  match d.2 with
  | .struct inner =>
    ((mkField d).Tag ++ [':', ' ', lbrace]) ::
      ((Split (Join (inner.map scalarEntry) [',', '\n']) '\n').map (fun l => [' ', ' '] ++ l)
        ++ [rbrace :: comma])
  | _ => [scalarEntry d ++ comma]

/-- The lines of the encoding of a record of scalars and nested records of
scalars. -/
def recordLines : List (StructField × Value F) → List Str
  | [] => []
  | [d] => entryLines [] d
  | d :: e :: r => entryLines [','] d ++ recordLines (e :: r)

instance (k : IntKind) (n : ℤ) : Decidable (k.InRange n) :=
  inferInstanceAs (Decidable (-(2 : ℤ) ^ (k.bits - 1) ≤ n ∧ n < (2 : ℤ) ^ (k.bits - 1)))

instance : (v : Value F) → Decidable (IsScalar v)
  | .string s => inferInstanceAs (Decidable (CleanStr s))
  | .bool _ => inferInstanceAs (Decidable True)
  | .int k n => inferInstanceAs (Decidable (k.InRange n))
  | .uint _ _ => inferInstanceAs (Decidable False)
  | .float _ _ => inferInstanceAs (Decidable False)
  | .slice _ => inferInstanceAs (Decidable False)
  | .struct _ => inferInstanceAs (Decidable False)
  | .other _ => inferInstanceAs (Decidable False)

/-- A record whose fields are exported scalars with well-formed, pairwise
distinct keys. -/
def ScalarRecord (decls : List (StructField × Value F)) : Prop :=
  (∀ d ∈ decls, IsKey (mkField d).Tag ∧ IsScalar d.2) ∧
  ((fieldsOf decls).map (fun f => f.Tag)).Nodup ∧
  ∀ d ∈ decls, d.1.IsExported = true

instance (decls : List (StructField × Value F)) : Decidable (ScalarRecord decls) :=
  inferInstanceAs (Decidable ((∀ d ∈ decls, IsKey (mkField d).Tag ∧ IsScalar d.2) ∧
    ((fieldsOf decls).map (fun f : field F => f.Tag)).Nodup ∧
    ∀ d ∈ decls, d.1.IsExported = true))

/-- A field value that is a scalar or a nested record of scalars. -/
def IsScalarOrNested : Value F → Prop
  | .struct decls => ScalarRecord decls
  | v => IsScalar v

/-- A record whose fields are exported scalars or nested records of exported
scalars, with well-formed, pairwise distinct keys. -/
def NestedRecord (decls : List (StructField × Value F)) : Prop :=
  (∀ d ∈ decls, IsKey (mkField d).Tag ∧ IsScalarOrNested d.2) ∧
  ((fieldsOf decls).map (fun f => f.Tag)).Nodup ∧
  ∀ d ∈ decls, d.1.IsExported = true

instance : (v : Value F) → Decidable (IsScalarOrNested v)
  | .struct decls => inferInstanceAs (Decidable (ScalarRecord decls))
  | .string s => inferInstanceAs (Decidable (CleanStr s))
  | .bool _ => inferInstanceAs (Decidable True)
  | .int k n => inferInstanceAs (Decidable (k.InRange n))
  | .uint _ _ => inferInstanceAs (Decidable False)
  | .float _ _ => inferInstanceAs (Decidable False)
  | .slice _ => inferInstanceAs (Decidable False)
  | .other _ => inferInstanceAs (Decidable False)

instance (decls : List (StructField × Value F)) : Decidable (NestedRecord decls) :=
  inferInstanceAs (Decidable ((∀ d ∈ decls, IsKey (mkField d).Tag ∧ IsScalarOrNested d.2) ∧
    ((fieldsOf decls).map (fun f : field F => f.Tag)).Nodup ∧
    ∀ d ∈ decls, d.1.IsExported = true))

/-- Every line of a text is shorter than the limit of the scanner. -/
def ShortLines (data : Str) : Prop := ∀ l ∈ Split data '\n', byteLen l < MaxScanTokenSize

instance (data : Str) : Decidable (ShortLines data) := by
  unfold ShortLines
  infer_instance

/-- The lines of a text when none of them reaches the limit of the scanner. -/
def allLines (data : Str) : List Str := (rawLines data).map dropCR

/-! ## Example records -/

/-- A declared field of package `main` with the given name and `cfg` tag, for the
examples, whose names are ASCII: the field is exported when its name begins with
one of the letters `A` to `Z`. -/
def declared (name tag : String) : StructField :=
  { Name := name.toList,
    PkgPath :=
      match name.toList with
      | c :: _ => if 65 ≤ c.toNat ∧ c.toNat ≤ 90 then [] else ['m', 'a', 'i', 'n']
      | [] => ['m', 'a', 'i', 'n'],
    Tag := tag.toList }

/-- The record of the test "encode simple values", without its unsigned and
floating point fields. -/
def exScalars : List (StructField × Value Unit) :=
  [(declared "TestStr" "", .string "this is a string".toList),
   (declared "TestBool" "", .bool true),
   (declared "TestInt" "", .int .Int (-100))]

/-- The record of the test "encode inner struct". -/
def exNested : List (StructField × Value Unit) :=
  [(declared "StructSlice" "struct_slice",
    .struct [(declared "Working" "", .bool true), (declared "IntVal" "", .int .Int 42)])]

/-- A record with a nested record inside a nested record. -/
def exDeep : List (StructField × Value Unit) :=
  [(declared "A" "a", .struct [(declared "B" "b", .struct [(declared "C" "c", .string ['x'])])])]

/-- The record of the test "struct withing struct". -/
def exInner : List (StructField × Value Unit) :=
  [(declared "Value" "value", .struct [(declared "Test" "test", .bool false)])]

/-- The record of the test "slice value". -/
def exModules : List (StructField × Value Unit) :=
  [(declared "Modules" "modules", .slice (.strings []))]

/-- The record of the test "simple value". -/
def exValue : List (StructField × Value Unit) :=
  [(declared "Value" "value", .string [])]

/-! ## Vocabulary of the statements on targets, encodings and coercions -/

/-- A valid decode target: a non-nil pointer to a struct. -/
def Arg.IsStructPointer : Arg F → Prop
  | .pointer (some (.struct _)) => True
  | _ => False

/-- The test of the main loop of `decodeState.unmarshal` that skips a raw line:
after trimming, the line is empty or begins with the comment marker. -/
def IsBlankOrComment (raw : Str) : Prop :=
  (TrimSpace raw).length < 1 ∨ (TrimSpace raw).head? = some '#'

instance (raw : Str) : Decidable (IsBlankOrComment raw) := by
  unfold IsBlankOrComment
  infer_instance

/-- A field value that is a string, bool, signed-integer or unsigned-integer
scalar. -/
def IsPlainScalar : Value F → Prop
  | .string _ => True
  | .bool _ => True
  | .int _ _ => True
  | .uint _ _ => True
  | _ => False

instance : (v : Value F) → Decidable (IsPlainScalar v)
  | .string _ => inferInstanceAs (Decidable True)
  | .bool _ => inferInstanceAs (Decidable True)
  | .int _ _ => inferInstanceAs (Decidable True)
  | .uint _ _ => inferInstanceAs (Decidable True)
  | .float _ _ => inferInstanceAs (Decidable False)
  | .slice _ => inferInstanceAs (Decidable False)
  | .struct _ => inferInstanceAs (Decidable False)
  | .other _ => inferInstanceAs (Decidable False)

/-- The entry the specification prescribes for a scalar field: the external key,
a colon and a space, then the string between single quotation marks, the word
`true` or `false`, or the base-10 numeral of the integer. -/
def plainEntry (d : StructField × Value F) : Str :=
  match d.2 with
  | .string s => (mkField d).Tag ++ [':', ' '] ++ [sq] ++ s ++ [sq]
  | .bool true => (mkField d).Tag ++ [':', ' '] ++ ['t', 'r', 'u', 'e']
  | .bool false => (mkField d).Tag ++ [':', ' '] ++ ['f', 'a', 'l', 's', 'e']
  | .int _ n => (mkField d).Tag ++ [':', ' '] ++ (if n < 0 then ['-'] else []) ++ Nat.toDigits 10 n.natAbs
  | .uint _ n => (mkField d).Tag ++ [':', ' '] ++ Nat.toDigits 10 n
  | _ => []

/-- A decimal digit character. -/
def isDecimalDigit (c : Char) : Bool := decide (48 ≤ c.toNat ∧ c.toNat ≤ 57)

/-- The number a string of decimal digits denotes in positional notation, the
most significant digit first. -/
def digitsValue : Str → Nat
  | [] => 0
  | c :: cs => (c.toNat - 48) * 10 ^ cs.length + digitsValue cs

/-- The specification of `uintValue` on valid input: the value of a base-10
numeral (one or more decimal digits) within the range of `uint64`; `none` for
every other string. -/
def unsignedNumeral (s : Str) : Option Nat :=
  if s ≠ [] ∧ (∀ c ∈ s, isDecimalDigit c = true) ∧ digitsValue s < 2 ^ 64 then
    some (digitsValue s)
  else none

/-- The sign and the digits of a signed numeral: one leading `+` or `-` is the
sign. -/
def splitSign (s : Str) : Bool × Str :=
  match s with
  | [] => (false, [])
  | c :: cs => if c = '+' then (false, cs) else if c = '-' then (true, cs) else (false, c :: cs)

/-- The specification of `intValue` on valid input: the value of a base-10
numeral (an optional sign and one or more decimal digits) within the range of
`int64`; `none` for every other string. -/
def signedNumeral (s : Str) : Option ℤ :=
  let ds := (splitSign s).2
  let n : ℤ := if (splitSign s).1 then -(digitsValue ds : ℤ) else (digitsValue ds : ℤ)
  if ds ≠ [] ∧ (∀ c ∈ ds, isDecimalDigit c = true) ∧ -(2 : ℤ) ^ 63 ≤ n ∧ n < (2 : ℤ) ^ 63 then
    some n
  else none

/-- The specification of `boolValue`: the tokens that read as true, which are the
words `t`, `true`, `y`, `yes` and `1` with each letter in either case. -/
def trueTokens : List Str :=
  ["t", "T",
   "true", "truE", "trUe", "trUE", "tRue", "tRuE", "tRUe", "tRUE",
   "True", "TruE", "TrUe", "TrUE", "TRue", "TRuE", "TRUe", "TRUE",
   "y", "Y",
   "yes", "yeS", "yEs", "yES", "Yes", "YeS", "YEs", "YES",
   "1"].map String.toList

/-- The record of the test "encode simple values", without its floating point
field. -/
def exSimple : List (StructField × Value Unit) :=
  [(declared "TestStr" "", .string "this is a string".toList),
   (declared "TestBool" "", .bool true),
   (declared "TestInt" "", .int .Int (-100)),
   (declared "TestUint" "test_uint", .uint .Uint 100)]

/-- The external key the specification gives a declared field: the tag with the
surrounding white space removed when that is not empty, and the declared name
otherwise. -/
def specifiedKey (sf : StructField) : Str :=
  if TrimSpace sf.Tag ≠ [] then TrimSpace sf.Tag else sf.Name

/-- The external key by the order of the two steps: the tag with the surrounding
white space removed when the tag is not empty, and the declared name otherwise. -/
def resolvedKey (sf : StructField) : Str :=
  if sf.Tag ≠ [] then TrimSpace sf.Tag else sf.Name

/-- The record of the test of `extractFields`. -/
def exFields : List (StructField × Value Unit) :=
  [(declared "F1" "", .int .Int 0),
   (declared "F2" "value_f2", .bool false),
   (declared "F3" "", .slice (.strings [])),
   (declared "F4" "", .string [])]

/-- A string between single quotation marks. -/
def squote (e : Str) : Str := sq :: (e ++ [sq])

/-- The line `Marshal` writes for an element of a slice: two spaces and the
element between single quotation marks. -/
def elementLine (e : Str) : Str := [' ', ' '] ++ squote e

end Cfg

namespace Cfg

variable {F : Type}

/-! ## Strings -/

theorem Index_ge (s : Str) (c : Char) : -1 ≤ Index s c := by
  induction s with
  | nil => simp [Index]
  | cons x xs ih =>
    simp only [Index]
    split_ifs <;> omega

theorem Index_of_not_mem {s : Str} {c : Char} (h : c ∉ s) : Index s c = -1 := by
  induction s with
  | nil => simp [Index]
  | cons x xs ih =>
    simp only [List.mem_cons, not_or] at h
    simp only [Index, if_neg (Ne.symm h.1), ih h.2]
    simp

theorem Index_append_cons {a : Str} {c : Char} (b : Str) (h : c ∉ a) :
    Index (a ++ c :: b) c = a.length := by
  induction a with
  | nil => simp [Index]
  | cons x xs ih =>
    simp only [List.mem_cons, not_or] at h
    have ih1 := ih h.2
    show Index (x :: (xs ++ c :: b)) c = _
    simp only [Index, if_neg (Ne.symm h.1), ih1, List.length_cons]
    split_ifs <;> push_cast <;> omega

theorem exists_first_split {s : Str} {c : Char} (h : c ∈ s) :
    ∃ a b, s = a ++ c :: b ∧ c ∉ a := by
  induction s with
  | nil => simp at h
  | cons x xs ih =>
    by_cases hx : x = c
    · exact ⟨[], xs, by simp [hx], by simp⟩
    · have hm : c ∈ xs := by
        rcases List.mem_cons.1 h with h1 | h1
        · exact absurd h1.symm hx
        · exact h1
      obtain ⟨a, b, hab, hna⟩ := ih hm
      refine ⟨x :: a, b, by simp [hab], ?_⟩
      simp only [List.mem_cons, not_or]
      exact ⟨fun h1 => hx h1.symm, hna⟩

theorem Index_nonneg_iff {s : Str} {c : Char} : 0 ≤ Index s c ↔ c ∈ s := by
  constructor
  · intro h
    by_contra hc
    rw [Index_of_not_mem hc] at h
    omega
  · intro h
    obtain ⟨a, b, hab, hna⟩ := exists_first_split h
    rw [hab, Index_append_cons b hna]
    omega

theorem Index_neg_iff {s : Str} {c : Char} : Index s c < 0 ↔ c ∉ s := by
  rw [← Index_nonneg_iff]
  omega

theorem Contains_eq_true {s : Str} {c : Char} : Contains s c = true ↔ c ∈ s := by
  simp [Contains, Index_nonneg_iff]

theorem Contains_eq_false {s : Str} {c : Char} : Contains s c = false ↔ c ∉ s := by
  rw [← Contains_eq_true]
  simp

theorem TrimSpace_eq (s : Str) : TrimSpace s = (s.dropWhile isSpace).rdropWhile isSpace := rfl

theorem dropWhile_append_cons {a : Str} {c : Char} (b : Str) (hc : isSpace c = false) :
    (a ++ c :: b).dropWhile isSpace = a.dropWhile isSpace ++ c :: b := by
  induction a with
  | nil => simp [List.dropWhile, hc]
  | cons x xs ih =>
    by_cases hx : isSpace x = true
    · simp [List.dropWhile, hx, ih]
    · simp [List.dropWhile, hx]

theorem rdropWhile_append_cons (a : Str) {c : Char} (b : Str) (hc : isSpace c = false) :
    (a ++ c :: b).rdropWhile isSpace = a ++ c :: b.rdropWhile isSpace := by
  induction b using List.reverseRecOn with
  | nil =>
    rw [show a ++ [c] = List.concat a c by simp]
    simp [List.rdropWhile_concat, hc]
  | append_singleton ys y ih =>
    by_cases hy : isSpace y = true
    · rw [show a ++ c :: (ys ++ [y]) = (a ++ c :: ys) ++ [y] by simp]
      rw [List.rdropWhile_concat_pos _ _ _ hy, List.rdropWhile_concat_pos _ _ _ hy, ih]
    · rw [show a ++ c :: (ys ++ [y]) = (a ++ c :: ys) ++ [y] by simp]
      rw [List.rdropWhile_concat_neg _ _ _ hy, List.rdropWhile_concat_neg _ _ _ hy]
      simp

/-- Trimming a text around a character that is not white space. -/
theorem TrimSpace_append_cons (a : Str) {c : Char} (b : Str) (hc : isSpace c = false) :
    TrimSpace (a ++ c :: b) = a.dropWhile isSpace ++ c :: b.rdropWhile isSpace := by
  rw [TrimSpace_eq, dropWhile_append_cons b hc, rdropWhile_append_cons _ b hc]

theorem TrimSpace_nil : TrimSpace [] = [] := rfl

theorem dropWhile_all_space {s : Str} (h : ∀ c ∈ s, isSpace c = true) :
    s.dropWhile isSpace = [] := by
  induction s with
  | nil => rfl
  | cons x xs ih =>
    simp only [List.mem_cons, forall_eq_or_imp] at h
    simp [List.dropWhile, h.1, ih h.2]

theorem TrimSpace_all_space {s : Str} (h : ∀ c ∈ s, isSpace c = true) : TrimSpace s = [] := by
  rw [TrimSpace_eq, dropWhile_all_space h]
  rfl

theorem rdropWhile_no_space {s : Str} (h : ∀ c ∈ s, isSpace c = false) :
    s.rdropWhile isSpace = s := by
  rw [List.rdropWhile_eq_self_iff]
  intro hne
  simpa using h _ (List.getLast_mem hne)

theorem dropWhile_no_space {s : Str} (h : ∀ c ∈ s, isSpace c = false) :
    s.dropWhile isSpace = s := by
  cases s with
  | nil => rfl
  | cons x xs => simp [List.dropWhile, h x (by simp)]

theorem TrimSpace_no_space {s : Str} (h : ∀ c ∈ s, isSpace c = false) : TrimSpace s = s := by
  rw [TrimSpace_eq, dropWhile_no_space h, rdropWhile_no_space h]

theorem TrimSpace_sublist (s : Str) : (TrimSpace s).Sublist s := by
  rw [TrimSpace_eq]
  exact (List.IsPrefix.sublist ( List.rdropWhile_prefix _ _)).trans (List.dropWhile_suffix _).sublist

theorem mem_of_mem_TrimSpace {s : Str} {c : Char} (h : c ∈ TrimSpace s) : c ∈ s :=
  (TrimSpace_sublist s).subset h

theorem length_TrimSpace_le (s : Str) : (TrimSpace s).length ≤ s.length :=
  (TrimSpace_sublist s).length_le

theorem TrimSpace_leading {w : Str} (s : Str) (h : ∀ c ∈ w, isSpace c = true) :
    TrimSpace (w ++ s) = TrimSpace s := by
  induction w with
  | nil => rfl
  | cons x xs ih =>
    simp only [List.mem_cons, forall_eq_or_imp] at h
    rw [← ih h.2]
    simp [TrimSpace_eq, List.dropWhile, h.1]

/-- A text is either white space throughout or splits around its first character
that is not white space. -/
theorem space_or_split (s : Str) :
    (∀ c ∈ s, isSpace c = true) ∨
    ∃ w c t, s = w ++ c :: t ∧ (∀ x ∈ w, isSpace x = true) ∧ isSpace c = false := by
  induction s with
  | nil => left; simp
  | cons x xs ih =>
    by_cases hx : isSpace x = true
    · rcases ih with h | ⟨w, c, t, hs, hw, hc⟩
      · left
        simpa [hx] using h
      · right
        refine ⟨x :: w, c, t, by simp [hs], ?_, hc⟩
        simpa [hx] using hw
    · right
      exact ⟨[], x, xs, rfl, by simp, by simpa using hx⟩

theorem TrimSpace_idem (s : Str) : TrimSpace (TrimSpace s) = TrimSpace s := by
  rcases space_or_split s with h | ⟨w, c, t, hs, hw, hc⟩
  · rw [TrimSpace_all_space h]
    rfl
  · rw [hs, TrimSpace_leading _ hw]
    have h1 : TrimSpace (c :: t) = c :: t.rdropWhile isSpace := by
      simpa using TrimSpace_append_cons [] t hc
    rw [h1]
    have h2 := TrimSpace_append_cons [] (t.rdropWhile isSpace) hc
    simp only [List.nil_append, List.dropWhile_nil] at h2
    rw [h2]
    congr 1
    rw [List.rdropWhile_eq_self_iff]
    intro hne
    have := List.rdropWhile_last_not isSpace t hne
    simpa using this

end Cfg

namespace Cfg

variable {F : Type}

/-! ## Lines -/

theorem Split_ne_nil (s : Str) (c : Char) : Split s c ≠ [] := by
  induction s with
  | nil => simp [Split]
  | cons x xs ih =>
    simp only [Split]
    split_ifs
    · simp
    · split <;> simp

theorem Split_of_not_mem {s : Str} {c : Char} (h : c ∉ s) : Split s c = [s] := by
  induction s with
  | nil => rfl
  | cons x xs ih =>
    simp only [List.mem_cons, not_or] at h
    simp only [Split, if_neg (Ne.symm h.1), ih h.2]

theorem Split_append_cons {a : Str} {c : Char} (b : Str) (h : c ∉ a) :
    Split (a ++ c :: b) c = a :: Split b c := by
  induction a with
  | nil => simp [Split]
  | cons x xs ih =>
    simp only [List.mem_cons, not_or] at h
    show Split (x :: (xs ++ c :: b)) c = _
    simp only [Split, if_neg (Ne.symm h.1), ih h.2]

@[simp] theorem textSize_nil : textSize [] = 0 := rfl

@[simp] theorem textSize_cons (l : Str) (ls : List Str) :
    textSize (l :: ls) = l.length + 1 + textSize ls := by
  simp [textSize]

theorem textSize_append (xs ys : List Str) :
    textSize (xs ++ ys) = textSize xs + textSize ys := by
  simp [textSize]

theorem textSize_Split (s : Str) (c : Char) : textSize (Split s c) = s.length + 1 := by
  induction s with
  | nil => simp [Split]
  | cons x xs ih =>
    simp only [Split]
    split_ifs
    · simp only [textSize_cons, ih, List.length_nil, List.length_cons]
      omega
    · split
      · next h => exact absurd h (Split_ne_nil xs c)
      · next l ls h =>
        rw [h] at ih
        simp only [textSize_cons, List.length_cons] at ih ⊢
        omega

theorem textSize_dropLast_le (ls : List Str) : textSize ls.dropLast ≤ textSize ls := by
  induction ls with
  | nil => simp
  | cons l ls ih =>
    cases ls with
    | nil => simp
    | cons l2 ls2 =>
      simp only [List.dropLast_cons₂, textSize_cons] at ih ⊢
      omega

theorem length_dropCR_le (l : Str) : (dropCR l).length ≤ l.length := by
  unfold dropCR
  split_ifs <;> simp

theorem textSize_map_dropCR_le (ls : List Str) : textSize (ls.map dropCR) ≤ textSize ls := by
  induction ls with
  | nil => simp
  | cons l ls ih =>
    have := length_dropCR_le l
    simp only [List.map_cons, textSize_cons]
    omega

theorem textSize_takeWhile_le (p : Str → Bool) (ls : List Str) :
    textSize (ls.takeWhile p) ≤ textSize ls := by
  induction ls with
  | nil => simp
  | cons l ls ih =>
    rw [List.takeWhile_cons]
    split_ifs
    · simp only [textSize_cons]
      omega
    · simp [textSize]

theorem textSize_rawLines_le (data : Str) : textSize (rawLines data) ≤ data.length + 1 := by
  unfold rawLines
  have h := textSize_Split data '\n'
  simp only
  split_ifs
  · exact (textSize_dropLast_le _).trans h.le
  · exact h.le

/-- The lines of a text are no larger than the text. -/
theorem textSize_scanLines_le (data : Str) : textSize (scanLines data) ≤ data.length + 1 := by
  unfold scanLines
  exact (textSize_map_dropCR_le _).trans
    ((textSize_takeWhile_le _ _).trans (textSize_rawLines_le data))

theorem textSize_allLines_le (data : Str) : textSize (allLines data) ≤ data.length + 1 := by
  unfold allLines
  exact (textSize_map_dropCR_le _).trans (textSize_rawLines_le data)

theorem rawLines_cons {l : Str} (rest : Str) (h : '\n' ∉ l) :
    rawLines (l ++ '\n' :: rest) = l :: rawLines rest := by
  unfold rawLines
  simp only [Split_append_cons rest h]
  have hne := Split_ne_nil rest '\n'
  cases hs : Split rest '\n' with
  | nil => exact absurd hs hne
  | cons y ys =>
    simp only [List.getLast?_cons_cons]
    split_ifs <;> simp

theorem rawLines_single {l : Str} (h : '\n' ∉ l) (hne : l ≠ []) : rawLines l = [l] := by
  unfold rawLines
  simp [Split_of_not_mem h, hne]

theorem allLines_cons {l : Str} (rest : Str) (h : '\n' ∉ l) :
    allLines (l ++ '\n' :: rest) = dropCR l :: allLines rest := by
  unfold allLines
  rw [rawLines_cons rest h]
  rfl

theorem allLines_single {l : Str} (h : '\n' ∉ l) (hne : l ≠ []) :
    allLines l = [dropCR l] := by
  unfold allLines
  rw [rawLines_single h hne]
  rfl

theorem allLines_nil : allLines [] = [] := rfl

theorem scanLines_nil : scanLines [] = [] := rfl

/-! ## The limit of the scanner -/

theorem byteLen_nil : byteLen [] = 0 := rfl

theorem byteLen_cons (c : Char) (s : Str) : byteLen (c :: s) = utf8Size c + byteLen s := by
  simp [byteLen]

theorem byteLen_append (a b : Str) : byteLen (a ++ b) = byteLen a + byteLen b := by
  simp [byteLen]

theorem byteLen_sublist {a b : Str} (h : a.Sublist b) : byteLen a ≤ byteLen b := by
  induction h with
  | slnil => simp
  | cons c _ ih =>
    rw [byteLen_cons]
    omega
  | cons₂ c _ ih =>
    rw [byteLen_cons, byteLen_cons]
    omega

theorem Split_sublist {s l : Str} {c : Char} (h : l ∈ Split s c) : l.Sublist s := by
  induction s generalizing l with
  | nil =>
    simp only [Split, List.mem_singleton] at h
    subst h
    exact List.Sublist.refl _
  | cons x xs ih =>
    simp only [Split] at h
    split_ifs at h with hx
    · rcases List.mem_cons.1 h with h | h
      · subst h
        exact List.nil_sublist _
      · exact (ih h).cons _
    · cases hs : Split xs c with
      | nil => exact absurd hs (Split_ne_nil xs c)
      | cons y ys =>
        rw [hs] at h ih
        simp only [List.mem_cons] at h
        rcases h with h | h
        · subst h
          exact (ih (by simp)).cons₂ _
        · exact (ih (List.mem_cons_of_mem _ h)).cons _

theorem mem_Split_of_mem_rawLines {data l : Str} (h : l ∈ rawLines data) :
    l ∈ Split data '\n' := by
  unfold rawLines at h
  simp only at h
  split_ifs at h
  · exact List.mem_of_mem_dropLast h
  · exact h

/-- When every line is shorter than the limit, the scanner yields all the
lines. -/
theorem scanLines_eq_allLines {data : Str} (h : ShortLines data) :
    scanLines data = allLines data := by
  unfold scanLines allLines
  congr 1
  rw [List.takeWhile_eq_self_iff]
  intro l hl
  exact decide_eq_true (h l (mem_Split_of_mem_rawLines hl))

/-- A text shorter than the limit has short lines. -/
theorem ShortLines_of_byteLen {data : Str} (h : byteLen data < MaxScanTokenSize) :
    ShortLines data :=
  fun _ hl => lt_of_le_of_lt (byteLen_sublist (Split_sublist hl)) h

theorem ShortLines_cons {l rest : Str} (hl : '\n' ∉ l) :
    ShortLines (l ++ '\n' :: rest) ↔ byteLen l < MaxScanTokenSize ∧ ShortLines rest := by
  unfold ShortLines
  rw [Split_append_cons rest hl]
  simp

/-- The scanner yields a first line that is shorter than the limit and goes on
with the rest of the text. -/
theorem scanLines_cons {l : Str} (rest : Str) (h : '\n' ∉ l)
    (hs : byteLen l < MaxScanTokenSize) :
    scanLines (l ++ '\n' :: rest) = dropCR l :: scanLines rest := by
  unfold scanLines
  rw [rawLines_cons rest h, List.takeWhile_cons, if_pos (decide_eq_true hs)]
  rfl

theorem byteLen_of_ShortLines {l : Str} (h : '\n' ∉ l) (hs : ShortLines l) :
    byteLen l < MaxScanTokenSize :=
  hs l (by rw [Split_of_not_mem h]; simp)

theorem scanLines_single {l : Str} (h : '\n' ∉ l) (hne : l ≠ [])
    (hs : byteLen l < MaxScanTokenSize) : scanLines l = [dropCR l] := by
  rw [scanLines_eq_allLines (ShortLines_of_byteLen hs), allLines_single h hne]

theorem dropCR_of_getLast {l : Str} (h : l.getLast? ≠ some '\r') : dropCR l = l := by
  simp [dropCR, h]

/-! ## Sizes of what the decoder reads -/

theorem length_slice_le {s r : Str} {lo hi : Int} (h : slice s lo hi = some r) :
    r.length ≤ s.length := by
  unfold slice at h
  split_ifs at h
  simp only [Option.some.injEq] at h
  rw [← h]
  simp only [List.length_drop, List.length_take]
  omega

theorem mem_of_mem_slice {s r : Str} {lo hi : Int} (h : slice s lo hi = some r) {c : Char}
    (hc : c ∈ r) : c ∈ s := by
  unfold slice at h
  split_ifs at h
  simp only [Option.some.injEq] at h
  rw [← h] at hc
  exact List.mem_of_mem_take (List.mem_of_mem_drop hc)

theorem length_validLine_le {raw l : Str} (h : validLine raw = some l) :
    l.length ≤ raw.length := by
  unfold validLine at h
  simp only at h
  split_ifs at h
  · simp only [Option.some.injEq] at h
    rw [← h]
    exact (length_TrimSpace_le _).trans (by simp)
  · simp only [Option.some.injEq] at h
    rw [h]

theorem readNextValidLine_size {rest rest1 : List Str} {l : Str}
    (h : readNextValidLine rest = some (l, rest1)) :
    l.length + 1 + textSize rest1 ≤ textSize rest := by
  induction rest with
  | nil => simp [readNextValidLine] at h
  | cons raw rs ih =>
    unfold readNextValidLine at h
    split at h
    · have := ih h
      simp only [textSize_cons]
      omega
    · next l1 hv =>
      simp only [Option.some.injEq, Prod.mk.injEq] at h
      have := length_validLine_le hv
      rw [← h.1, ← h.2]
      simp only [textSize_cons]
      omega

theorem keyOnlyValue_size {rest rest1 : List Str} {l : Str}
    (h : keyOnlyValue rest = .ok (l, rest1)) :
    l.length + 1 + textSize rest1 ≤ textSize rest := by
  unfold keyOnlyValue at h
  split at h
  · simp at h
  · next nl r1 hr =>
    split_ifs at h
    simp only [Except.ok.injEq, Prod.mk.injEq] at h
    rw [← h.1, ← h.2]
    exact readNextValidLine_size hr

theorem scanArray_size {rest rest1 : List Str} {n : Nat} {acc ls : List Str}
    (h : scanArray rest n acc = .ok (ls, rest1)) : textSize rest1 ≤ textSize rest := by
  induction rest generalizing n acc with
  | nil => simp [scanArray] at h
  | cons raw rs ih =>
    unfold scanArray at h
    split at h
    · have := ih h
      simp only [textSize_cons]
      omega
    · split at h
      · simp at h
      · simp only at h
        split_ifs at h
        all_goals first
          | (simp only [Except.ok.injEq, Prod.mk.injEq] at h
             rw [← h.2]
             simp only [textSize_cons]
             omega)
          | (have h0 := ih h
             simp only [textSize_cons]
             omega)

theorem scanInner_size {rest rest1 : List Str} {n : Nat} {acc inner : Str}
    (h : scanInner rest n acc = .ok (inner, rest1)) :
    inner.length + textSize rest1 ≤ acc.length + textSize rest := by
  induction rest generalizing n acc with
  | nil => simp [scanInner] at h
  | cons raw rs ih =>
    unfold scanInner at h
    split at h
    · have := ih h
      simp only [textSize_cons]
      omega
    · next line hv =>
      have hl := length_validLine_le hv
      simp only at h
      have ht : ∀ k : Nat, (line.take k).length ≤ raw.length := fun k => by
        simp only [List.length_take]
        omega
      split_ifs at h
      all_goals first
        | (simp only [Except.ok.injEq, Prod.mk.injEq] at h
           rw [← h.1, ← h.2]
           have := ht (Index line rbrace).toNat
           simp only [textSize_cons, List.length_append, List.length_singleton]
           omega)
        | (have h1 := ih h
           have h2 := ht (Index line rbrace).toNat
           simp only [textSize_cons, List.length_append, List.length_singleton] at h1 h2 ⊢
           omega)

theorem oneLineArray_size {value v1 : Str} {a b : Int} {ls : List Str}
    (h : oneLineArray value a b = .ok (v1, ls)) : v1.length ≤ value.length := by
  unfold oneLineArray at h
  split at h
  · simp at h
  · next v hs =>
    simp only at h
    split at h
    · simp at h
    · simp only [Except.ok.injEq, Prod.mk.injEq] at h
      rw [← h.1]
      exact (length_TrimSpace_le _).trans (length_slice_le hs)

theorem length_removeComment_le (value : Str) : (removeComment value).length ≤ value.length := by
  unfold removeComment
  simp only
  split_ifs
  · exact (length_TrimSpace_le _).trans (by simp)
  · exact le_refl _

/-- What `parseValue` leaves to read is no larger than what it was given, and the
text of the nested record is no larger than the value and the lines together. -/
theorem parseValue_size {key value : Str} {rest rest1 : List Str} {e : Entry}
    (h : parseValue key value rest = .ok (e, rest1)) :
    textSize rest1 ≤ textSize rest ∧ e.innerData.length ≤ value.length + textSize rest := by
  unfold parseValue at h
  simp only at h
  split at h
  · simp at h
  · next lines r1 h1 =>
    have hr1 : textSize r1 ≤ textSize rest := by
      split_ifs at h1
      · exact scanArray_size h1
      · simp only [Except.ok.injEq, Prod.mk.injEq] at h1
        rw [← h1.2]
    split at h
    · simp at h
    · next v1 lines1 h2 =>
      have hv1 : v1.length ≤ value.length := by
        split_ifs at h2
        · exact oneLineArray_size h2
        · simp only [Except.ok.injEq, Prod.mk.injEq] at h2
          rw [← h2.1]
      split at h
      · simp at h
      · next inner r2 h3 =>
        have hr2 : inner.length + textSize r2 ≤ textSize r1 := by
          split_ifs at h3
          · simpa using scanInner_size h3
          · simp only [Except.ok.injEq, Prod.mk.injEq] at h3
            rw [← h3.1, ← h3.2]
            simp
        split_ifs at h
        · split at h
          · simp at h
          · next v hs =>
            simp only [Except.ok.injEq, Prod.mk.injEq] at h
            rw [← h.1, ← h.2]
            have := length_slice_le hs
            have := length_TrimSpace_le v
            simp only
            omega
        · simp only [Except.ok.injEq, Prod.mk.injEq] at h
          rw [← h.1, ← h.2]
          simp only
          omega

theorem parseEntry_size {line : Str} {rest rest1 : List Str} {e : Entry}
    (h : parseEntry line rest = .ok (e, rest1)) :
    textSize rest1 ≤ textSize rest ∧ e.innerData.length + 1 ≤ line.length + textSize rest := by
  unfold parseEntry at h
  simp only at h
  by_cases hpos : Index line ':' ≥ 0
  swap
  · rw [if_neg hpos] at h
    simp at h
  rw [if_pos hpos] at h
  have hmem : ':' ∈ line := Index_nonneg_iff.1 hpos
  obtain ⟨a, b, hab, hna⟩ := exists_first_split hmem
  have hidx : (Index line ':').toNat = a.length := by
    rw [hab, Index_append_cons b hna]
    simp
  rw [hidx] at h
  have hdrop : line.drop (a.length + 1) = b := by
    rw [hab]
    simp
  rw [hdrop] at h
  have hlen : line.length = a.length + 1 + b.length := by
    rw [hab]
    simp
    omega
  split at h
  · simp at h
  · next m1 r1 hk =>
    have hv := parseValue_size h
    have hc := length_removeComment_le (TrimSpace m1)
    have ht := length_TrimSpace_le m1
    split_ifs at hk
    · have := keyOnlyValue_size hk
      omega
    · simp only [Except.ok.injEq, Prod.mk.injEq] at hk
      obtain ⟨h1, h2⟩ := hk
      subst h1
      subst h2
      omega

end Cfg

namespace Cfg

variable {F : Type}

/-! ## The fuel of the main loop -/

theorem unmarshalLoop_nil (fo : FloatOps F) (n : Nat) (fields : List (field F)) :
    unmarshalLoop fo n [] fields = (none, fields) := by
  cases n <;> rfl

theorem unmarshalLoop_succ (fo : FloatOps F) (n : Nat) (raw : Str) (rest : List Str)
    (fields : List (field F)) :
    unmarshalLoop fo (n + 1) (raw :: rest) fields =
      if (TrimSpace raw).length < 1 ∨ (TrimSpace raw).head? = some '#' then
        unmarshalLoop fo n rest fields
      else
        match parseEntry (TrimSpace raw) rest with
        | .error p => (some p, fields)
        | .ok (e, rest1) =>
          match assignFields (unmarshalLoop fo n) fo e fields with
          | (some p, fields1) => (some p, fields1)
          | (none, fields1) => unmarshalLoop fo n rest1 fields1 := by
  rfl

theorem assignField_congr (fo : FloatOps F) (e : Entry) (f : field F)
    {inner1 inner2 : List Str → List (field F) → Option Fault × List (field F)}
    (h : ∀ fs, inner1 (scanLines e.innerData) fs = inner2 (scanLines e.innerData) fs) :
    assignField inner1 fo e f = assignField inner2 fo e f := by
  unfold assignField
  simp only [h]

theorem assignFields_congr (fo : FloatOps F) (e : Entry) (fields : List (field F))
    {inner1 inner2 : List Str → List (field F) → Option Fault × List (field F)}
    (h : ∀ fs, inner1 (scanLines e.innerData) fs = inner2 (scanLines e.innerData) fs) :
    assignFields inner1 fo e fields = assignFields inner2 fo e fields := by
  induction fields with
  | nil => rfl
  | cons f fs ih =>
    simp only [assignFields, assignField_congr fo e f h, ih]

/-- Fuel adequacy: once the fuel is at least the size of the remaining lines, the
result of the main loop no longer depends on it. -/
theorem unmarshalLoop_fuel (fo : FloatOps F) (n m : Nat) (lines : List Str)
    (fields : List (field F)) (hn : textSize lines ≤ n) (hm : textSize lines ≤ m) :
    unmarshalLoop fo n lines fields = unmarshalLoop fo m lines fields := by
  induction n generalizing m lines fields with
  | zero =>
    cases lines with
    | nil => rw [unmarshalLoop_nil, unmarshalLoop_nil]
    | cons raw rest => simp at hn
  | succ n ih =>
    cases lines with
    | nil => rw [unmarshalLoop_nil, unmarshalLoop_nil]
    | cons raw rest =>
      cases m with
      | zero => simp at hm
      | succ m =>
        simp only [textSize_cons] at hn hm
        rw [unmarshalLoop_succ, unmarshalLoop_succ]
        split_ifs with hskip
        · exact ih m rest fields (by omega) (by omega)
        · cases hp : parseEntry (TrimSpace raw) rest with
          | error p => rfl
          | ok r =>
            obtain ⟨e, rest1⟩ := r
            have hs := parseEntry_size hp
            have ht := length_TrimSpace_le raw
            have hinner : ∀ fs, unmarshalLoop fo n (scanLines e.innerData) fs =
                unmarshalLoop fo m (scanLines e.innerData) fs := fun fs =>
              ih m _ fs (by have := textSize_scanLines_le e.innerData; omega)
                (by have := textSize_scanLines_le e.innerData; omega)
            simp only [assignFields_congr fo e fields hinner]
            cases ha : assignFields (unmarshalLoop fo m) fo e fields with
            | mk o fields1 =>
              cases o with
              | some p => rfl
              | none => exact ih m rest1 fields1 (by omega) (by omega)

end Cfg

namespace Cfg

variable {F : Type}

/-! ## What the assignments preserve -/

theorem Framed.refl (f : field F) : Framed f f := ⟨rfl, fun _ => rfl⟩

theorem Framed.trans {f g h : field F} (h1 : Framed f g) (h2 : Framed g h) : Framed f h := by
  refine ⟨h2.1.trans h1.1, fun hd => ?_⟩
  have hg := h1.2 hd
  rw [h2.2 (by rw [h1.1]; exact hd), hg]

theorem forall₂_Framed_refl (fs : List (field F)) : List.Forall₂ Framed fs fs := by
  induction fs with
  | nil => exact List.Forall₂.nil
  | cons f fs ih => exact List.Forall₂.cons (Framed.refl f) ih

theorem forall₂_Framed_trans {as bs cs : List (field F)} (h1 : List.Forall₂ Framed as bs)
    (h2 : List.Forall₂ Framed bs cs) : List.Forall₂ Framed as cs := by
  induction h1 generalizing cs with
  | nil => cases h2; exact List.Forall₂.nil
  | cons hab _ ih =>
    cases h2 with
    | cons hbc h2t => exact List.Forall₂.cons (hab.trans hbc) (ih h2t)

theorem intValue_eq (s : Str) : intValue s = ((intValue s).1, none) := by
  unfold intValue
  split <;> rfl

theorem uintValue_eq (s : Str) : uintValue s = ((uintValue s).1, none) := by
  unfold uintValue
  split <;> rfl

theorem assign_Tag {f f1 : field F} {w : Value F} (h : assign f w = .ok f1) :
    f1.Tag = f.Tag := by
  unfold assign at h
  split_ifs at h
  simp only [Except.ok.injEq] at h
  rw [← h]

theorem assign_exported (f : field F) (w : Value F) (h : f.Exported = true) :
    assign f w = .ok { f with Value := w } := by
  unfold assign
  rw [if_pos h]

theorem setValue_Tag {fo : FloatOps F} {f f1 : field F} {v : Str}
    (h : setValue fo f v = .ok f1) : f1.Tag = f.Tag := by
  unfold setValue at h
  rw [intValue_eq v, uintValue_eq v] at h
  simp only [floatValue] at h
  split_ifs at h
  split at h
  all_goals first
    | exact assign_Tag h
    | (simp only [Except.ok.injEq] at h; rw [← h])

theorem setSliceValue_Tag {fo : FloatOps F} {f f1 : field F} {v : Str}
    (h : setSliceValue fo f v = .ok f1) : f1.Tag = f.Tag := by
  unfold setSliceValue at h
  rw [intValue_eq v, uintValue_eq v] at h
  simp only at h
  split_ifs at h
  split at h
  all_goals first
    | exact assign_Tag h
    | (split_ifs at h
       exact assign_Tag h)
    | simp at h

theorem setSliceValues_Tag (fo : FloatOps F) (f : field F) (ls : List Str) :
    (setSliceValues fo f ls).2.Tag = f.Tag := by
  induction ls generalizing f with
  | nil => rfl
  | cons l ls ih =>
    unfold setSliceValues
    split
    · rfl
    · split
      · rfl
      · next f1 h1 => rw [ih f1, setSliceValue_Tag h1]

theorem assignField_Tag (inner : List Str → List (field F) → Option Fault × List (field F))
    (fo : FloatOps F) (e : Entry) (f : field F) : (assignField inner fo e f).2.Tag = f.Tag := by
  unfold assignField
  simp only
  split_ifs
  all_goals first
    | rfl
    | exact setSliceValues_Tag fo f e.lines
    | (split <;> rfl)
    | (split
       · rfl
       · split
         · rfl
         · split
           · rfl
           · next f1 h1 => exact setValue_Tag h1)

theorem assignField_Framed (inner : List Str → List (field F) → Option Fault × List (field F))
    (fo : FloatOps F) (e : Entry) (f : field F) : Framed f (assignField inner fo e f).2 := by
  refine ⟨assignField_Tag inner fo e f, fun hd => ?_⟩
  unfold assignField
  rw [if_pos hd]

theorem assignFields_Framed (inner : List Str → List (field F) → Option Fault × List (field F))
    (fo : FloatOps F) (e : Entry) (fields : List (field F)) :
    List.Forall₂ Framed fields (assignFields inner fo e fields).2 := by
  induction fields with
  | nil => exact List.Forall₂.nil
  | cons f fs ih =>
    unfold assignFields
    have hf := assignField_Framed inner fo e f
    split
    · next p f1 h1 =>
      rw [h1] at hf
      exact List.Forall₂.cons hf (forall₂_Framed_refl fs)
    · next f1 h1 =>
      rw [h1] at hf
      exact List.Forall₂.cons hf ih

/-- The main loop keeps every key and the value of every excluded field, however
it ends. -/
theorem unmarshalLoop_Framed (fo : FloatOps F) (n : Nat) (lines : List Str)
    (fields : List (field F)) :
    List.Forall₂ Framed fields (unmarshalLoop fo n lines fields).2 := by
  induction n generalizing lines fields with
  | zero =>
    cases lines with
    | nil => rw [unmarshalLoop_nil]; exact forall₂_Framed_refl fields
    | cons raw rest => exact forall₂_Framed_refl fields
  | succ n ih =>
    cases lines with
    | nil => rw [unmarshalLoop_nil]; exact forall₂_Framed_refl fields
    | cons raw rest =>
      rw [unmarshalLoop_succ]
      split_ifs
      · exact ih rest fields
      · split
        · exact forall₂_Framed_refl fields
        · next e rest1 _ =>
          have ha := assignFields_Framed (unmarshalLoop fo n) fo e fields
          split
          · next p fields1 h1 =>
            rw [h1] at ha
            exact ha
          · next fields1 h1 =>
            rw [h1] at ha
            exact forall₂_Framed_trans ha (ih rest1 fields1)

theorem store_fieldsOf (decls : List (StructField × Value F)) :
    store decls (fieldsOf decls) = decls := by
  induction decls with
  | nil => rfl
  | cons d ds ih =>
    simp only [store, fieldsOf, List.map_cons, List.zipWith_cons_cons] at ih ⊢
    rw [ih]
    rfl

theorem store_Framed {decls : List (StructField × Value F)} {fs : List (field F)}
    (h : List.Forall₂ Framed (fieldsOf decls) fs) :
    List.Forall₂ (fun d d1 => d1.1 = d.1 ∧ ((mkField d).Tag = ['-'] → d1 = d))
      decls (store decls fs) := by
  induction decls generalizing fs with
  | nil =>
    cases h
    exact List.Forall₂.nil
  | cons d ds ih =>
    cases h with
    | cons hf ht =>
      refine List.Forall₂.cons ⟨rfl, fun hd => ?_⟩ (ih ht)
      have := hf.2 hd
      rw [this]
      rfl

/-- C8. Excluded fields are framed: for every document and every target record,
however `Unmarshal` ends (nil error, error, or panic), the resulting record has
the same declared fields, and every field whose tag is `-` holds exactly its
pre-decode value; no assumption is made on the keys of the document. -/
theorem excluded_fields_framed (fo : FloatOps F) (data : Str)
    (decls : List (StructField × Value F)) :
    ∃ decls1, (Unmarshal fo data (.pointer (some (.struct decls)))).2
        = .pointer (some (.struct decls1)) ∧
      List.Forall₂ (fun d d1 => d1.1 = d.1 ∧ ((mkField d).Tag = ['-'] → d1 = d))
        decls decls1 :=
  ⟨_, rfl, store_Framed (unmarshalLoop_Framed fo _ _ _)⟩

end Cfg

namespace Cfg

variable {F : Type}

/-! ## The fuel is never exhausted -/

theorem removeCommaFromEnd_fault {s : Str} {p : Fault} (h : removeCommaFromEnd s = .error p) :
    p ≠ .outOfFuel := by
  unfold removeCommaFromEnd at h
  split at h
  · cases h
    simp
  · split_ifs at h

theorem unwrapQuotationMarks_fault {s : Str} {p : Fault}
    (h : unwrapQuotationMarks s = .error p) : p ≠ .outOfFuel := by
  unfold unwrapQuotationMarks at h
  split at h
  · cases h
    simp
  · simp only at h
    split_ifs at h
    split at h
    · cases h
      simp
    · cases h

theorem removeCommas_fault {ls : List Str} {p : Fault} (h : removeCommas ls = .error p) :
    p ≠ .outOfFuel := by
  induction ls with
  | nil => simp [removeCommas] at h
  | cons l r ih =>
    unfold removeCommas at h
    split at h
    · next q hq =>
      cases h
      exact removeCommaFromEnd_fault hq
    · split at h
      · next q hq =>
        cases h
        exact ih hq
      · cases h

theorem scanArray_fault {rest : List Str} {n : Nat} {acc : List Str} {p : Fault}
    (h : scanArray rest n acc = .error p) : p ≠ .outOfFuel := by
  induction rest generalizing n acc with
  | nil =>
    simp only [scanArray] at h
    cases h
    simp
  | cons raw rs ih =>
    unfold scanArray at h
    split at h
    · exact ih h
    · split at h
      · next q hq =>
        cases h
        exact removeCommaFromEnd_fault hq
      · simp only at h
        split_ifs at h
        all_goals exact ih h

theorem scanInner_fault {rest : List Str} {n : Nat} {acc : Str} {p : Fault}
    (h : scanInner rest n acc = .error p) : p ≠ .outOfFuel := by
  induction rest generalizing n acc with
  | nil =>
    simp only [scanInner] at h
    cases h
    simp
  | cons raw rs ih =>
    unfold scanInner at h
    split at h
    · exact ih h
    · simp only at h
      split_ifs at h
      all_goals exact ih h

theorem keyOnlyValue_fault {rest : List Str} {p : Fault} (h : keyOnlyValue rest = .error p) :
    p ≠ .outOfFuel := by
  unfold keyOnlyValue at h
  split at h
  · cases h
    simp
  · split_ifs at h
    cases h
    simp

theorem oneLineArray_fault {value : Str} {a b : Int} {p : Fault}
    (h : oneLineArray value a b = .error p) : p ≠ .outOfFuel := by
  unfold oneLineArray at h
  split at h
  · cases h
    simp
  · simp only at h
    split at h
    · next q hq =>
      cases h
      exact removeCommas_fault hq
    · cases h

theorem parseValue_fault {key value : Str} {rest : List Str} {p : Fault}
    (h : parseValue key value rest = .error p) : p ≠ .outOfFuel := by
  unfold parseValue at h
  simp only at h
  split at h
  · next q hq =>
    cases h
    split_ifs at hq
    exact scanArray_fault hq
  · split at h
    · next q hq =>
      cases h
      split_ifs at hq
      exact oneLineArray_fault hq
    · split at h
      · next q hq =>
        cases h
        split_ifs at hq
        exact scanInner_fault hq
      · split_ifs at h
        split at h
        · cases h
          simp
        · cases h

theorem parseEntry_fault {line : Str} {rest : List Str} {p : Fault}
    (h : parseEntry line rest = .error p) : p ≠ .outOfFuel := by
  unfold parseEntry at h
  simp only at h
  split_ifs at h
  · split at h
    · next q hq =>
      cases h
      exact keyOnlyValue_fault hq
    · exact parseValue_fault h
  · split at h
    · next q hq => cases hq
    · exact parseValue_fault h
  · cases h
    simp

theorem wrap_ne_outOfFuel {m : Msg} {p : Fault} (h : p ≠ .outOfFuel) : p.wrap m ≠ .outOfFuel := by
  cases p with
  | error e => simp [Fault.wrap]
  | panic q => simp [Fault.wrap]
  | outOfFuel => exact absurd rfl h

theorem assign_fault {f : field F} {w : Value F} {p : Fault} (h : assign f w = .error p) :
    p ≠ .outOfFuel := by
  unfold assign at h
  split_ifs at h
  cases h
  simp

theorem setValue_fault {fo : FloatOps F} {f : field F} {v : Str} {p : Fault}
    (h : setValue fo f v = .error p) : p ≠ .outOfFuel := by
  unfold setValue at h
  rw [intValue_eq v, uintValue_eq v] at h
  simp only [floatValue] at h
  split_ifs at h
  · cases h
    simp
  · split at h
    all_goals first
      | exact assign_fault h
      | cases h

theorem setSliceValue_fault {fo : FloatOps F} {f : field F} {v : Str} {p : Fault}
    (h : setSliceValue fo f v = .error p) : p ≠ .outOfFuel := by
  unfold setSliceValue at h
  rw [intValue_eq v, uintValue_eq v] at h
  simp only at h
  split_ifs at h
  · cases h
    simp
  · split at h
    all_goals first
      | exact assign_fault h
      | (cases h <;> simp)
      | (split_ifs at h
         · exact assign_fault h
         · cases h
           simp)

theorem setSliceValues_fault (fo : FloatOps F) (f : field F) (ls : List Str) :
    (setSliceValues fo f ls).1 ≠ some .outOfFuel := by
  induction ls generalizing f with
  | nil => simp [setSliceValues]
  | cons l r ih =>
    unfold setSliceValues
    split
    · next q hq =>
      have := unwrapQuotationMarks_fault hq
      simpa using this
    · split
      · next q hq =>
        have := wrap_ne_outOfFuel (m := Msg.parseLine) (setSliceValue_fault hq)
        simpa using this
      · exact ih _

theorem assignField_fault (inner : List Str → List (field F) → Option Fault × List (field F))
    (fo : FloatOps F) (e : Entry) (f : field F)
    (h : ∀ fs, (inner (scanLines e.innerData) fs).1 ≠ some .outOfFuel) :
    (assignField inner fo e f).1 ≠ some .outOfFuel := by
  unfold assignField
  simp only
  split_ifs
  all_goals first
    | (simp; done)
    | exact setSliceValues_fault fo f e.lines
    | (split
       · simp only [ne_eq, Option.map_eq_some', not_exists, not_and]
         intro q hq hw
         have h1 : q ≠ .outOfFuel := fun h0 => h _ (by rw [hq, h0])
         exact wrap_ne_outOfFuel h1 hw
       · simp)
    | (split <;> simp; done)
    | (split
       · next q hq =>
         have := removeCommaFromEnd_fault hq
         simpa using this
       · split
         · next q hq =>
           have := unwrapQuotationMarks_fault hq
           simpa using this
         · split
           · next q hq =>
             have := wrap_ne_outOfFuel (m := Msg.parseLine) (setValue_fault hq)
             simpa using this
           · simp)

theorem assignFields_fault (inner : List Str → List (field F) → Option Fault × List (field F))
    (fo : FloatOps F) (e : Entry) (fields : List (field F))
    (h : ∀ fs, (inner (scanLines e.innerData) fs).1 ≠ some .outOfFuel) :
    (assignFields inner fo e fields).1 ≠ some .outOfFuel := by
  induction fields with
  | nil => simp [assignFields]
  | cons f fs ih =>
    unfold assignFields
    have hf := assignField_fault inner fo e f h
    split
    · next p f1 h1 =>
      rw [h1] at hf
      exact hf
    · exact ih

/-- With fuel for the size of the remaining lines, the main loop never runs out
of fuel: it returns a nil error, an error, or panics. -/
theorem unmarshalLoop_ne_outOfFuel (fo : FloatOps F) (n : Nat) (lines : List Str)
    (fields : List (field F)) (hn : textSize lines ≤ n) :
    (unmarshalLoop fo n lines fields).1 ≠ some .outOfFuel := by
  induction n generalizing lines fields with
  | zero =>
    cases lines with
    | nil => simp [unmarshalLoop_nil]
    | cons raw rest => simp at hn
  | succ n ih =>
    cases lines with
    | nil => simp [unmarshalLoop_nil]
    | cons raw rest =>
      simp only [textSize_cons] at hn
      rw [unmarshalLoop_succ]
      split_ifs
      · exact ih rest fields (by omega)
      · cases hp : parseEntry (TrimSpace raw) rest with
        | error p =>
          have := parseEntry_fault hp
          simpa using this
        | ok r =>
          obtain ⟨e, rest1⟩ := r
          have hs := parseEntry_size hp
          have ht := length_TrimSpace_le raw
          have hinner : ∀ fs, (unmarshalLoop fo n (scanLines e.innerData) fs).1
              ≠ some .outOfFuel := fun fs =>
            ih _ fs (by have := textSize_scanLines_le e.innerData; omega)
          have ha := assignFields_fault (unmarshalLoop fo n) fo e fields hinner
          simp only
          cases hr : assignFields (unmarshalLoop fo n) fo e fields with
          | mk o fields1 =>
            rw [hr] at ha
            cases o with
            | some p => exact ha
            | none => exact ih rest1 fields1 (by omega)

/-- The decoder is total: `Unmarshal` never runs out of fuel. -/
theorem Unmarshal_ne_outOfFuel (fo : FloatOps F) (data : Str) (v : Arg F) :
    (Unmarshal fo data v).1 ≠ some .outOfFuel := by
  unfold Unmarshal
  split
  · simp
  · simp
  · simp
  · exact unmarshalLoop_ne_outOfFuel fo _ _ _ (textSize_scanLines_le data)
  · simp

end Cfg

namespace Cfg

variable {F : Type}

/-! ## Entries with a plain value -/

theorem dropCR_append (a : Str) {b : Str} (hb : b ≠ []) : dropCR (a ++ b) = a ++ dropCR b := by
  unfold dropCR
  rw [List.getLast?_append_of_ne_nil a hb]
  split_ifs
  · exact List.dropLast_append_of_ne_nil a hb
  · rfl

theorem dropCR_initial (v : Str) : dropCR v <+: v := by
  unfold dropCR
  split_ifs
  · exact List.dropLast_prefix v
  · exact List.prefix_refl v

theorem isSpace_cr : isSpace '\r' = true := by decide

theorem dropCR_nonblank {v : Str} (h : ∃ c ∈ v, isSpace c = false) :
    ∃ c ∈ dropCR v, isSpace c = false := by
  unfold dropCR
  split_ifs with hl
  · obtain ⟨c, hc, hs⟩ := h
    refine ⟨c, ?_, hs⟩
    have hne : v ≠ [] := List.ne_nil_of_mem hc
    have hlast : v.getLast hne = '\r' := by
      rw [List.getLast?_eq_getLast _ hne] at hl
      exact Option.some.inj hl
    have hv := List.dropLast_append_getLast hne
    rw [← hv] at hc
    rcases List.mem_append.1 hc with h1 | h1
    · exact h1
    · simp only [List.mem_singleton] at h1
      rw [h1, hlast, isSpace_cr] at hs
      exact absurd hs (by simp)
  · exact h

theorem head?_of_initial {a b : Str} (h : a <+: b) (hne : a ≠ []) : a.head? = b.head? := by
  obtain ⟨t, rfl⟩ := h
  cases a with
  | nil => exact absurd rfl hne
  | cons x xs => rfl

theorem ne_nil_of_nonblank {v : Str} (h : ∃ c ∈ v, isSpace c = false) : v ≠ [] := by
  obtain ⟨c, hc, _⟩ := h
  exact List.ne_nil_of_mem hc

theorem rdropWhile_ne_nil_of_nonblank {v : Str} (h : ∃ c ∈ v, isSpace c = false) :
    v.rdropWhile isSpace ≠ [] := by
  obtain ⟨c, hc, hs⟩ := h
  obtain ⟨a, b, rfl⟩ := List.append_of_mem hc
  rw [rdropWhile_append_cons a b hs]
  simp

theorem TrimSpace_rdropWhile (s : Str) : TrimSpace (s.rdropWhile isSpace) = TrimSpace s := by
  rcases space_or_split s with h | ⟨w, c, t, hs, hw, hc⟩
  · have h1 : s.rdropWhile isSpace = [] := by
      rw [List.rdropWhile_eq_nil_iff]
      exact h
    rw [h1, TrimSpace_all_space h]
    rfl
  · rw [hs, rdropWhile_append_cons w t hc, TrimSpace_leading _ hw,
      TrimSpace_leading _ hw]
    have h1 := TrimSpace_append_cons [] t hc
    have h2 := TrimSpace_append_cons [] (t.rdropWhile isSpace) hc
    simp only [List.nil_append, List.dropWhile_nil] at h1 h2
    rw [h1, h2]
    congr 1
    rw [List.rdropWhile_eq_self_iff]
    intro hne
    simpa using List.rdropWhile_last_not isSpace t hne

theorem TrimSpace_dropWhile (s : Str) : TrimSpace (s.dropWhile isSpace) = TrimSpace s := by
  rw [TrimSpace_eq, TrimSpace_eq, List.dropWhile_idempotent]

theorem TrimSpace_cons_space (s : Str) : TrimSpace (' ' :: s) = TrimSpace s :=
  TrimSpace_leading (w := [' ']) s (by simp; decide)

theorem head?_TrimSpace (s : Str) : (TrimSpace s).head? = (s.dropWhile isSpace).head? := by
  rcases space_or_split s with h | ⟨w, c, t, hs, hw, hc⟩
  · rw [TrimSpace_all_space h, dropWhile_all_space h]
  · rw [hs, TrimSpace_append_cons w t hc, dropWhile_append_cons t hc, dropWhile_all_space hw]
    rfl

theorem removeComment_of_not_mem {s : Str} (h : '#' ∉ s) : removeComment s = s := by
  unfold removeComment
  simp [Index_of_not_mem h]

theorem removeComment_sublist (s : Str) : (removeComment s).Sublist s := by
  unfold removeComment
  simp only
  split_ifs
  · exact (TrimSpace_sublist _).trans (List.take_sublist _ _)
  · exact List.Sublist.refl s

theorem removeComment_append_cons {a : Str} (b : Str) (h : '#' ∉ a) :
    removeComment (a ++ '#' :: b) = TrimSpace a := by
  unfold removeComment
  simp [Index_append_cons b h]

theorem hash_not_space : isSpace '#' = false := by decide

theorem colon_not_space : isSpace ':' = false := by decide

/-- Removing the comment after trimming gives the same value whether or not the
line source has removed the comment before. -/
theorem removeComment_TrimSpace_validLine (w : Str) :
    removeComment (TrimSpace (if Index w '#' ≥ 0 then TrimSpace (w.take (Index w '#').toNat)
      else w)) = removeComment (TrimSpace w) := by
  by_cases hm : '#' ∈ w
  · obtain ⟨a, b, hab, hna⟩ := exists_first_split hm
    have hi : Index w '#' = a.length := by rw [hab, Index_append_cons b hna]
    rw [if_pos (by rw [hi]; omega), hi]
    have ht : w.take a.length = a := by rw [hab]; simp
    simp only [Int.toNat_ofNat, ht, TrimSpace_idem]
    have h1 : '#' ∉ TrimSpace a := fun h => hna (mem_of_mem_TrimSpace h)
    rw [removeComment_of_not_mem h1, hab, TrimSpace_append_cons a b hash_not_space]
    have h2 : '#' ∉ a.dropWhile isSpace := fun h => hna ((List.dropWhile_suffix _).subset h)
    rw [removeComment_append_cons _ h2, TrimSpace_dropWhile]
  · rw [if_neg (by rw [Index_of_not_mem hm]; omega)]

theorem parseValue_plain (key value : Str) (rest : List Str)
    (h : ∀ c ∈ value, c ≠ '[' ∧ c ≠ ']' ∧ c ≠ lbrace ∧ c ≠ rbrace) :
    parseValue key value rest =
      .ok ({ key := key, value := value, lines := [], innerData := [] }, rest) := by
  have h1 : Index value '[' = -1 := Index_of_not_mem fun hc => (h _ hc).1 rfl
  have h2 : Index value ']' = -1 := Index_of_not_mem fun hc => (h _ hc).2.1 rfl
  have h3 : Index value lbrace = -1 := Index_of_not_mem fun hc => (h _ hc).2.2.1 rfl
  have h4 : Index value rbrace = -1 := Index_of_not_mem fun hc => (h _ hc).2.2.2 rfl
  unfold parseValue
  simp [h1, h2, h3, h4]

/-- The entry read from a trimmed line of the form `key:value` with the value on
the same line. -/
theorem parseEntry_same_line {a b : Str} (rest : List Str) (ha : ':' ∉ a) (hb : b ≠ []) :
    parseEntry (a ++ ':' :: b) rest =
      parseValue (TrimSpace a) (removeComment (TrimSpace b)) rest := by
  unfold parseEntry
  have hi : Index (a ++ ':' :: b) ':' = a.length := Index_append_cons b ha
  have hl : b.length ≠ 0 := fun h => hb (List.length_eq_zero.1 h)
  simp [hi, hl]

/-- The entry read from a trimmed line of the form `key:` whose value stands on
the next raw line `w`. -/
theorem parseEntry_key_only {a w : Str} (rest : List Str) (ha : ':' ∉ a)
    (hw1 : w ≠ []) (hw2 : w.head? ≠ some '#') (hw3 : ':' ∉ w) :
    parseEntry (a ++ [':']) (w :: rest) =
      parseValue (TrimSpace a) (removeComment (TrimSpace w)) rest := by
  unfold parseEntry
  have hi : Index (a ++ [':']) ':' = a.length := Index_append_cons [] ha
  have hlen : ¬ w.length < 1 := by
    cases w with
    | nil => exact absurd rfl hw1
    | cons x xs => simp
  have hv : validLine w = some (if Index w '#' ≥ 0 then TrimSpace (w.take (Index w '#').toNat)
      else w) := by
    unfold validLine
    rw [if_neg (by simp only [not_or]; exact ⟨hlen, hw2⟩)]
    simp only
    split_ifs <;> rfl
  have hc : Contains (if Index w '#' ≥ 0 then TrimSpace (w.take (Index w '#').toNat)
      else w) ':' = false := by
    rw [Contains_eq_false]
    split_ifs
    · exact fun h => hw3 (List.mem_of_mem_take (mem_of_mem_TrimSpace h))
    · exact hw3
  simp only [hi, Int.toNat_ofNat, List.take_left', List.drop_left', ge_iff_le,
    Int.natCast_nonneg, ↓reduceIte, List.length_nil, keyOnlyValue, readNextValidLine, hv, hc,
    Bool.false_eq_true]
  have hd : List.drop (a.length + 1) (a ++ [':']) = [] := by simp
  have := removeComment_TrimSpace_validLine w
  simp only [ge_iff_le] at this
  simp only [hd, List.length_nil, ↓reduceIte, this]

theorem assignFields_no_match (inner : List Str → List (field F) → Option Fault × List (field F))
    (fo : FloatOps F) (e : Entry) (fields : List (field F))
    (h : ∀ f ∈ fields, f.Tag = ['-'] ∨ f.Tag ≠ e.key) :
    assignFields inner fo e fields = (none, fields) := by
  induction fields with
  | nil => rfl
  | cons f fs ih =>
    simp only [List.mem_cons, forall_eq_or_imp] at h
    have hf : assignField inner fo e f = (none, f) := by
      unfold assignField
      rcases h.1 with h1 | h1
      · rw [if_pos h1]
      · by_cases hd : f.Tag = ['-']
        · rw [if_pos hd]
        · rw [if_neg hd, if_neg h1]
    simp only [assignFields, hf, ih h.2]

end Cfg

namespace Cfg

variable {F : Type}

/-! ## Key-only lines and unknown keys -/

theorem dropCR_colon (k : Str) : dropCR (k ++ [':']) = k ++ [':'] := by
  rw [dropCR_append k (by simp)]
  rfl

theorem head?_key_line (k : Str) (b : Str) (hk : (TrimSpace k).head? ≠ some '#') :
    (k.dropWhile isSpace ++ ':' :: b).head? ≠ some '#' := by
  rw [head?_TrimSpace] at hk
  cases h : k.dropWhile isSpace with
  | nil => simp
  | cons x xs =>
    rw [h] at hk
    simpa using hk

/-- The main loop on a key-only line followed by its value line agrees with the
main loop on the one-line entry. -/
theorem unmarshalLoop_key_only (fo : FloatOps F) (n : Nat) (k w : Str) (fields : List (field F))
    (hk1 : ':' ∉ k) (hk3 : (TrimSpace k).head? ≠ some '#')
    (hw1 : ∃ c ∈ w, isSpace c = false) (hw2 : w.head? ≠ some '#') (hw3 : ':' ∉ w) :
    unmarshalLoop fo (n + 1) [k ++ [':'], w] fields =
      unmarshalLoop fo (n + 1) [k ++ ':' :: ' ' :: w] fields := by
  have hk1' : ':' ∉ k.dropWhile isSpace := fun h => hk1 ((List.dropWhile_suffix _).subset h)
  have ht1 : TrimSpace (k ++ [':']) = k.dropWhile isSpace ++ [':'] :=
    TrimSpace_append_cons k [] colon_not_space
  have ht2 : TrimSpace (k ++ ':' :: ' ' :: w) =
      k.dropWhile isSpace ++ ':' :: (' ' :: w).rdropWhile isSpace :=
    TrimSpace_append_cons k _ colon_not_space
  have hb : (' ' :: w).rdropWhile isSpace ≠ [] := by
    obtain ⟨c, hc, hs⟩ := hw1
    exact rdropWhile_ne_nil_of_nonblank ⟨c, List.mem_cons_of_mem _ hc, hs⟩
  have hskip1 : ¬ ((k.dropWhile isSpace ++ [':']).length < 1 ∨
      (k.dropWhile isSpace ++ [':']).head? = some '#') := by
    simp only [not_or]
    exact ⟨by simp, head?_key_line k [] hk3⟩
  have hskip2 : ¬ ((k.dropWhile isSpace ++ ':' :: (' ' :: w).rdropWhile isSpace).length < 1 ∨
      (k.dropWhile isSpace ++ ':' :: (' ' :: w).rdropWhile isSpace).head? = some '#') := by
    simp only [not_or]
    exact ⟨by simp, head?_key_line k _ hk3⟩
  rw [unmarshalLoop_succ, unmarshalLoop_succ, ht1, ht2, if_neg hskip1, if_neg hskip2,
    parseEntry_key_only [] hk1' (ne_nil_of_nonblank hw1) hw2 hw3,
    parseEntry_same_line [] hk1' hb, TrimSpace_rdropWhile, TrimSpace_cons_space]

/-- C6. Key-only continuation: for every key `k` (a text without separator or
line break that does not open a comment) and every value line `v` that is
non-blank, does not begin with `#` and contains no `:`, such that the one-line
document `k: v` is shorter than the 64 KiB limit of the scanner, decoding the
two-line document `k:` followed by `v` ends the same way and leaves the same
record as decoding the one-line document `k: v`, for every target. -/
theorem key_only_continuation (fo : FloatOps F) (k v : Str) (target : Arg F)
    (hk1 : ':' ∉ k) (hk2 : '\n' ∉ k) (hk3 : (TrimSpace k).head? ≠ some '#')
    (hv1 : ∃ c ∈ v, isSpace c = false) (hv2 : v.head? ≠ some '#') (hv3 : ':' ∉ v)
    (hv4 : '\n' ∉ v) (hshort : byteLen (k ++ [':', ' '] ++ v) < MaxScanTokenSize) :
    Unmarshal fo (k ++ [':', '\n'] ++ v) target = Unmarshal fo (k ++ [':', ' '] ++ v) target := by
  have hvne : v ≠ [] := ne_nil_of_nonblank hv1
  have hw1 := dropCR_nonblank hv1
  have hwne : dropCR v ≠ [] := ne_nil_of_nonblank hw1
  have hw2 : (dropCR v).head? ≠ some '#' := by
    rw [head?_of_initial (dropCR_initial v) hwne]
    exact hv2
  have hw3 : ':' ∉ dropCR v := fun h => hv3 ((dropCR_initial v).subset h)
  have hb : byteLen (k ++ [':']) < MaxScanTokenSize ∧ byteLen v < MaxScanTokenSize := by
    simp only [byteLen_append, byteLen_cons, byteLen_nil] at hshort ⊢
    omega
  have hs1 : scanLines (k ++ [':', '\n'] ++ v) = [k ++ [':'], dropCR v] := by
    have h1 : k ++ [':', '\n'] ++ v = (k ++ [':']) ++ '\n' :: v := by simp
    rw [h1, scanLines_cons v (by simp [hk2]) hb.1, dropCR_colon,
      scanLines_single hv4 hvne hb.2]
  have hs2 : scanLines (k ++ [':', ' '] ++ v) = [k ++ ':' :: ' ' :: dropCR v] := by
    have hnl : '\n' ∉ k ++ [':', ' '] ++ v := by simp [hk2, hv4]
    rw [scanLines_single hnl (by simp) hshort, dropCR_append _ hvne]
    simp
  have hlen : (k ++ [':', '\n'] ++ v).length = (k ++ [':', ' '] ++ v).length := by simp
  cases target with
  | nil => rfl
  | value x => rfl
  | pointer t =>
    cases t with
    | none => rfl
    | some x =>
      cases x with
      | struct decls =>
        simp only [Unmarshal, hs1, hs2, hlen]
        rw [unmarshalLoop_key_only fo _ k (dropCR v) _ hk1 hk3 hw1 hw2 hw3]
      | _ => rfl

/-- The main loop passes over an entry with a plain value whose key matches no
field that takes part in decoding. -/
theorem unmarshalLoop_unknown_key (fo : FloatOps F) (n : Nat) (k w : Str) (rest : List Str)
    (fields : List (field F)) (hk1 : ':' ∉ k)
    (hw1 : ∃ c ∈ w, isSpace c = false)
    (hw2 : ∀ c ∈ w, c ≠ '[' ∧ c ≠ ']' ∧ c ≠ lbrace ∧ c ≠ rbrace)
    (hno : ∀ f ∈ fields, f.Tag = ['-'] ∨ f.Tag ≠ TrimSpace k) :
    unmarshalLoop fo (n + 1) ((k ++ ':' :: ' ' :: w) :: rest) fields =
      unmarshalLoop fo n rest fields := by
  have hk1' : ':' ∉ k.dropWhile isSpace := fun h => hk1 ((List.dropWhile_suffix _).subset h)
  have ht2 : TrimSpace (k ++ ':' :: ' ' :: w) =
      k.dropWhile isSpace ++ ':' :: (' ' :: w).rdropWhile isSpace :=
    TrimSpace_append_cons k _ colon_not_space
  have hb : (' ' :: w).rdropWhile isSpace ≠ [] := by
    obtain ⟨c, hc, hs⟩ := hw1
    exact rdropWhile_ne_nil_of_nonblank ⟨c, List.mem_cons_of_mem _ hc, hs⟩
  have hplain : ∀ c ∈ removeComment (TrimSpace w), c ≠ '[' ∧ c ≠ ']' ∧ c ≠ lbrace ∧ c ≠ rbrace :=
    fun c hc => hw2 c ((TrimSpace_sublist w).subset ((removeComment_sublist _).subset hc))
  rw [unmarshalLoop_succ, ht2]
  split_ifs
  · rfl
  · rw [parseEntry_same_line rest hk1' hb, TrimSpace_rdropWhile, TrimSpace_cons_space,
      TrimSpace_dropWhile, parseValue_plain _ _ rest hplain]
    simp only
    rw [assignFields_no_match _ fo _ fields (by simpa using hno)]

/-- C9. Unknown keys are ignored: for every document `D`, every target record and
every entry line `k: v` shorter than the 64 KiB limit of the scanner where `k`
contains no separator or line break, `v` is a non-blank single line without
brackets or curly braces, and the key read from the line (`k` without
surrounding white space) is the external key of no field that takes part in
decoding, decoding the line followed by `D` ends the same way and leaves the same
record as decoding `D` alone; and decoding the line alone returns a nil error and
leaves the record as it was. -/
theorem unknown_key_ignored (fo : FloatOps F) (k v D : Str)
    (decls : List (StructField × Value F))
    (hk1 : ':' ∉ k) (hk2 : '\n' ∉ k)
    (hv1 : ∃ c ∈ v, isSpace c = false) (hv2 : '\n' ∉ v)
    (hv3 : ∀ c ∈ v, c ≠ '[' ∧ c ≠ ']' ∧ c ≠ lbrace ∧ c ≠ rbrace)
    (hno : ∀ f ∈ fieldsOf decls, f.Tag = ['-'] ∨ f.Tag ≠ TrimSpace k)
    (hshort : byteLen (k ++ [':', ' '] ++ v) < MaxScanTokenSize) :
    Unmarshal fo (k ++ [':', ' '] ++ v ++ ['\n'] ++ D) (.pointer (some (.struct decls)))
        = Unmarshal fo D (.pointer (some (.struct decls))) ∧
    Unmarshal fo (k ++ [':', ' '] ++ v) (.pointer (some (.struct decls)))
        = (none, .pointer (some (.struct decls))) := by
  have hvne : v ≠ [] := ne_nil_of_nonblank hv1
  have hw1 := dropCR_nonblank hv1
  have hw2 : ∀ c ∈ dropCR v, c ≠ '[' ∧ c ≠ ']' ∧ c ≠ lbrace ∧ c ≠ rbrace :=
    fun c hc => hv3 c ((dropCR_initial v).subset hc)
  have hnl : '\n' ∉ k ++ [':', ' '] ++ v := by simp [hk2, hv2]
  have hd : dropCR (k ++ [':', ' '] ++ v) = k ++ ':' :: ' ' :: dropCR v := by
    rw [dropCR_append _ hvne]
    simp
  constructor
  · have h1 : k ++ [':', ' '] ++ v ++ ['\n'] ++ D = (k ++ [':', ' '] ++ v) ++ '\n' :: D := by
      simp
    simp only [Unmarshal]
    rw [h1, scanLines_cons D hnl hshort, hd,
      unmarshalLoop_unknown_key fo _ k (dropCR v) _ _ hk1 hw1 hw2 hno]
    have hsz := textSize_scanLines_le D
    rw [unmarshalLoop_fuel fo _ (D.length + 1) (scanLines D) _ (by simp; omega) hsz]
  · simp only [Unmarshal]
    rw [scanLines_single hnl (by simp) hshort, hd,
      unmarshalLoop_unknown_key fo _ k (dropCR v) _ _ hk1 hw1 hw2 hno, unmarshalLoop_nil,
      store_fieldsOf]

end Cfg

namespace Cfg

variable {F : Type}

/-! ## Entries that assign one field -/

theorem TrimSpace_of_ends {s : Str} (h1 : ∀ c, s.head? = some c → isSpace c = false)
    (h2 : ∀ c, s.getLast? = some c → isSpace c = false) : TrimSpace s = s := by
  rw [TrimSpace_eq]
  have hd : s.dropWhile isSpace = s := by
    cases s with
    | nil => rfl
    | cons x xs => simp [List.dropWhile, h1 x rfl]
  rw [hd, List.rdropWhile_eq_self_iff]
  intro hne
  have := h2 _ (List.getLast?_eq_getLast _ hne)
  simpa using this

theorem keyChar_not_space {c : Char} (h : keyChar c = true) : isSpace c = false := by
  unfold keyChar at h
  simp only [Bool.and_eq_true, Bool.not_eq_true'] at h
  exact h.1.1.1.1

theorem keyChar_ne_colon {c : Char} (h : keyChar c = true) : c ≠ ':' := by
  unfold keyChar at h
  simp only [Bool.and_eq_true, bne_iff_ne] at h
  exact h.1.1.1.2

theorem keyChar_ne_hash {c : Char} (h : keyChar c = true) : c ≠ '#' := by
  unfold keyChar at h
  simp only [Bool.and_eq_true, bne_iff_ne] at h
  exact h.1.1.2

theorem keyChar_ne_lbrace {c : Char} (h : keyChar c = true) : c ≠ lbrace := by
  unfold keyChar at h
  simp only [Bool.and_eq_true, bne_iff_ne] at h
  exact h.1.2

theorem keyChar_ne_rbrace {c : Char} (h : keyChar c = true) : c ≠ rbrace := by
  unfold keyChar at h
  simp only [Bool.and_eq_true, bne_iff_ne] at h
  exact h.2

theorem IsKey.not_mem_colon {k : Str} (h : IsKey k) : ':' ∉ k :=
  fun hc => keyChar_ne_colon (h.2.2 _ hc) rfl

theorem IsKey.not_mem_hash {k : Str} (h : IsKey k) : '#' ∉ k :=
  fun hc => keyChar_ne_hash (h.2.2 _ hc) rfl

theorem IsKey.not_mem_nl {k : Str} (h : IsKey k) : '\n' ∉ k := fun hc => by
  have := keyChar_not_space (h.2.2 _ hc)
  revert this
  decide

theorem IsKey.TrimSpace {k : Str} (h : IsKey k) : TrimSpace k = k :=
  TrimSpace_no_space fun c hc => keyChar_not_space (h.2.2 c hc)

/-- A line `indent key: value` as the main loop sees it after trimming. -/
theorem TrimSpace_entry_line {indent k val : Str} (hi : ∀ c ∈ indent, isSpace c = true)
    (hk : IsKey k) (hl : ∀ c, val.getLast? = some c → isSpace c = false) (hne : val ≠ []) :
    TrimSpace (indent ++ (k ++ ':' :: ' ' :: val)) = k ++ ':' :: ' ' :: val := by
  rw [TrimSpace_leading _ hi, TrimSpace_append_cons k _ colon_not_space,
    dropWhile_no_space fun c hc => keyChar_not_space (hk.2.2 c hc)]
  congr 2
  rw [List.rdropWhile_eq_self_iff]
  intro hne2
  have h := hl _ (List.getLast?_eq_getLast _ hne)
  rw [List.getLast_cons hne]
  simpa using h

/-- One iteration of the main loop on a line `indent key: value` whose value
carries no comment. -/
theorem unmarshalLoop_entry (fo : FloatOps F) (n : Nat) (indent : Str) {k val : Str}
    (rest : List Str) (fields : List (field F)) (hi : ∀ c ∈ indent, isSpace c = true)
    (hk : IsKey k) (hne : val ≠ []) (hh : ∀ c, val.head? = some c → isSpace c = false)
    (hl : ∀ c, val.getLast? = some c → isSpace c = false) (hc : '#' ∉ val) :
    unmarshalLoop fo (n + 1) ((indent ++ (k ++ ':' :: ' ' :: val)) :: rest) fields =
      match parseValue k val rest with
      | .error p => (some p, fields)
      | .ok (e, rest1) =>
        match assignFields (unmarshalLoop fo n) fo e fields with
        | (some p, fields1) => (some p, fields1)
        | (none, fields1) => unmarshalLoop fo n rest1 fields1 := by
  have hskip : ¬ ((k ++ ':' :: ' ' :: val).length < 1 ∨
      (k ++ ':' :: ' ' :: val).head? = some '#') := by
    simp only [not_or]
    refine ⟨by simp, ?_⟩
    obtain ⟨hk1, _, hk3⟩ := hk
    cases k with
    | nil => exact absurd rfl hk1
    | cons x xs =>
      have := keyChar_ne_hash (hk3 x (by simp))
      simpa using this
  rw [unmarshalLoop_succ, TrimSpace_entry_line hi hk hl hne, if_neg hskip,
    parseEntry_same_line rest hk.not_mem_colon (by simp), TrimSpace_cons_space,
    TrimSpace_of_ends hh hl, removeComment_of_not_mem hc, hk.TrimSpace]
  try rfl

theorem assignField_other (inner : List Str → List (field F) → Option Fault × List (field F))
    (fo : FloatOps F) (e : Entry) (f : field F) (h : f.Tag ≠ e.key) :
    assignField inner fo e f = (none, f) := by
  unfold assignField
  by_cases hd : f.Tag = ['-']
  · rw [if_pos hd]
  · rw [if_neg hd, if_neg h]

/-- The loop over the descriptors when only one of them carries the key of the
entry. -/
theorem assignFields_unique (inner : List Str → List (field F) → Option Fault × List (field F))
    (fo : FloatOps F) (e : Entry) (A B : List (field F)) (f : field F)
    (hA : ∀ g ∈ A, g.Tag ≠ e.key) (hB : ∀ g ∈ B, g.Tag ≠ e.key) :
    assignFields inner fo e (A ++ f :: B) =
      ((assignField inner fo e f).1, A ++ (assignField inner fo e f).2 :: B) := by
  induction A with
  | nil =>
    have hb : assignFields inner fo e B = (none, B) :=
      assignFields_no_match inner fo e B fun g hg => Or.inr (hB g hg)
    simp only [List.nil_append, assignFields]
    cases h : assignField inner fo e f with
    | mk o f1 =>
      cases o with
      | some p => rfl
      | none => simp [hb]
  | cons a A ih =>
    simp only [List.mem_cons, forall_eq_or_imp] at hA
    show assignFields inner fo e (a :: (A ++ f :: B)) = _
    rw [assignFields, assignField_other inner fo e a hA.1]
    simp only [ih hA.2]
    rfl

theorem getLast?_cons_of_ne {x : Char} {l : Str} (h : l ≠ []) :
    (x :: l).getLast? = l.getLast? := by
  cases l with
  | nil => exact absurd rfl h
  | cons y ys => rfl

theorem fieldsOf_append (xs ys : List (StructField × Value F)) :
    fieldsOf (xs ++ ys) = fieldsOf xs ++ fieldsOf ys := by
  simp [fieldsOf]

theorem store_append {xs ys : List (StructField × Value F)} {fs gs : List (field F)}
    (h : xs.length = fs.length) : store (xs ++ ys) (fs ++ gs) = store xs fs ++ store ys gs := by
  unfold store
  exact List.zipWith_append _ _ _ _ _ h

theorem store_update (pre post : List (StructField × Value F)) (sf : StructField)
    (v v1 : Value F) (tag : Str) :
    store (pre ++ (sf, v) :: post) (fieldsOf pre ++ { Tag := tag, Value := v1 } :: fieldsOf post)
      = pre ++ (sf, v1) :: post := by
  rw [store_append (by simp [fieldsOf])]
  rw [store_fieldsOf]
  have : store ((sf, v) :: post) ({ Tag := tag, Value := v1 } :: fieldsOf post)
      = (sf, v1) :: store post (fieldsOf post) := rfl
  rw [this, store_fieldsOf]

theorem assignField_Tag_eq (inner : List Str → List (field F) → Option Fault × List (field F))
    (fo : FloatOps F) (e : Entry) (f : field F) :
    (assignField inner fo e f).2 = { (assignField inner fo e f).2 with Tag := f.Tag } := by
  have := assignField_Tag inner fo e f
  cases h : (assignField inner fo e f).2 with
  | mk t v x =>
    rw [h] at this
    simp only at this
    rw [this]

/-- Decoding a document that consists of a single entry, on one line or more,
whose key is the external key of exactly one field. -/
theorem Unmarshal_one_block (fo : FloatOps F) {doc k val : Str} {rest : List Str} {e : Entry}
    (pre post : List (StructField × Value F)) (sf : StructField) (v v1 : Value F)
    (hlines : scanLines doc = (k ++ ':' :: ' ' :: val) :: rest)
    (hk : IsKey k) (hne : val ≠ []) (hh : ∀ c, val.head? = some c → isSpace c = false)
    (hl : ∀ c, val.getLast? = some c → isSpace c = false) (hc : '#' ∉ val)
    (hother : ∀ d ∈ pre ++ post, (mkField d).Tag ≠ k)
    (hval : parseValue k val rest = .ok (e, [])) (he : e.key = k)
    (hassign : ∀ inner, assignField inner fo e (mkField (sf, v)) = (none, { Tag := k, Value := v1 })) :
    Unmarshal fo doc (.pointer (some (.struct (pre ++ (sf, v) :: post))))
      = (none, .pointer (some (.struct (pre ++ (sf, v1) :: post)))) := by
  have hA : ∀ g ∈ fieldsOf pre, g.Tag ≠ e.key := by
    intro g hg
    obtain ⟨d, hd, rfl⟩ := List.mem_map.1 hg
    rw [he]
    exact hother d (List.mem_append_left _ hd)
  have hB : ∀ g ∈ fieldsOf post, g.Tag ≠ e.key := by
    intro g hg
    obtain ⟨d, hd, rfl⟩ := List.mem_map.1 hg
    rw [he]
    exact hother d (List.mem_append_right _ hd)
  simp only [Unmarshal]
  rw [hlines]
  have h0 := unmarshalLoop_entry fo doc.length []
    rest (fieldsOf (pre ++ (sf, v) :: post)) (by simp) hk hne hh hl hc
  simp only [List.nil_append] at h0
  rw [h0, hval]
  simp only
  have hf : fieldsOf (pre ++ (sf, v) :: post) = fieldsOf pre ++ mkField (sf, v) :: fieldsOf post := by
    simp [fieldsOf]
  rw [hf, assignFields_unique _ fo e _ _ _ hA hB, hassign]
  simp only [unmarshalLoop_nil]
  rw [store_update]

/-- Decoding a document that consists of a single entry line whose key is the
external key of exactly one field. -/
theorem Unmarshal_one_entry (fo : FloatOps F) {k val : Str} {e : Entry}
    (pre post : List (StructField × Value F)) (sf : StructField) (v v1 : Value F)
    (hk : IsKey k) (hne : val ≠ []) (hh : ∀ c, val.head? = some c → isSpace c = false)
    (hl : ∀ c, val.getLast? = some c → isSpace c = false) (hc : '#' ∉ val)
    (hnl : '\n' ∉ val) (hshort : ShortLines (k ++ ':' :: ' ' :: val))
    (hother : ∀ d ∈ pre ++ post, (mkField d).Tag ≠ k)
    (hval : parseValue k val [] = .ok (e, [])) (he : e.key = k)
    (hassign : ∀ inner, assignField inner fo e (mkField (sf, v)) = (none, { Tag := k, Value := v1 })) :
    Unmarshal fo (k ++ ':' :: ' ' :: val) (.pointer (some (.struct (pre ++ (sf, v) :: post))))
      = (none, .pointer (some (.struct (pre ++ (sf, v1) :: post)))) := by
  have hnl2 : '\n' ∉ k ++ ':' :: ' ' :: val := by
    simp only [List.mem_append, List.mem_cons, not_or]
    exact ⟨hk.not_mem_nl, by decide, by decide, hnl⟩
  have hcr : dropCR (k ++ ':' :: ' ' :: val) = k ++ ':' :: ' ' :: val := by
    apply dropCR_of_getLast
    rw [List.getLast?_append_of_ne_nil _ (by simp), List.getLast?_cons_cons,
      getLast?_cons_of_ne hne]
    intro h
    have := hl _ h
    rw [isSpace_cr] at this
    exact absurd this (by simp)
  have hlines : scanLines (k ++ ':' :: ' ' :: val) = [k ++ ':' :: ' ' :: val] := by
    rw [scanLines_single hnl2 (by simp) (byteLen_of_ShortLines hnl2 hshort), hcr]
  exact Unmarshal_one_block fo pre post sf v v1 hlines hk hne hh hl hc hother hval he hassign

end Cfg

namespace Cfg

variable {F : Type}

/-! ## Quoted and bare scalars -/

theorem removeCommaFromEnd_comma (s : Str) : removeCommaFromEnd (s ++ [',']) = .ok s := by
  unfold removeCommaFromEnd
  simp

theorem removeCommaFromEnd_other {s : Str} {c : Char} (h : s.getLast? = some c) (hc : c ≠ ',') :
    removeCommaFromEnd s = .ok s := by
  unfold removeCommaFromEnd
  simp [h, hc]

theorem slice_middle (q r : Char) (t : Str) :
    slice (q :: (t ++ [r])) 1 (((q :: (t ++ [r])).length : Int) - 1) = some t := by
  unfold slice
  have h1 : ((q :: (t ++ [r])).length : Int) - 1 = ((t.length + 1 : Nat) : Int) := by
    simp
  rw [h1, if_pos ⟨by omega, by omega, by simp⟩]
  simp only [Int.toNat_ofNat, Int.toNat_one, List.take_succ_cons, List.drop_succ_cons,
    List.drop_zero]
  simp

theorem unwrap_quoted (q : Char) (t : Str) (hq : q = sq ∨ q = dq) :
    unwrapQuotationMarks (q :: (t ++ [q])) = .ok t := by
  unfold unwrapQuotationMarks
  have hl : (q :: (t ++ [q])).getLast? = some q := by
    rw [getLast?_cons_of_ne (by simp)]
    simp
  simp only [hl, slice_middle]
  rcases hq with rfl | rfl <;> simp

theorem unwrap_plain {s : Str} {c : Char} (h : s.head? = some c) (h1 : c ≠ sq) (h2 : c ≠ dq) :
    unwrapQuotationMarks s = .ok s := by
  cases s with
  | nil => simp at h
  | cons x xs =>
    simp only [List.head?_cons, Option.some.injEq] at h
    subst h
    unfold unwrapQuotationMarks
    simp [h1, h2]

theorem assignField_simple (inner : List Str → List (field F) → Option Fault × List (field F))
    (fo : FloatOps F) {k val v1 v2 : Str} {f f1 : field F} (hf : f.Tag = k) (hk : k ≠ ['-'])
    (h1 : removeCommaFromEnd val = .ok v1) (h2 : unwrapQuotationMarks v1 = .ok v2)
    (h3 : setValue fo f v2 = .ok f1) :
    assignField inner fo { key := k, value := val, lines := [], innerData := [] } f
      = (none, f1) := by
  unfold assignField
  simp [hf, hk, h1, h2, h3]

/-- The descriptor of an exported field. -/
theorem mkField_of_exported (sf : StructField) (v : Value F) (h : sf.IsExported = true) :
    mkField (sf, v) = { Tag := (mkField (sf, v)).Tag, Value := v } := by
  simp [mkField, h]

theorem setValue_string (fo : FloatOps F) (tag old v : Str) :
    setValue fo { Tag := tag, Value := .string old } v = .ok { Tag := tag, Value := .string v } :=
  rfl

theorem tokenChar_iff {c : Char} : tokenChar c = true ↔
    isSpace c = false ∧ c ≠ '#' ∧ c ≠ '[' ∧ c ≠ ']' ∧ c ≠ lbrace ∧ c ≠ rbrace ∧ c ≠ ',' ∧
      c ≠ sq ∧ c ≠ dq := by
  simp [tokenChar, and_assoc]

theorem plainChar_of_token {c : Char} (h : tokenChar c = true) : plainChar c := by
  rw [tokenChar_iff] at h
  refine ⟨h.2.1, h.2.2.1, h.2.2.2.1, h.2.2.2.2.1, h.2.2.2.2.2.1, ?_⟩
  rintro rfl
  exact absurd h.1 (by decide)

/-- Decoding a document that consists of a single entry line with a plain value
into the field of a scalar kind that carries the key. -/
theorem Unmarshal_plain_entry (fo : FloatOps F) {k val v1 v2 : Str}
    (pre post : List (StructField × Value F)) (sf : StructField) (v w : Value F)
    (hk : IsKey k) (hne : val ≠ []) (hh : ∀ c, val.head? = some c → isSpace c = false)
    (hl : ∀ c, val.getLast? = some c → isSpace c = false) (hp : ∀ c ∈ val, plainChar c)
    (hshort : byteLen (k ++ ':' :: ' ' :: val) < MaxScanTokenSize)
    (htag : (mkField (sf, v)).Tag = k)
    (hother : ∀ d ∈ pre ++ post, (mkField d).Tag ≠ k)
    (h1 : removeCommaFromEnd val = .ok v1) (h2 : unwrapQuotationMarks v1 = .ok v2)
    (h3 : setValue fo (mkField (sf, v)) v2 = .ok { Tag := k, Value := w }) :
    Unmarshal fo (k ++ ':' :: ' ' :: val) (.pointer (some (.struct (pre ++ (sf, v) :: post))))
      = (none, .pointer (some (.struct (pre ++ (sf, w) :: post)))) :=
  Unmarshal_one_entry fo pre post sf v w hk hne hh hl (fun h => (hp _ h).1 rfl)
    (fun h => (hp _ h).2.2.2.2.2 rfl) (ShortLines_of_byteLen hshort) hother
    (parseValue_plain k val [] fun c hc => ⟨(hp c hc).2.1, (hp c hc).2.2.1, (hp c hc).2.2.2.1,
      (hp c hc).2.2.2.2.1⟩) rfl
    (fun inner => assignField_simple inner fo htag hk.2.1 h1 h2 h3)

/-- C5. Quoted and bare scalars: for every key `k`, every non-empty token `t` of
token characters (letters and digits among them) and every record with exactly
one field of external key `k`, an exported string field, decoding each of the
documents `k: 't',`, `k: "t",` and `k: t,` that is shorter than the 64 KiB limit
of the scanner returns a nil error and sets that field to exactly `t`, leaving
the other fields as they were. -/
theorem quoted_and_bare_scalars (fo : FloatOps F) (k t old : Str) (sf : StructField)
    (pre post : List (StructField × Value F))
    (hk : IsKey k) (htag : (mkField (sf, (Value.string old : Value F))).Tag = k)
    (hexp : sf.IsExported = true)
    (hother : ∀ d ∈ pre ++ post, (mkField d).Tag ≠ k)
    (hne : t ≠ []) (ht : ∀ c ∈ t, tokenChar c = true) :
    ∀ doc ∈ [k ++ [':', ' ', sq] ++ t ++ [sq, ','], k ++ [':', ' ', dq] ++ t ++ [dq, ','],
        k ++ [':', ' '] ++ t ++ [',']],
      byteLen doc < MaxScanTokenSize →
      Unmarshal fo doc (.pointer (some (.struct (pre ++ (sf, .string old) :: post))))
        = (none, .pointer (some (.struct (pre ++ (sf, .string t) :: post)))) := by
  have hset : setValue fo (mkField (sf, (Value.string old : Value F))) t
      = .ok { Tag := k, Value := .string t } := by
    rw [← htag, mkField_of_exported sf _ hexp]
    rfl
  have hq : ∀ q : Char, (q = sq ∨ q = dq) →
      byteLen (k ++ ':' :: ' ' :: ((q :: (t ++ [q])) ++ [','])) < MaxScanTokenSize →
      Unmarshal fo (k ++ ':' :: ' ' :: ((q :: (t ++ [q])) ++ [',']))
        (.pointer (some (.struct (pre ++ (sf, .string old) :: post))))
        = (none, .pointer (some (.struct (pre ++ (sf, .string t) :: post)))) := by
    intro q hq hshort
    have hqs : isSpace q = false := by rcases hq with rfl | rfl <;> decide
    have hqp : plainChar q := by rcases hq with rfl | rfl <;> decide
    refine Unmarshal_plain_entry fo pre post sf _ _ hk (by simp) ?_ ?_ ?_ hshort htag hother
      (removeCommaFromEnd_comma _) (unwrap_quoted q t hq) hset
    · intro c hc
      simp only [List.cons_append, List.head?_cons, Option.some.injEq] at hc
      rw [← hc]
      exact hqs
    · intro c hc
      rw [List.getLast?_append_of_ne_nil _ (by simp)] at hc
      simp only [List.getLast?_singleton, Option.some.injEq] at hc
      rw [← hc]
      decide
    · intro c hc
      simp only [List.cons_append, List.mem_cons, List.mem_append, List.mem_singleton,
        List.not_mem_nil, or_false] at hc
      rcases hc with rfl | (hc | rfl) | rfl
      · exact hqp
      · exact plainChar_of_token (ht c hc)
      · exact hqp
      · decide
  intro doc hdoc hshort
  simp only [List.mem_cons, List.mem_singleton, List.not_mem_nil, or_false] at hdoc
  rcases hdoc with rfl | rfl | rfl
  · have := hq sq (Or.inl rfl) (by simpa using hshort)
    simpa using this
  · have := hq dq (Or.inr rfl) (by simpa using hshort)
    simpa using this
  · obtain ⟨x, xs, rfl⟩ := List.exists_cons_of_ne_nil hne
    have hx := tokenChar_iff.1 (ht x (by simp))
    have h0 : k ++ [':', ' '] ++ (x :: xs) ++ [','] = k ++ ':' :: ' ' :: ((x :: xs) ++ [',']) := by
      simp
    rw [h0] at hshort ⊢
    refine Unmarshal_plain_entry fo pre post sf _ _ hk (by simp) ?_ ?_ ?_ hshort htag hother
      (removeCommaFromEnd_comma _) (unwrap_plain (c := x) rfl hx.2.2.2.2.2.2.2.1 hx.2.2.2.2.2.2.2.2)
      hset
    · intro c hc
      simp only [List.cons_append, List.head?_cons, Option.some.injEq] at hc
      rw [← hc]
      exact hx.1
    · intro c hc
      rw [List.getLast?_append_of_ne_nil _ (by simp)] at hc
      simp only [List.getLast?_singleton, Option.some.injEq] at hc
      rw [← hc]
      decide
    · intro c hc
      simp only [List.mem_append, List.mem_singleton] at hc
      rcases hc with hc | rfl
      · exact plainChar_of_token (ht c hc)
      · decide

end Cfg

namespace Cfg

variable {F : Type}

/-! ## Arrays -/

theorem Join_cons_cons (x y : Str) (r : List Str) (sep : Str) :
    Join (x :: y :: r) sep = x ++ sep ++ Join (y :: r) sep := rfl

theorem Split_Join_sep (c : Char) (p : Str) (xs : List Str) (hne : xs ≠ [])
    (hx : ∀ x ∈ xs, c ∉ x) (hp : c ∉ p) : Split (Join xs (p ++ [c])) c = sepInit p xs := by
  induction xs with
  | nil => exact absurd rfl hne
  | cons x r ih =>
    cases r with
    | nil => exact Split_of_not_mem (hx x (by simp))
    | cons y r =>
      have h1 : Join (x :: y :: r) (p ++ [c]) = (x ++ p) ++ c :: Join (y :: r) (p ++ [c]) := by
        rw [Join_cons_cons]
        simp
      have h2 : c ∉ x ++ p := by
        simp only [List.mem_append, not_or]
        exact ⟨hx x (by simp), hp⟩
      rw [h1, Split_append_cons _ h2, ih (by simp) fun z hz => hx z (List.mem_cons_of_mem _ hz)]
      rfl

theorem sepInit_nil_eq (xs : List Str) : sepInit [] xs = xs := by
  induction xs with
  | nil => rfl
  | cons x r ih =>
    cases r with
    | nil => rfl
    | cons y r =>
      rw [sepInit, ih]
      simp

theorem sepInit_length (p : Str) (xs : List Str) : (sepInit p xs).length = xs.length := by
  induction xs with
  | nil => rfl
  | cons x r ih =>
    cases r with
    | nil => rfl
    | cons y r =>
      rw [sepInit, List.length_cons, ih]
      rfl

theorem removeCommas_id {xs : List Str} (h : ∀ x ∈ xs, ∃ c, x.getLast? = some c ∧ c ≠ ',') :
    removeCommas xs = .ok xs := by
  induction xs with
  | nil => rfl
  | cons x r ih =>
    obtain ⟨c, hc1, hc2⟩ := h x (by simp)
    rw [removeCommas, removeCommaFromEnd_other hc1 hc2,
      ih fun z hz => h z (List.mem_cons_of_mem _ hz)]

theorem removeCommas_sepInit {xs : List Str}
    (h : ∀ x ∈ xs, ∃ c, x.getLast? = some c ∧ c ≠ ',') :
    removeCommas (sepInit [','] xs) = .ok xs := by
  induction xs with
  | nil => rfl
  | cons x r ih =>
    cases r with
    | nil => exact removeCommas_id h
    | cons y r =>
      rw [sepInit, removeCommas, removeCommaFromEnd_comma,
        ih fun z hz => h z (List.mem_cons_of_mem _ hz)]

theorem dquote_getLast? (t : Str) : (dquote t).getLast? = some dq := by
  unfold dquote
  rw [getLast?_cons_of_ne (by simp)]
  simp

theorem mem_dquote {t : Str} {c : Char} : c ∈ dquote t ↔ c = dq ∨ c ∈ t := by
  unfold dquote
  simp only [List.mem_cons, List.mem_append, List.mem_singleton]
  tauto

theorem setSliceValues_strings (fo : FloatOps F) (tag : Str) (old ts : List Str) :
    setSliceValues fo { Tag := tag, Value := .slice (.strings old) } (ts.map dquote)
      = (none, { Tag := tag, Value := .slice (.strings (old ++ ts)) }) := by
  induction ts generalizing old with
  | nil => simp [setSliceValues]
  | cons t ts ih =>
    have h1 : setSliceValue fo { Tag := tag, Value := .slice (.strings old) } t
        = .ok { Tag := tag, Value := .slice (.strings (old ++ [t])) } := rfl
    simp only [List.map_cons, setSliceValues]
    rw [show dquote t = dq :: (t ++ [dq]) from rfl, unwrap_quoted dq t (Or.inr rfl)]
    simp only [h1, ih]
    simp

/-- The assignment of the elements of an array entry to a string slice. -/
theorem assignField_strings (inner : List Str → List (field F) → Option Fault × List (field F))
    (fo : FloatOps F) (k value : Str) (old ts : List Str) (hk : k ≠ ['-']) (hne : ts ≠ []) :
    assignField inner fo { key := k, value := value, lines := ts.map dquote, innerData := [] }
        { Tag := k, Value := .slice (.strings old) }
      = (none, { Tag := k, Value := .slice (.strings (old ++ ts)) }) := by
  unfold assignField
  have hlen : 0 < (ts.map dquote).length := by
    cases ts with
    | nil => exact absurd rfl hne
    | cons t r => simp
  have hA : (field.IsArray ({ Tag := k, Value := .slice (.strings old) } : field F)) = true := rfl
  simp only [hk, ↓reduceIte, gt_iff_lt, hlen, decide_True, hA, not_true_eq_false, and_false,
    and_self, setSliceValues_strings]

theorem slice_inside (q r : Char) (t : Str) :
    slice (q :: (t ++ [r])) (0 + 1) ((t.length : Int) + 1) = some t := by
  have h := slice_middle q r t
  have h1 : ((q :: (t ++ [r])).length : Int) - 1 = (t.length : Int) + 1 := by
    simp
  rw [h1] at h
  simpa using h

/-- The entry read from the value `[body]` of a one-line array. -/
theorem parseValue_oneLineArray (k body : Str) (rest lines : List Str)
    (hb : '[' ∉ body ∧ ']' ∉ body ∧ lbrace ∉ body ∧ rbrace ∉ body)
    (hlines : removeCommas (if (Split (TrimSpace body) ' ').length = 1
        then Split (TrimSpace body) ',' else Split (TrimSpace body) ' ') = .ok lines) :
    parseValue k ('[' :: (body ++ [']'])) rest =
      .ok ({ key := k, value := TrimSpace body, lines := lines, innerData := [] }, rest) := by
  have h1 : Index ('[' :: (body ++ [']'])) '[' = 0 := by simp [Index]
  have h2 : Index ('[' :: (body ++ [']'])) ']' = (body.length : Int) + 1 := by
    have := Index_append_cons (a := '[' :: body) (c := ']') [] (by
      simp only [List.mem_cons, not_or]
      exact ⟨by decide, hb.2.1⟩)
    simpa using this
  have h3 : Index ('[' :: (body ++ [']'])) lbrace = -1 := Index_of_not_mem (by
    simp only [List.mem_cons, List.mem_append, List.mem_singleton, not_or]
    exact ⟨by decide, hb.2.2.1, by decide⟩)
  have h4 : Index ('[' :: (body ++ [']'])) rbrace = -1 := Index_of_not_mem (by
    simp only [List.mem_cons, List.mem_append, List.mem_singleton, not_or]
    exact ⟨by decide, hb.2.2.2, by decide⟩)
  have h5 : ¬ ((body.length : Int) + 1 < 0) := by omega
  have h6 : (0 : Int) ≤ (body.length : Int) + 1 := by omega
  unfold parseValue
  simp only [h1, h2, h3, h4, ge_iff_le, le_refl, h5, and_false, ↓reduceIte, h6, and_self,
    oneLineArray, slice_inside, hlines]
  simp

end Cfg

namespace Cfg

variable {F : Type}

theorem mem_Join {xs : List Str} {sep : Str} {c : Char} (h : c ∈ Join xs sep) :
    c ∈ sep ∨ ∃ x ∈ xs, c ∈ x := by
  induction xs with
  | nil => simp [Join] at h
  | cons x r ih =>
    cases r with
    | nil => exact Or.inr ⟨x, by simp, h⟩
    | cons y r =>
      rw [Join_cons_cons] at h
      simp only [List.mem_append] at h
      rcases h with (h | h) | h
      · exact Or.inr ⟨x, by simp, h⟩
      · exact Or.inl h
      · rcases ih h with h1 | ⟨z, hz, hc⟩
        · exact Or.inl h1
        · exact Or.inr ⟨z, List.mem_cons_of_mem _ hz, hc⟩

theorem Join_dquote_ends (ts : List Str) (sep : Str) (hne : ts ≠ []) :
    (Join (ts.map dquote) sep).head? = some dq ∧
      (Join (ts.map dquote) sep).getLast? = some dq := by
  induction ts with
  | nil => exact absurd rfl hne
  | cons t r ih =>
    cases r with
    | nil => exact ⟨rfl, dquote_getLast? t⟩
    | cons y r =>
      have h := ih (by simp)
      simp only [List.map_cons] at h ⊢
      rw [Join_cons_cons]
      constructor
      · rfl
      · have hne2 : Join (dquote y :: List.map dquote r) sep ≠ [] := by
          intro h0
          rw [h0] at h
          simp at h
        rw [List.getLast?_append_of_ne_nil _ hne2]
        exact h.2

theorem mem_Join_dquote {ts : List Str} {sep : Str} {c : Char}
    (h : c ∈ Join (ts.map dquote) sep) : c ∈ sep ∨ c = dq ∨ ∃ t ∈ ts, c ∈ t := by
  rcases mem_Join h with h | ⟨x, hx, hc⟩
  · exact Or.inl h
  · obtain ⟨t, ht, rfl⟩ := List.mem_map.1 hx
    rcases mem_dquote.1 hc with h1 | h1
    · exact Or.inr (Or.inl h1)
    · exact Or.inr (Or.inr ⟨t, ht, h1⟩)

theorem mkField_eq (sf : StructField) (v : Value F) (h : sf.IsExported = true) :
    mkField (sf, v) = { Tag := (mkField (sf, v)).Tag, Value := v } :=
  mkField_of_exported sf v h

/-- The elements read from the body of a one-line array in the comma form. -/
theorem lines_commaForm (ts : List Str) (hne : ts ≠ [])
    (ht : ∀ t ∈ ts, ∀ c ∈ t, tokenChar c = true) :
    removeCommas (if (Split (TrimSpace (Join (ts.map dquote) [','])) ' ').length = 1
        then Split (TrimSpace (Join (ts.map dquote) [','])) ','
        else Split (TrimSpace (Join (ts.map dquote) [','])) ' ') = .ok (ts.map dquote) := by
  have hends := Join_dquote_ends ts [','] hne
  have htrim : TrimSpace (Join (ts.map dquote) [',']) = Join (ts.map dquote) [','] :=
    TrimSpace_of_ends (fun c hc => by rw [hends.1] at hc; cases hc; decide)
      (fun c hc => by rw [hends.2] at hc; cases hc; decide)
  have hsp : ' ' ∉ Join (ts.map dquote) [','] := by
    intro h
    rcases mem_Join_dquote h with h | h | ⟨t, ht1, hc⟩
    · revert h; decide
    · revert h; decide
    · exact absurd (tokenChar_iff.1 (ht t ht1 _ hc)).1 (by decide)
  have hcomma : ∀ x ∈ ts.map dquote, ',' ∉ x := by
    intro x hx hc
    obtain ⟨t, ht1, rfl⟩ := List.mem_map.1 hx
    rcases mem_dquote.1 hc with h | h
    · revert h; decide
    · exact (tokenChar_iff.1 (ht t ht1 _ h)).2.2.2.2.2.2.1 rfl
  have hsplit := Split_Join_sep ',' [] (ts.map dquote) (by simpa using hne) hcomma (by simp)
  simp only [List.nil_append, sepInit_nil_eq] at hsplit
  rw [htrim, Split_of_not_mem hsp, if_pos (by rfl), hsplit]
  apply removeCommas_id
  intro x hx
  obtain ⟨t, _, rfl⟩ := List.mem_map.1 hx
  exact ⟨dq, dquote_getLast? t, by decide⟩

/-- The elements read from the body of a one-line array in the comma-and-space
form. -/
theorem lines_commaSpaceForm (ts : List Str) (hne : ts ≠ [])
    (ht : ∀ t ∈ ts, ∀ c ∈ t, tokenChar c = true) :
    removeCommas (if (Split (TrimSpace (' ' :: Join (ts.map dquote) [',', ' '])) ' ').length = 1
        then Split (TrimSpace (' ' :: Join (ts.map dquote) [',', ' '])) ','
        else Split (TrimSpace (' ' :: Join (ts.map dquote) [',', ' '])) ' ')
      = .ok (ts.map dquote) := by
  have hends := Join_dquote_ends ts [',', ' '] hne
  have htrim : TrimSpace (' ' :: Join (ts.map dquote) [',', ' ']) = Join (ts.map dquote) [',', ' '] := by
    rw [TrimSpace_cons_space]
    exact TrimSpace_of_ends (fun c hc => by rw [hends.1] at hc; cases hc; decide)
      (fun c hc => by rw [hends.2] at hc; cases hc; decide)
  have hspace : ∀ x ∈ ts.map dquote, ' ' ∉ x := by
    intro x hx hc
    obtain ⟨t, ht1, rfl⟩ := List.mem_map.1 hx
    rcases mem_dquote.1 hc with h | h
    · revert h; decide
    · exact absurd (tokenChar_iff.1 (ht t ht1 _ h)).1 (by decide)
  have hlast : ∀ x ∈ ts.map dquote, ∃ c, x.getLast? = some c ∧ c ≠ ',' := by
    intro x hx
    obtain ⟨t, _, rfl⟩ := List.mem_map.1 hx
    exact ⟨dq, dquote_getLast? t, by decide⟩
  have hsplit := Split_Join_sep ' ' [','] (ts.map dquote) (by simpa using hne) hspace (by decide)
  rw [htrim, show [',', ' '] = [','] ++ [' '] from rfl, hsplit, sepInit_length]
  split_ifs with h1
  · obtain ⟨t, rfl⟩ : ∃ t, ts = [t] := by
      cases ts with
      | nil => exact absurd rfl hne
      | cons t r =>
        cases r with
        | nil => exact ⟨t, rfl⟩
        | cons y r => simp at h1
    have hc : ',' ∉ dquote t := by
      intro hc
      rcases mem_dquote.1 hc with h | h
      · revert h; decide
      · exact (tokenChar_iff.1 (ht t (by simp) _ h)).2.2.2.2.2.2.1 rfl
    simp only [List.map_cons, List.map_nil, Join]
    rw [Split_of_not_mem hc]
    exact removeCommas_id (by simpa using hlast)
  · exact removeCommas_sepInit hlast

/-- Decoding a one-line array whose body yields the quoted tokens appends the
tokens to the string slice that carries the key. -/
theorem Unmarshal_oneLineArray (fo : FloatOps F) (k body : Str) (ts old : List Str)
    (sf : StructField) (pre post : List (StructField × Value F))
    (hk : IsKey k) (htag : (mkField (sf, (Value.slice (.strings old) : Value F))).Tag = k)
    (hexp : sf.IsExported = true)
    (hother : ∀ d ∈ pre ++ post, (mkField d).Tag ≠ k) (hne : ts ≠ [])
    (hb : ∀ c ∈ body, plainChar c)
    (hlines : removeCommas (if (Split (TrimSpace body) ' ').length = 1
        then Split (TrimSpace body) ',' else Split (TrimSpace body) ' ') = .ok (ts.map dquote))
    (hshort : ShortLines (k ++ ':' :: ' ' :: '[' :: (body ++ [']']))) :
    Unmarshal fo (k ++ ':' :: ' ' :: '[' :: (body ++ [']']))
        (.pointer (some (.struct (pre ++ (sf, .slice (.strings old)) :: post))))
      = (none, .pointer (some (.struct (pre ++ (sf, .slice (.strings (old ++ ts))) :: post)))) := by
  refine Unmarshal_one_entry fo pre post sf _ _ hk (by simp) ?_ ?_ ?_ ?_ hshort hother
    (parseValue_oneLineArray k body [] (ts.map dquote)
      ⟨fun h => (hb _ h).2.1 rfl, fun h => (hb _ h).2.2.1 rfl, fun h => (hb _ h).2.2.2.1 rfl,
        fun h => (hb _ h).2.2.2.2.1 rfl⟩ hlines) rfl ?_
  · intro c hc
    simp only [List.head?_cons, Option.some.injEq] at hc
    rw [← hc]
    decide
  · intro c hc
    rw [getLast?_cons_of_ne (by simp), List.getLast?_append_of_ne_nil _ (by simp)] at hc
    simp only [List.getLast?_singleton, Option.some.injEq] at hc
    rw [← hc]
    decide
  · simp only [List.mem_cons, List.mem_append, List.mem_singleton, not_or]
    exact ⟨by decide, fun h => (hb _ h).1 rfl, by decide⟩
  · simp only [List.mem_cons, List.mem_append, List.mem_singleton, not_or]
    exact ⟨by decide, fun h => (hb _ h).2.2.2.2.2 rfl, by decide⟩
  · intro inner
    rw [mkField_eq sf _ hexp, htag]
    exact assignField_strings inner fo k _ old ts hk.2.1 hne

theorem plainChar_Join_dquote {ts : List Str} {sep : Str}
    (ht : ∀ t ∈ ts, ∀ c ∈ t, tokenChar c = true) (hsep : ∀ c ∈ sep, plainChar c) :
    ∀ c ∈ Join (ts.map dquote) sep, plainChar c := by
  intro c hc
  rcases mem_Join_dquote hc with h | h | ⟨t, ht1, h⟩
  · exact hsep c h
  · rw [h]
    decide
  · exact plainChar_of_token (ht t ht1 c h)

end Cfg

namespace Cfg

variable {F : Type}

theorem allLines_flatMap (ls : List Str) (tail : Str) (h : ∀ l ∈ ls, '\n' ∉ l) :
    allLines (ls.flatMap (fun l => l ++ ['\n']) ++ tail) = ls.map dropCR ++ allLines tail := by
  induction ls with
  | nil => rfl
  | cons l r ih =>
    have h1 : (l :: r).flatMap (fun l => l ++ ['\n']) ++ tail
        = l ++ '\n' :: (r.flatMap (fun l => l ++ ['\n']) ++ tail) := by
      simp
    rw [h1, allLines_cons _ (h l (by simp)), ih fun z hz => h z (List.mem_cons_of_mem _ hz)]
    rfl

theorem arrayLine_trim (t : Str) (c : Bool) :
    TrimSpace (arrayLine t c) = dquote t ++ (if c then [','] else []) := by
  unfold arrayLine
  rw [List.append_assoc, TrimSpace_leading _ (by decide)]
  apply TrimSpace_of_ends
  · intro x hx
    simp only [dquote, List.cons_append, List.head?_cons, Option.some.injEq] at hx
    rw [← hx]
    decide
  · intro x hx
    cases c with
    | true =>
      rw [if_pos rfl, List.getLast?_append_of_ne_nil _ (by simp)] at hx
      simp only [List.getLast?_singleton, Option.some.injEq] at hx
      rw [← hx]
      decide
    | false =>
      simp only [Bool.false_eq_true, ↓reduceIte, List.append_nil, dquote_getLast?,
        Option.some.injEq] at hx
      rw [← hx]
      decide

theorem arrayLine_removeComma (t : Str) (c : Bool) :
    removeCommaFromEnd (dquote t ++ (if c then [','] else [])) = .ok (dquote t) := by
  cases c with
  | true => exact removeCommaFromEnd_comma _
  | false =>
    simp only [Bool.false_eq_true, ↓reduceIte, List.append_nil]
    exact removeCommaFromEnd_other (dquote_getLast? t) (by decide)

theorem mem_arrayLine {t : Str} {b : Bool} {c : Char} (h : c ∈ arrayLine t b) :
    c = ' ' ∨ c = dq ∨ c = ',' ∨ c ∈ t := by
  unfold arrayLine at h
  simp only [List.mem_append, List.mem_cons, List.not_mem_nil, or_false, mem_dquote] at h
  rcases h with ((h | h) | h | h) | h
  · exact Or.inl h
  · exact Or.inl h
  · exact Or.inr (Or.inl h)
  · exact Or.inr (Or.inr (Or.inr h))
  · cases b with
    | true =>
      simp only [↓reduceIte, List.mem_singleton] at h
      exact Or.inr (Or.inr (Or.inl h))
    | false => simp at h

theorem arrayLine_valid (t : Str) (b : Bool) (ht : ∀ c ∈ t, tokenChar c = true) :
    validLine (arrayLine t b) = some (arrayLine t b) := by
  have hh : '#' ∉ arrayLine t b := by
    intro h
    rcases mem_arrayLine h with h | h | h | h
    · revert h; decide
    · revert h; decide
    · revert h; decide
    · exact (tokenChar_iff.1 (ht _ h)).2.1 rfl
  unfold validLine
  rw [if_neg (by simp [arrayLine])]
  simp [Index_of_not_mem hh]

/-- The multi-line array loop on the element lines followed by the closing
bracket. -/
theorem scanArray_lines (ts : List Str) (commas : List Bool) (acc : List Str)
    (hc : commas.length = ts.length) (ht : ∀ t ∈ ts, ∀ c ∈ t, tokenChar c = true) :
    scanArray (List.zipWith arrayLine ts commas ++ [[']']]) 1 acc
      = .ok (acc ++ ts.map dquote, []) := by
  induction ts generalizing commas acc with
  | nil =>
    have h0 : commas = [] := List.length_eq_zero.1 hc
    subst h0
    have hv : validLine [']'] = some [']'] := by decide
    have ht : TrimSpace [']'] = [']'] := by decide
    have hr : removeCommaFromEnd [']'] = .ok [']'] := rfl
    have hcn : Contains [']'] '[' = false := by decide
    have hi : Index [']'] ']' = 0 := by decide
    simp [scanArray, hv, ht, hr, hcn, hi]
  | cons t r ih =>
    cases commas with
    | nil => simp at hc
    | cons b bs =>
      have hq : '[' ∉ dquote t ∧ ']' ∉ dquote t := by
        constructor <;> intro h <;> rcases mem_dquote.1 h with h | h
        · revert h; decide
        · exact (tokenChar_iff.1 (ht t (by simp) _ h)).2.2.1 rfl
        · revert h; decide
        · exact (tokenChar_iff.1 (ht t (by simp) _ h)).2.2.2.1 rfl
      have hcn : Contains (dquote t) '[' = false := Contains_eq_false.2 hq.1
      have hi : Index (dquote t) ']' = -1 := Index_of_not_mem hq.2
      have hlen : 0 < (dquote t).length := by simp [dquote]
      have hrec := ih bs (acc ++ [dquote t]) (by simpa using hc)
        fun z hz => ht z (List.mem_cons_of_mem _ hz)
      simp only [List.zipWith_cons_cons, List.cons_append, scanArray,
        arrayLine_valid t b (ht t (by simp)), arrayLine_trim, arrayLine_removeComma, hcn,
        Bool.false_eq_true, ↓reduceIte, hi, ge_iff_le, Int.reduceNeg, Left.nonneg_neg_iff,
        Int.reduceLE, gt_iff_lt, hlen, one_ne_zero]
      refine Eq.trans hrec ?_
      simp

/-- The entry read from the opening line of a multi-line array. -/
theorem parseValue_multiLineArray (k : Str) (ts : List Str) (commas : List Bool)
    (hc : commas.length = ts.length) (ht : ∀ t ∈ ts, ∀ c ∈ t, tokenChar c = true) :
    parseValue k ['['] (List.zipWith arrayLine ts commas ++ [[']']])
      = .ok ({ key := k, value := ['['], lines := ts.map dquote, innerData := [] }, []) := by
  have h1 : Index ['['] '[' = 0 := by decide
  have h2 : Index ['['] ']' = -1 := by decide
  have h3 : Index ['['] lbrace = -1 := by decide
  have h4 : Index ['['] rbrace = -1 := by decide
  have hs := scanArray_lines ts commas [] hc ht
  unfold parseValue
  simp only [h1, h2, h3, h4, hs]
  simp

theorem mem_zipWith_arrayLine {l : Str} {ts : List Str} {commas : List Bool}
    (h : l ∈ List.zipWith arrayLine ts commas) : ∃ t ∈ ts, ∃ b, l = arrayLine t b := by
  induction ts generalizing commas with
  | nil => simp at h
  | cons t r ih =>
    cases commas with
    | nil => simp at h
    | cons b bs =>
      simp only [List.zipWith_cons_cons, List.mem_cons] at h
      rcases h with h | h
      · exact ⟨t, by simp, b, h⟩
      · obtain ⟨t1, h1, b1, h2⟩ := ih h
        exact ⟨t1, List.mem_cons_of_mem _ h1, b1, h2⟩

theorem allLines_multiLineForm (k : Str) (ts : List Str) (commas : List Bool) (hk : IsKey k)
    (ht : ∀ t ∈ ts, ∀ c ∈ t, tokenChar c = true) :
    allLines (arrayMultiLineForm k ts commas)
      = (k ++ ':' :: ' ' :: ['[']) :: (List.zipWith arrayLine ts commas ++ [[']']]) := by
  have hls : ∀ l ∈ List.zipWith arrayLine ts commas,
      '\n' ∉ l ∧ dropCR l = l := by
    intro l hl
    obtain ⟨t, ht1, b, rfl⟩ := mem_zipWith_arrayLine hl
    constructor
    · intro h
      rcases mem_arrayLine h with h | h | h | h
      · revert h; decide
      · revert h; decide
      · revert h; decide
      · exact absurd (tokenChar_iff.1 (ht _ ht1 _ h)).1 (by decide)
    · apply dropCR_of_getLast
      unfold arrayLine
      cases b with
      | true =>
        rw [if_pos rfl, List.getLast?_append_of_ne_nil _ (by simp)]
        decide
      | false =>
        simp only [Bool.false_eq_true, ↓reduceIte, List.append_nil]
        rw [List.getLast?_append_of_ne_nil _ (by simp [dquote]), dquote_getLast?]
        decide
  have h1 : arrayMultiLineForm k ts commas = (k ++ [':', ' ', '[']) ++ '\n' ::
      ((List.zipWith arrayLine ts commas).flatMap (fun l => l ++ ['\n']) ++ [']']) := by
    simp [arrayMultiLineForm]
  have hnl : '\n' ∉ k ++ [':', ' ', '['] := by
    simp only [List.mem_append, List.mem_cons, List.not_mem_nil, or_false, not_or]
    exact ⟨hk.not_mem_nl, by decide, by decide, by decide⟩
  have hd : dropCR (k ++ [':', ' ', '[']) = k ++ [':', ' ', '['] := by
    rw [dropCR_append k (by simp)]
    rfl
  have hmap : (List.zipWith arrayLine ts commas).map dropCR = List.zipWith arrayLine ts commas :=
    (List.map_congr_left fun l hl => (hls l hl).2).trans (List.map_id _)
  rw [h1, allLines_cons _ hnl, hd, allLines_flatMap _ _ fun l hl => (hls l hl).1, hmap]
  simp
  rfl

/-- C7. Array forms agree and append: for every key `k`, every non-empty list of
tokens made of token characters (letters, digits and hyphens among them) and
every record with exactly one field of external key `k`, an exported string
slice, decoding the single-line comma form, the single-line comma-and-space
form, and the multi-line form with one quoted element per line (each line with
or without a trailing comma), whenever every line of the document is shorter
than the 64 KiB limit of the scanner, returns a nil error and leaves the slice
equal to its pre-decode contents followed by the tokens in order, the other
fields being untouched. -/
theorem array_forms_append (fo : FloatOps F) (k : Str) (ts : List Str) (commas : List Bool)
    (old : List Str) (sf : StructField) (pre post : List (StructField × Value F))
    (hk : IsKey k) (htag : (mkField (sf, (Value.slice (.strings old) : Value F))).Tag = k)
    (hexp : sf.IsExported = true)
    (hother : ∀ d ∈ pre ++ post, (mkField d).Tag ≠ k) (hne : ts ≠ [])
    (ht : ∀ t ∈ ts, ∀ c ∈ t, tokenChar c = true) (hc : commas.length = ts.length) :
    ∀ doc ∈ [arrayCommaForm k ts, arrayCommaSpaceForm k ts, arrayMultiLineForm k ts commas],
      ShortLines doc →
      Unmarshal fo doc (.pointer (some (.struct (pre ++ (sf, .slice (.strings old)) :: post))))
        = (none, .pointer (some (.struct (pre ++ (sf, .slice (.strings (old ++ ts))) :: post)))) := by
  intro doc hdoc hshort
  simp only [List.mem_cons, List.mem_singleton, List.not_mem_nil, or_false] at hdoc
  rcases hdoc with rfl | rfl | rfl
  · have h0 : arrayCommaForm k ts = k ++ ':' :: ' ' :: '[' :: (Join (ts.map dquote) [','] ++ [']']) := by
      simp [arrayCommaForm]
    rw [h0] at hshort ⊢
    exact Unmarshal_oneLineArray fo k (Join (ts.map dquote) [',']) ts old sf pre post hk htag
      hexp hother hne (plainChar_Join_dquote ht (by decide)) (lines_commaForm ts hne ht) hshort
  · have h0 : arrayCommaSpaceForm k ts
        = k ++ ':' :: ' ' :: '[' :: ((' ' :: Join (ts.map dquote) [',', ' ']) ++ [']']) := by
      simp [arrayCommaSpaceForm]
    rw [h0] at hshort ⊢
    exact Unmarshal_oneLineArray fo k (' ' :: Join (ts.map dquote) [',', ' ']) ts old sf pre
      post hk htag hexp hother hne (by
        intro c hc
        rcases List.mem_cons.1 hc with rfl | hc
        · decide
        · exact plainChar_Join_dquote ht (by decide) c hc) (lines_commaSpaceForm ts hne ht) hshort
  · refine Unmarshal_one_block fo pre post sf _ _
      ((scanLines_eq_allLines hshort).trans (allLines_multiLineForm k ts commas hk ht)) hk
      (by simp) (by decide) (by decide) (by decide) hother
      (parseValue_multiLineArray k ts commas hc ht) rfl ?_
    intro inner
    rw [mkField_eq sf _ hexp, htag]
    exact assignField_strings inner fo k _ old ts hk.2.1 hne

end Cfg

namespace Cfg

variable {F : Type}

/-! ## Rendering and reading scalars -/

/-- The decimal digit characters. -/
theorem digitVal_digitChar (m : Nat) (h : m < 10) : digitVal (Nat.digitChar m) = some m := by
  interval_cases m <;> rfl

theorem digitChar_props (m : Nat) (h : m < 10) :
    isSpace (Nat.digitChar m) = false ∧ plainChar (Nat.digitChar m) ∧
      Nat.digitChar m ≠ ',' ∧ Nat.digitChar m ≠ sq ∧ Nat.digitChar m ≠ dq ∧
      Nat.digitChar m ≠ '+' ∧ Nat.digitChar m ≠ '-' := by
  interval_cases m <;> decide

/-- The characters `Nat.toDigits` produces in front of its accumulator are
digits, and reading them back multiplies out to the number. -/
theorem toDigitsCore_spec (fuel n : Nat) (ds : List Char) (h : n < fuel) :
    ∃ pre, Nat.toDigitsCore 10 fuel n ds = pre ++ ds ∧ pre ≠ [] ∧
      (∀ c ∈ pre, ∃ m, m < 10 ∧ c = Nat.digitChar m) ∧
      ∀ acc rest, parseDigits (pre ++ rest) acc = parseDigits rest (acc * 10 ^ pre.length + n) := by
  induction fuel generalizing n ds with
  | zero => omega
  | succ fuel ih =>
    have hm : n % 10 < 10 := Nat.mod_lt _ (by omega)
    rw [Nat.toDigitsCore]
    split_ifs with h0
    · refine ⟨[Nat.digitChar (n % 10)], rfl, by simp, ?_, ?_⟩
      · intro c hc
        exact ⟨n % 10, hm, by simpa using hc⟩
      · intro acc rest
        have hn : n % 10 = n := by omega
        show parseDigits (Nat.digitChar (n % 10) :: rest) acc = _
        rw [parseDigits, digitVal_digitChar _ hm]
        simp only [List.length_singleton, pow_one, hn]
    · have hlt : n / 10 < fuel := by omega
      obtain ⟨pre, h1, h2, h3, h4⟩ := ih (n / 10) (Nat.digitChar (n % 10) :: ds) hlt
      refine ⟨pre ++ [Nat.digitChar (n % 10)], by rw [h1]; simp, by simp, ?_, ?_⟩
      · intro c hc
        rcases List.mem_append.1 hc with hc | hc
        · exact h3 c hc
        · exact ⟨n % 10, hm, by simpa using hc⟩
      · intro acc rest
        rw [List.append_assoc, h4]
        show parseDigits (Nat.digitChar (n % 10) :: rest) _ = _
        rw [parseDigits, digitVal_digitChar _ hm]
        simp only [List.length_append, List.length_singleton]
        congr 1
        have := Nat.div_add_mod n 10
        rw [pow_succ]
        nlinarith [this]

theorem toDigits_spec (n : Nat) :
    Nat.toDigits 10 n ≠ [] ∧ (∀ c ∈ Nat.toDigits 10 n, ∃ m, m < 10 ∧ c = Nat.digitChar m) ∧
      parseDigits (Nat.toDigits 10 n) 0 = some n := by
  obtain ⟨pre, h1, h2, h3, h4⟩ := toDigitsCore_spec (n + 1) n [] (by omega)
  rw [Nat.toDigits, h1, List.append_nil]
  refine ⟨h2, h3, ?_⟩
  have := h4 0 []
  simpa [parseDigits] using this

theorem ParseUint_toDigits (n : Nat) (h : n < 2 ^ 64) : ParseUint (Nat.toDigits 10 n) = some n := by
  obtain ⟨h1, _, h3⟩ := toDigits_spec n
  unfold ParseUint
  cases hd : Nat.toDigits 10 n with
  | nil => exact absurd hd h1
  | cons c cs =>
    rw [hd] at h3
    simp only [h3]
    rw [if_pos h]

theorem ParseInt_formatInt (n : Int) (h1 : -(2 : Int) ^ 63 ≤ n) (h2 : n < (2 : Int) ^ 63) :
    ParseInt (formatInt n) = some n := by
  unfold formatInt
  split_ifs with hneg
  · have hu : ParseUint (Nat.toDigits 10 n.natAbs) = some n.natAbs :=
      ParseUint_toDigits _ (by omega)
    have hle : n.natAbs ≤ 2 ^ 63 := by omega
    unfold ParseInt
    simp only [show ('-' : Char) ≠ '+' by decide, ↓reduceIte, hu, hle]
    congr 1
    omega
  · obtain ⟨hne, hd, _⟩ := toDigits_spec n.natAbs
    have hu : ParseUint (Nat.toDigits 10 n.natAbs) = some n.natAbs :=
      ParseUint_toDigits _ (by omega)
    have hlt : n.natAbs < 2 ^ 63 := by omega
    unfold ParseInt
    cases hds : Nat.toDigits 10 n.natAbs with
    | nil => exact absurd hds hne
    | cons c cs =>
      obtain ⟨m, hm, hc⟩ := hd c (by rw [hds]; simp)
      have hp := digitChar_props m hm
      rw [hds] at hu
      rw [hc] at hu ⊢
      simp only [hp.2.2.2.2.2.1, hp.2.2.2.2.2.2, ↓reduceIte, hu, hlt]
      congr 1
      omega

theorem bits_bounds (k : IntKind) : 1 ≤ k.bits ∧ k.bits ≤ 64 := by
  cases k <;> simp [IntKind.bits]

theorem InRange_int64 {k : IntKind} {n : Int} (h : k.InRange n) :
    -(2 : Int) ^ 63 ≤ n ∧ n < (2 : Int) ^ 63 := by
  unfold IntKind.InRange at h
  have hb := bits_bounds k
  have h1 : (2 : Int) ^ (k.bits - 1) ≤ 2 ^ 63 :=
    pow_le_pow_right₀ (by norm_num) (by omega)
  constructor <;> omega

theorem wrapInt_of_InRange {k : IntKind} {n : Int} (h : k.InRange n) : wrapInt k.bits n = n := by
  unfold IntKind.InRange at h
  unfold wrapInt
  have hb := bits_bounds k
  have h2 : (2 : Int) ^ k.bits = 2 * 2 ^ (k.bits - 1) := by
    rw [← pow_succ']
    congr 1
    omega
  rw [Int.emod_eq_of_lt (by omega) (by omega)]
  omega

theorem intValue_formatInt {k : IntKind} {n : Int} (h : k.InRange n) :
    intValue (formatInt n) = (n, none) := by
  unfold intValue
  rw [ParseInt_formatInt n (InRange_int64 h).1 (InRange_int64 h).2]

theorem boolValue_formatBool (b : Bool) : boolValue (formatBool b) = b := by
  cases b <;> decide

end Cfg

namespace Cfg

variable {F : Type}

/-! ## The entries of scalar fields -/

theorem formatBool_chars (b : Bool) :
    ∀ c ∈ formatBool b, isSpace c = false ∧ plainChar c ∧ c ≠ ',' ∧ c ≠ sq ∧ c ≠ dq := by
  cases b <;> decide

theorem formatInt_chars (n : Int) :
    ∀ c ∈ formatInt n, isSpace c = false ∧ plainChar c ∧ c ≠ ',' ∧ c ≠ sq ∧ c ≠ dq := by
  have hd : ∀ c ∈ Nat.toDigits 10 n.natAbs,
      isSpace c = false ∧ plainChar c ∧ c ≠ ',' ∧ c ≠ sq ∧ c ≠ dq := by
    intro c hc
    obtain ⟨m, hm, rfl⟩ := (toDigits_spec n.natAbs).2.1 c hc
    have := digitChar_props m hm
    exact ⟨this.1, this.2.1, this.2.2.1, this.2.2.2.1, this.2.2.2.2.1⟩
  unfold formatInt
  split_ifs
  · intro c hc
    rcases List.mem_cons.1 hc with rfl | hc
    · decide
    · exact hd c hc
  · exact hd

theorem formatInt_ne_nil (n : Int) : formatInt n ≠ [] := by
  unfold formatInt
  split_ifs
  · simp
  · exact (toDigits_spec n.natAbs).1

/-- What the decoder needs to know about the text of a scalar. -/
theorem scalarText_spec (fo : FloatOps F) (tag : Str) (v : Value F) (hs : IsScalar v) :
    scalarText v ≠ [] ∧
    (∀ c, (scalarText v).head? = some c → isSpace c = false) ∧
    (∀ c, (scalarText v).getLast? = some c → isSpace c = false ∧ c ≠ ',') ∧
    (∀ c ∈ scalarText v, plainChar c) ∧
    ∃ u, unwrapQuotationMarks (scalarText v) = .ok u ∧
      setValue fo { Tag := tag, Value := Value.zero fo v } u = .ok { Tag := tag, Value := v } := by
  have hgen : ∀ t : Str, t ≠ [] →
      (∀ c ∈ t, isSpace c = false ∧ plainChar c ∧ c ≠ ',' ∧ c ≠ sq ∧ c ≠ dq) →
      (∀ c, t.head? = some c → isSpace c = false) ∧
      (∀ c, t.getLast? = some c → isSpace c = false ∧ c ≠ ',') ∧
      (∀ c ∈ t, plainChar c) ∧ unwrapQuotationMarks t = .ok t := by
    intro t hne ht
    refine ⟨fun c hc => (ht c (List.mem_of_mem_head? hc)).1,
      fun c hc => ⟨(ht c (List.mem_of_mem_getLast? hc)).1, (ht c (List.mem_of_mem_getLast? hc)).2.2.1⟩,
      fun c hc => (ht c hc).2.1, ?_⟩
    obtain ⟨x, xs, rfl⟩ := List.exists_cons_of_ne_nil hne
    have hx := ht x (by simp)
    exact unwrap_plain (c := x) rfl hx.2.2.2.1 hx.2.2.2.2
  cases v with
  | string s =>
    refine ⟨by simp [scalarText], ?_, ?_, ?_, s, unwrap_quoted sq s (Or.inl rfl), rfl⟩
    · intro c hc
      simp only [scalarText, List.head?_cons, Option.some.injEq] at hc
      rw [← hc]
      decide
    · intro c hc
      simp only [scalarText] at hc
      rw [getLast?_cons_of_ne (by simp), List.getLast?_append_of_ne_nil _ (by simp)] at hc
      simp only [List.getLast?_singleton, Option.some.injEq] at hc
      rw [← hc]
      decide
    · intro c hc
      simp only [scalarText, List.mem_cons, List.mem_append, List.mem_singleton,
        List.not_mem_nil, or_false] at hc
      rcases hc with rfl | hc | rfl
      · decide
      · exact hs c hc
      · decide
  | bool b =>
    obtain ⟨h1, h2, h3, h4⟩ := hgen (formatBool b) (by cases b <;> simp [formatBool])
      (formatBool_chars b)
    refine ⟨by cases b <;> simp [scalarText, formatBool], h1, h2, h3, formatBool b, h4, ?_⟩
    have hb : setValue fo { Tag := tag, Value := Value.zero fo (Value.bool b) } (formatBool b)
        = .ok { Tag := tag, Value := Value.bool (boolValue (formatBool b)) } := rfl
    rw [hb, boolValue_formatBool]
  | int k n =>
    obtain ⟨h1, h2, h3, h4⟩ := hgen (formatInt n) (formatInt_ne_nil n) (formatInt_chars n)
    refine ⟨formatInt_ne_nil n, h1, h2, h3, formatInt n, h4, ?_⟩
    have hi := intValue_formatInt (k := k) hs
    have hw := wrapInt_of_InRange (k := k) hs
    have hb : setValue fo { Tag := tag, Value := Value.zero fo (Value.int k n) } (formatInt n)
        = (match intValue (formatInt n) with
          | (_, some err) => Except.error (Fault.error (Err.wrap Msg.convert err))
          | (m, none) => Except.ok ({ Tag := tag, Value := Value.int k (wrapInt k.bits m) } :
              field F)) := rfl
    rw [hb, hi]
    simp only [hw]
  | uint k n => exact absurd hs (by simp [IsScalar])
  | float k x => exact absurd hs (by simp [IsScalar])
  | slice xs => exact absurd hs (by simp [IsScalar])
  | struct fs => exact absurd hs (by simp [IsScalar])
  | other i => exact absurd hs (by simp [IsScalar])

theorem removeCommaFromEnd_opt {t comma : Str} (hc : comma = [] ∨ comma = [','])
    (hl : ∀ c, t.getLast? = some c → isSpace c = false ∧ c ≠ ',') (hne : t ≠ []) :
    removeCommaFromEnd (t ++ comma) = .ok t := by
  rcases hc with rfl | rfl
  · rw [List.append_nil]
    exact removeCommaFromEnd_other (List.getLast?_eq_getLast _ hne)
      (hl _ (List.getLast?_eq_getLast _ hne)).2
  · exact removeCommaFromEnd_comma t

/-- One iteration of the main loop on the line of a scalar entry, indented or
not, with or without a trailing comma: the field that carries the key takes the
value. -/
theorem unmarshalLoop_scalar_step (fo : FloatOps F) (n : Nat) (indent comma : Str)
    (sf : StructField) (v : Value F) (rest : List Str) (A B : List (field F))
    (hi : ∀ c ∈ indent, isSpace c = true) (hc : comma = [] ∨ comma = [','])
    (hk : IsKey (mkField (sf, v)).Tag) (hs : IsScalar v) (hexp : sf.IsExported = true)
    (hA : ∀ g ∈ A, g.Tag ≠ (mkField (sf, v)).Tag)
    (hB : ∀ g ∈ B, g.Tag ≠ (mkField (sf, v)).Tag) :
    unmarshalLoop fo (n + 1) ((indent ++ (scalarEntry (sf, v) ++ comma)) :: rest)
        (A ++ mkField (sf, Value.zero fo v) :: B)
      = unmarshalLoop fo n rest (A ++ mkField (sf, v) :: B) := by
  obtain ⟨h1, h2, h3, h4, u, h5, h6⟩ := scalarText_spec fo (mkField (sf, v)).Tag v hs
  have hcs : ∀ c ∈ comma, isSpace c = false ∧ plainChar c := by
    rcases hc with rfl | rfl
    · simp
    · decide
  have hval : scalarEntry (sf, v) ++ comma
      = (mkField (sf, v)).Tag ++ ':' :: ' ' :: (scalarText v ++ comma) := by
    simp [scalarEntry]
  have hne : scalarText v ++ comma ≠ [] := by simp [h1]
  have hh : ∀ c, (scalarText v ++ comma).head? = some c → isSpace c = false := by
    intro c hc1
    rw [List.head?_append_of_ne_nil _ h1] at hc1
    exact h2 c hc1
  have hl : ∀ c, (scalarText v ++ comma).getLast? = some c → isSpace c = false := by
    intro c hc1
    rcases hc with rfl | rfl
    · rw [List.append_nil] at hc1
      exact (h3 c hc1).1
    · rw [List.getLast?_append_of_ne_nil _ (by simp)] at hc1
      simp only [List.getLast?_singleton, Option.some.injEq] at hc1
      rw [← hc1]
      decide
  have hp : ∀ c ∈ scalarText v ++ comma, plainChar c := by
    intro c hc1
    rcases List.mem_append.1 hc1 with h | h
    · exact h4 c h
    · exact (hcs c h).2
  have hassign : assignField (unmarshalLoop fo n) fo
      { key := (mkField (sf, v)).Tag, value := scalarText v ++ comma, lines := [], innerData := [] }
      (mkField (sf, Value.zero fo v)) = (none, mkField (sf, v)) := by
    have hz : mkField (sf, Value.zero fo v)
        = { Tag := (mkField (sf, v)).Tag, Value := Value.zero fo v } :=
      mkField_of_exported sf _ hexp
    have hv : mkField (sf, v) = { Tag := (mkField (sf, v)).Tag, Value := v } :=
      mkField_of_exported sf v hexp
    have h := @assignField_simple F (unmarshalLoop fo n) fo _ _ _ _
      { Tag := (mkField (sf, v)).Tag, Value := Value.zero fo v } _ rfl hk.2.1
      (removeCommaFromEnd_opt hc h3 h1) h5 h6
    rw [← hz, ← hv] at h
    exact h
  rw [hval, unmarshalLoop_entry fo n indent rest _ hi hk hne hh hl (fun h => (hp _ h).1 rfl),
    parseValue_plain _ _ rest fun c hc1 => ⟨(hp c hc1).2.1, (hp c hc1).2.2.1, (hp c hc1).2.2.2.1,
      (hp c hc1).2.2.2.2.1⟩]
  simp only
  rw [assignFields_unique _ fo _ A B _ hA hB, hassign]

end Cfg

namespace Cfg

variable {F : Type}

/-! ## Decoding the lines of a record of scalars -/

theorem zeroFields_nil (fo : FloatOps F) : zeroFields fo ([] : List (StructField × Value F)) = [] := by
  simp [zeroFields]

theorem zeroFields_cons (fo : FloatOps F) (sf : StructField) (v : Value F)
    (r : List (StructField × Value F)) :
    zeroFields fo ((sf, v) :: r) = (sf, Value.zero fo v) :: zeroFields fo r := by
  simp [zeroFields]

theorem zero_struct (fo : FloatOps F) (decls : List (StructField × Value F)) :
    Value.zero fo (.struct decls) = .struct (zeroFields fo decls) := by
  simp [Value.zero]

theorem tags_zeroFields (fo : FloatOps F) (ds : List (StructField × Value F)) :
    (fieldsOf (zeroFields fo ds)).map (fun f => f.Tag) = (fieldsOf ds).map (fun f => f.Tag) := by
  induction ds with
  | nil => rw [zeroFields_nil]
  | cons d r ih =>
    obtain ⟨sf, v⟩ := d
    rw [zeroFields_cons]
    simp only [fieldsOf, List.map_cons, List.map_map] at ih ⊢
    rw [ih]
    rfl

theorem map_fst_zeroFields (fo : FloatOps F) (ds : List (StructField × Value F)) :
    (zeroFields fo ds).map Prod.fst = ds.map Prod.fst := by
  induction ds with
  | nil => rw [zeroFields_nil]
  | cons d r ih =>
    obtain ⟨sf, v⟩ := d
    rw [zeroFields_cons]
    simp [ih]

theorem tags_split {pre r : List (StructField × Value F)} {d : StructField × Value F}
    (h : ((fieldsOf (pre ++ d :: r)).map (fun f => f.Tag)).Nodup) :
    (∀ g ∈ fieldsOf pre, g.Tag ≠ (mkField d).Tag) ∧
      (∀ g ∈ fieldsOf r, g.Tag ≠ (mkField d).Tag) := by
  simp only [fieldsOf, List.map_append, List.map_cons, List.map_map] at h
  rw [List.nodup_middle, List.nodup_cons] at h
  have hn := h.1
  simp only [List.mem_append, List.mem_map, Function.comp_apply, not_or, not_exists, not_and] at hn
  constructor
  · intro g hg
    obtain ⟨x, hx, rfl⟩ := List.mem_map.1 hg
    exact hn.1 x hx
  · intro g hg
    obtain ⟨x, hx, rfl⟩ := List.mem_map.1 hg
    exact hn.2 x hx

theorem sepInit_cons (p x : Str) (xs : List Str) :
    sepInit p (x :: xs) = (x ++ (if xs = [] then [] else p)) :: sepInit p xs := by
  cases xs with
  | nil => simp [sepInit]
  | cons y r => simp [sepInit]

/-- The main loop on the lines of a record of scalars, each line indented by the
same white space: starting from zero values, the fields take the encoded
values. -/
theorem decode_scalar_lines (fo : FloatOps F) (indent : Str)
    (hi : ∀ c ∈ indent, isSpace c = true) (post pre : List (StructField × Value F)) (n : Nat)
    (hn : post.length ≤ n) (hkeys : ∀ d ∈ post, IsKey (mkField d).Tag ∧ IsScalar d.2)
    (hexp : ∀ d ∈ post, d.1.IsExported = true)
    (hnodup : ((fieldsOf (pre ++ post)).map (fun f => f.Tag)).Nodup) :
    unmarshalLoop fo n ((sepInit [','] (post.map scalarEntry)).map (fun l => indent ++ l))
        (fieldsOf pre ++ fieldsOf (zeroFields fo post))
      = (none, fieldsOf pre ++ fieldsOf post) := by
  induction post generalizing pre n with
  | nil =>
    rw [zeroFields_nil]
    exact unmarshalLoop_nil fo n _
  | cons d r ih =>
    obtain ⟨sf, v⟩ := d
    cases n with
    | zero => simp at hn
    | succ n =>
      obtain ⟨hA, hB⟩ := tags_split hnodup
      have hB' : ∀ g ∈ fieldsOf (zeroFields fo r), g.Tag ≠ (mkField (sf, v)).Tag := by
        intro g hg
        have h1 : g.Tag ∈ (fieldsOf (zeroFields fo r)).map (fun f => f.Tag) :=
          List.mem_map.2 ⟨g, hg, rfl⟩
        rw [tags_zeroFields] at h1
        obtain ⟨g1, hg1, hg2⟩ := List.mem_map.1 h1
        rw [← hg2]
        exact hB g1 hg1
      have hk := hkeys (sf, v) (by simp)
      have hcomma : (if r.map scalarEntry = [] then ([] : Str) else [',']) = [] ∨
          (if r.map scalarEntry = [] then ([] : Str) else [',']) = [','] := by
        split_ifs
        · exact Or.inl rfl
        · exact Or.inr rfl
      rw [zeroFields_cons]
      simp only [List.map_cons, sepInit_cons, fieldsOf]
      have hstep := unmarshalLoop_scalar_step fo n indent _ sf v
        ((sepInit [','] (r.map scalarEntry)).map (fun l => indent ++ l))
        (fieldsOf pre) (fieldsOf (zeroFields fo r)) hi hcomma hk.1 hk.2
        (hexp (sf, v) (by simp)) hA hB'
      simp only [fieldsOf] at hstep
      rw [hstep]
      have hih := ih (pre ++ [(sf, v)]) n (by simpa using hn)
        (fun d hd => hkeys d (List.mem_cons_of_mem _ hd))
        (fun d hd => hexp d (List.mem_cons_of_mem _ hd)) (by simpa using hnodup)
      simp only [fieldsOf, List.map_append, List.map_cons, List.map_nil, List.append_assoc,
        List.singleton_append] at hih
      exact hih

theorem store_same_shape {ds es : List (StructField × Value F)}
    (h : ds.map Prod.fst = es.map Prod.fst) : store ds (fieldsOf es) = es := by
  induction ds generalizing es with
  | nil =>
    cases es with
    | nil => rfl
    | cons e es => simp at h
  | cons d ds ih =>
    cases es with
    | nil => simp at h
    | cons e es =>
      simp only [List.map_cons, List.cons.injEq] at h
      have := ih h.2
      simp only [store, fieldsOf, List.map_cons, List.zipWith_cons_cons] at this ⊢
      rw [this]
      obtain ⟨e1, e2⟩ := e
      simp only [mkField] at h ⊢
      rw [h.1]

end Cfg

namespace Cfg

variable {F : Type}

/-! ## Round trip of a record of scalars -/

theorem marshalEntry_scalar (fo : FloatOps F) (sf : StructField) (v : Value F)
    (hs : IsScalar v) :
    marshalEntry fo (mkField (sf, v)).Tag sf.IsExported v = .ok (scalarEntry (sf, v)) := by
  cases v with
  | string s => simp [marshalEntry, marshalField, scalarEntry, scalarText, mkField]
  | bool b => simp [marshalEntry, marshalField, scalarEntry, scalarText, mkField]
  | int k n => simp [marshalEntry, marshalField, scalarEntry, scalarText, mkField]
  | uint k n => exact absurd hs (by simp [IsScalar])
  | float k x => exact absurd hs (by simp [IsScalar])
  | slice xs => exact absurd hs (by simp [IsScalar])
  | struct fs => exact absurd hs (by simp [IsScalar])
  | other i => exact absurd hs (by simp [IsScalar])

theorem marshalLines_cons (fo : FloatOps F) (sf : StructField) (v : Value F)
    (rest : List (StructField × Value F)) :
    marshalLines fo ((sf, v) :: rest) =
      if (mkField (sf, v)).Tag = ['-'] then marshalLines fo rest
      else
        match marshalEntry fo (mkField (sf, v)).Tag sf.IsExported v with
        | .error p => .error p
        | .ok line =>
          match marshalLines fo rest with
          | .error p => .error p
          | .ok ls => .ok (line :: ls) := by
  rw [marshalLines]
  try rfl

theorem marshalLines_scalar (fo : FloatOps F) (decls : List (StructField × Value F))
    (h : ∀ d ∈ decls, IsKey (mkField d).Tag ∧ IsScalar d.2) :
    marshalLines fo decls = .ok (decls.map scalarEntry) := by
  induction decls with
  | nil => simp [marshalLines]
  | cons d r ih =>
    obtain ⟨sf, v⟩ := d
    have hd := h (sf, v) (by simp)
    rw [marshalLines_cons, if_neg hd.1.2.1, marshalEntry_scalar fo sf v hd.2,
      ih fun d hd => h d (List.mem_cons_of_mem _ hd)]
    rfl

theorem mem_sepInit {p l : Str} {xs : List Str} (h : l ∈ sepInit p xs) :
    ∃ x ∈ xs, l = x ∨ l = x ++ p := by
  induction xs with
  | nil => simp [sepInit] at h
  | cons x r ih =>
    rw [sepInit_cons] at h
    rcases List.mem_cons.1 h with h | h
    · refine ⟨x, by simp, ?_⟩
      split_ifs at h
      · left; simpa using h
      · right; exact h
    · obtain ⟨y, hy, hl⟩ := ih h
      exact ⟨y, List.mem_cons_of_mem _ hy, hl⟩

theorem getLast?_ne_nil_of_forall {ls : List Str} (h : ∀ l ∈ ls, l ≠ []) :
    ls.getLast? ≠ some [] := by
  intro h1
  exact h [] (List.mem_of_mem_getLast? h1) rfl

/-- The lines of a text are the pieces between its line feeds when no piece is
empty or ends with a carriage return. -/
theorem allLines_of_Split {data : Str} {ls : List Str} (h : Split data '\n' = ls)
    (hl : ∀ l ∈ ls, ∃ c, l.getLast? = some c ∧ c ≠ '\r') : allLines data = ls := by
  unfold allLines rawLines
  simp only [h]
  have hne : ∀ l ∈ ls, l ≠ [] := by
    intro l hl1 h0
    obtain ⟨c, hc, _⟩ := hl l hl1
    rw [h0] at hc
    simp at hc
  rw [if_neg (getLast?_ne_nil_of_forall hne)]
  refine (List.map_congr_left fun l hl1 => ?_).trans (List.map_id _)
  obtain ⟨c, hc, hcr⟩ := hl l hl1
  apply dropCR_of_getLast
  rw [hc]
  simpa using hcr

theorem scalarEntry_spec (fo : FloatOps F) (d : StructField × Value F)
    (h : IsKey (mkField d).Tag ∧ IsScalar d.2) :
    '\n' ∉ scalarEntry d ∧ lbrace ∉ scalarEntry d ∧ rbrace ∉ scalarEntry d ∧
      '#' ∉ scalarEntry d ∧
      ∃ c, (scalarEntry d).getLast? = some c ∧ isSpace c = false ∧ c ≠ ',' := by
  obtain ⟨h1, _, h3, h4, _⟩ := scalarText_spec fo [] d.2 h.2
  have hmem : ∀ c ∈ scalarEntry d, c ∈ (mkField d).Tag ∨ c = ':' ∨ c = ' ' ∨ c ∈ scalarText d.2 := by
    intro c hc
    simpa [scalarEntry] using hc
  have hkc : ∀ c ∈ (mkField d).Tag, keyChar c = true := h.1.2.2
  refine ⟨?_, ?_, ?_, ?_, ?_⟩
  · intro hc
    rcases hmem _ hc with h0 | h0 | h0 | h0
    · exact h.1.not_mem_nl h0
    · revert h0; decide
    · revert h0; decide
    · exact (h4 _ h0).2.2.2.2.2 rfl
  · intro hc
    rcases hmem _ hc with h0 | h0 | h0 | h0
    · exact keyChar_ne_lbrace (hkc _ h0) rfl
    · revert h0; decide
    · revert h0; decide
    · exact (h4 _ h0).2.2.2.1 rfl
  · intro hc
    rcases hmem _ hc with h0 | h0 | h0 | h0
    · exact keyChar_ne_rbrace (hkc _ h0) rfl
    · revert h0; decide
    · revert h0; decide
    · exact (h4 _ h0).2.2.2.2.1 rfl
  · intro hc
    rcases hmem _ hc with h0 | h0 | h0 | h0
    · exact h.1.not_mem_hash h0
    · revert h0; decide
    · revert h0; decide
    · exact (h4 _ h0).1 rfl
  · have hl : (scalarEntry d).getLast? = (scalarText d.2).getLast? := by
      unfold scalarEntry
      rw [List.getLast?_append_of_ne_nil _ (by simp), getLast?_cons_of_ne (by simp),
        getLast?_cons_of_ne h1]
    rw [hl]
    exact ⟨_, List.getLast?_eq_getLast _ h1, h3 _ (List.getLast?_eq_getLast _ h1)⟩

/-- The pieces of the encoding of a record of scalars between the line feeds. -/
theorem Split_scalar_text (fo : FloatOps F) (decls : List (StructField × Value F))
    (hne : decls ≠ []) (h : ∀ d ∈ decls, IsKey (mkField d).Tag ∧ IsScalar d.2) :
    Split (Join (decls.map scalarEntry) [',', '\n']) '\n' = sepInit [','] (decls.map scalarEntry) := by
  refine Split_Join_sep '\n' [','] _ (by simpa using hne) ?_ (by decide)
  intro x hx
  obtain ⟨d, hd, rfl⟩ := List.mem_map.1 hx
  exact (scalarEntry_spec fo d (h d hd)).1

theorem sepInit_lines_last (fo : FloatOps F) (decls : List (StructField × Value F))
    (h : ∀ d ∈ decls, IsKey (mkField d).Tag ∧ IsScalar d.2) :
    ∀ l ∈ sepInit [','] (decls.map scalarEntry), ∃ c, l.getLast? = some c ∧ c ≠ '\r' := by
  intro l hl
  obtain ⟨x, hx, hl⟩ := mem_sepInit hl
  obtain ⟨d, hd, rfl⟩ := List.mem_map.1 hx
  obtain ⟨_, _, _, _, c, hc, hs, _⟩ := scalarEntry_spec fo d (h d hd)
  rcases hl with rfl | rfl
  · refine ⟨c, hc, ?_⟩
    rintro rfl
    rw [isSpace_cr] at hs
    exact absurd hs (by simp)
  · exact ⟨',', by rw [List.getLast?_append_of_ne_nil _ (by simp)]; rfl, by decide⟩

theorem allLines_scalar_text (fo : FloatOps F) (decls : List (StructField × Value F))
    (h : ∀ d ∈ decls, IsKey (mkField d).Tag ∧ IsScalar d.2) :
    allLines (Join (decls.map scalarEntry) [',', '\n']) = sepInit [','] (decls.map scalarEntry) := by
  cases decls with
  | nil => rfl
  | cons d r =>
    exact allLines_of_Split (Split_scalar_text fo _ (by simp) h) (sepInit_lines_last fo _ h)

theorem length_le_textSize (ls : List Str) : ls.length ≤ textSize ls := by
  induction ls with
  | nil => simp
  | cons l r ih =>
    simp only [List.length_cons, textSize_cons]
    omega

/-- C1. Scalar round trip: for every record whose fields are exported string,
bool and signed-integer scalars with well-formed, pairwise distinct keys (every
identifier is one; none is `-`), whose string values contain none of `#`, `[`,
`]`, the curly braces or a line feed and whose integers lie in the range of their
type, `Marshal` returns a text, and when every line of that text is shorter than
the 64 KiB limit of the scanner, `Unmarshal` of the text into the zero record of
the same shape returns a nil error and leaves the record equal to the
original. -/
theorem scalar_round_trip (fo : FloatOps F) (decls : List (StructField × Value F))
    (h : ScalarRecord decls) :
    ∃ text, Marshal fo (.value (.struct decls)) = .ok text ∧
      (ShortLines text →
        Unmarshal fo text (.pointer (some (.struct (zeroFields fo decls))))
          = (none, .pointer (some (.struct decls)))) := by
  refine ⟨Join (decls.map scalarEntry) [',', '\n'], ?_, ?_⟩
  · simp only [Marshal, marshalLines_scalar fo decls h.1]
  · intro hshort
    simp only [Unmarshal]
    rw [scanLines_eq_allLines hshort, allLines_scalar_text fo decls h.1]
    have hlen : decls.length ≤ (Join (decls.map scalarEntry) [',', '\n']).length + 1 := by
      have h1 := textSize_allLines_le (Join (decls.map scalarEntry) [',', '\n'])
      rw [allLines_scalar_text fo decls h.1] at h1
      have h2 := length_le_textSize (sepInit [','] (decls.map scalarEntry))
      rw [sepInit_length, List.length_map] at h2
      omega
    have hd := decode_scalar_lines fo [] (by simp) decls [] _ hlen h.1 h.2.2
      (by simpa using h.2.1)
    simp only [List.nil_append, List.map_id', fieldsOf, List.map_nil] at hd
    simp only [fieldsOf]
    rw [hd]
    simp only
    have := store_same_shape (map_fst_zeroFields fo decls)
    simp only [fieldsOf] at this
    rw [this]

end Cfg

namespace Cfg

variable {F : Type}

/-! ## The text of a record with nested records -/

theorem Split_append_sep (a b : Str) (c : Char) :
    Split (a ++ c :: b) c = Split a c ++ Split b c := by
  induction a with
  | nil => simp [Split]
  | cons x xs ih =>
    show Split (x :: (xs ++ c :: b)) c = _
    by_cases hx : x = c
    · simp only [Split, if_pos hx, ih, List.cons_append]
    · simp only [Split, if_neg hx, ih]
      cases hs : Split xs c with
      | nil => exact absurd hs (Split_ne_nil xs c)
      | cons l ls => rfl

theorem ReplaceAll_cons (x : Char) (s : Str) (old : Char) (new : Str) :
    ReplaceAll (x :: s) old new = (if x = old then new else [x]) ++ ReplaceAll s old new := by
  simp [ReplaceAll]

/-- Cutting an indented text at its line feeds gives the indented pieces. -/
theorem Split_indent_aux (out w : Str) (hw : '\n' ∉ w) :
    Split (w ++ ReplaceAll out '\n' ['\n', ' ', ' ']) '\n' =
      match Split out '\n' with
      | [] => [w]
      | l :: ls => (w ++ l) :: ls.map (fun l => [' ', ' '] ++ l) := by
  induction out generalizing w with
  | nil => simp [ReplaceAll, Split, Split_of_not_mem hw]
  | cons x o ih =>
    rw [ReplaceAll_cons]
    by_cases hx : x = '\n'
    · subst hx
      have h1 : w ++ (['\n', ' ', ' '] ++ ReplaceAll o '\n' ['\n', ' ', ' '])
          = w ++ '\n' :: ([' ', ' '] ++ ReplaceAll o '\n' ['\n', ' ', ' ']) := by simp
      rw [if_pos rfl, h1, Split_append_cons _ hw, ih [' ', ' '] (by decide)]
      simp only [Split, ↓reduceIte]
      cases hs : Split o '\n' with
      | nil => exact absurd hs (Split_ne_nil o '\n')
      | cons l ls => simp
    · have h1 : w ++ ([x] ++ ReplaceAll o '\n' ['\n', ' ', ' '])
          = (w ++ [x]) ++ ReplaceAll o '\n' ['\n', ' ', ' '] := by simp
      have hw2 : '\n' ∉ w ++ [x] := by
        simp only [List.mem_append, List.mem_singleton, not_or]
        exact ⟨hw, fun h => hx h.symm⟩
      rw [if_neg hx, h1, ih (w ++ [x]) hw2]
      simp only [Split, if_neg hx]
      cases hs : Split o '\n' with
      | nil => exact absurd hs (Split_ne_nil o '\n')
      | cons l ls => simp

theorem Split_indent (out : Str) :
    Split ([' ', ' '] ++ ReplaceAll out '\n' ['\n', ' ', ' ']) '\n' =
      (Split out '\n').map (fun l => [' ', ' '] ++ l) := by
  rw [Split_indent_aux out [' ', ' '] (by decide)]
  cases hs : Split out '\n' with
  | nil => exact absurd hs (Split_ne_nil out '\n')
  | cons l ls => rfl

theorem isScalar_of_not_struct {v : Value F} (h : IsScalarOrNested v)
    (hs : ∀ inner, v ≠ .struct inner) : IsScalar v := by
  cases v with
  | struct inner => exact absurd rfl (hs inner)
  | _ => exact h

theorem marshalEntry_nested (fo : FloatOps F) (sf : StructField) (v : Value F)
    (hs : IsScalarOrNested v) (hexp : sf.IsExported = true) :
    marshalEntry fo (mkField (sf, v)).Tag sf.IsExported v = .ok (nestedEntry (sf, v)) := by
  cases v with
  | struct inner =>
    have h1 : marshalEntry fo (mkField (sf, Value.struct inner)).Tag sf.IsExported
        (Value.struct inner)
        = (match marshalLines fo inner with
          | .error p => .error (p.wrap .marshalInner)
          | .ok ls => .ok (innerEntry (mkField (sf, Value.struct inner)).Tag
              (Join ls [',', '\n']))) := by
      rw [marshalEntry, if_pos hexp]
      try rfl
    rw [h1, marshalLines_scalar fo inner hs.1]
    rfl
  | string s => exact marshalEntry_scalar fo sf _ hs
  | bool b => exact marshalEntry_scalar fo sf _ hs
  | int k n => exact marshalEntry_scalar fo sf _ hs
  | uint k n => exact absurd hs (by simp [IsScalarOrNested, IsScalar])
  | float k x => exact absurd hs (by simp [IsScalarOrNested, IsScalar])
  | slice xs => exact absurd hs (by simp [IsScalarOrNested, IsScalar])
  | other i => exact absurd hs (by simp [IsScalarOrNested, IsScalar])

theorem marshalLines_nested (fo : FloatOps F) (decls : List (StructField × Value F))
    (h : ∀ d ∈ decls, IsKey (mkField d).Tag ∧ IsScalarOrNested d.2)
    (hexp : ∀ d ∈ decls, d.1.IsExported = true) :
    marshalLines fo decls = .ok (decls.map nestedEntry) := by
  induction decls with
  | nil => simp [marshalLines]
  | cons d r ih =>
    obtain ⟨sf, v⟩ := d
    have hd := h (sf, v) (by simp)
    rw [marshalLines_cons, if_neg hd.1.2.1,
      marshalEntry_nested fo sf v hd.2 (hexp (sf, v) (by simp)),
      ih (fun d hd => h d (List.mem_cons_of_mem _ hd))
        fun d hd => hexp d (List.mem_cons_of_mem _ hd)]
    rfl

/-- The pieces of the entry of a field, followed by an optional comma, between
the line feeds. -/
theorem Split_nestedEntry (fo : FloatOps F) (d : StructField × Value F) (comma : Str)
    (hc : comma = [] ∨ comma = [','])
    (h : IsKey (mkField d).Tag ∧ IsScalarOrNested d.2) :
    Split (nestedEntry d ++ comma) '\n' = entryLines comma d := by
  have hcn : '\n' ∉ comma := by rcases hc with rfl | rfl <;> decide
  obtain ⟨sf, v⟩ := d
  cases v with
  | struct inner =>
    have hk : '\n' ∉ (mkField (sf, Value.struct inner)).Tag ++ [':', ' ', lbrace] := by
      simp only [List.mem_append, not_or]
      exact ⟨h.1.not_mem_nl, by decide⟩
    have hr : '\n' ∉ rbrace :: comma := by
      simp only [List.mem_cons, not_or]
      exact ⟨by decide, hcn⟩
    have h1 : nestedEntry (sf, Value.struct inner) ++ comma
        = ((mkField (sf, Value.struct inner)).Tag ++ [':', ' ', lbrace]) ++ '\n' ::
          (([' ', ' '] ++ ReplaceAll (Join (inner.map scalarEntry) [',', '\n']) '\n'
            ['\n', ' ', ' ']) ++ '\n' :: (rbrace :: comma)) := by
      simp [nestedEntry, innerEntry]
    rw [h1, Split_append_sep, Split_append_sep, Split_of_not_mem hk, Split_of_not_mem hr,
      Split_indent]
    rfl
  | string s =>
    have := (scalarEntry_spec fo (sf, Value.string s) ⟨h.1, h.2⟩).1
    exact Split_of_not_mem (by simp only [nestedEntry, List.mem_append, not_or]; exact ⟨this, hcn⟩)
  | bool b =>
    have := (scalarEntry_spec fo (sf, Value.bool b) ⟨h.1, h.2⟩).1
    exact Split_of_not_mem (by simp only [nestedEntry, List.mem_append, not_or]; exact ⟨this, hcn⟩)
  | int k n =>
    have := (scalarEntry_spec fo (sf, Value.int k n) ⟨h.1, h.2⟩).1
    exact Split_of_not_mem (by simp only [nestedEntry, List.mem_append, not_or]; exact ⟨this, hcn⟩)
  | uint k n => exact absurd h.2 (by simp [IsScalarOrNested, IsScalar])
  | float k x => exact absurd h.2 (by simp [IsScalarOrNested, IsScalar])
  | slice xs => exact absurd h.2 (by simp [IsScalarOrNested, IsScalar])
  | other i => exact absurd h.2 (by simp [IsScalarOrNested, IsScalar])

theorem recordLines_cons (d : StructField × Value F) (r : List (StructField × Value F)) :
    recordLines (d :: r) = entryLines (if r.length = 0 then [] else [',']) d ++ recordLines r := by
  cases r with
  | nil => simp [recordLines]
  | cons e r => simp [recordLines]

theorem Split_record_text (fo : FloatOps F) (decls : List (StructField × Value F))
    (hne : decls ≠ []) (h : ∀ d ∈ decls, IsKey (mkField d).Tag ∧ IsScalarOrNested d.2) :
    Split (Join (decls.map nestedEntry) [',', '\n']) '\n' = recordLines decls := by
  induction decls with
  | nil => exact absurd rfl hne
  | cons d r ih =>
    cases r with
    | nil =>
      have := Split_nestedEntry fo d [] (Or.inl rfl) (h d (by simp))
      simpa [Join, recordLines] using this
    | cons e r =>
      have h1 : Join ((d :: e :: r).map nestedEntry) [',', '\n']
          = (nestedEntry d ++ [',']) ++ '\n' :: Join ((e :: r).map nestedEntry) [',', '\n'] := by
        simp [Join]
      rw [h1, Split_append_sep, Split_nestedEntry fo d [','] (Or.inr rfl) (h d (by simp)),
        ih (by simp) fun x hx => h x (List.mem_cons_of_mem _ hx)]
      rfl

end Cfg

namespace Cfg

variable {F : Type}

/-! ## Decoding a nested block -/

theorem inner_line_spec (fo : FloatOps F) (inner : List (StructField × Value F))
    (h : ∀ d ∈ inner, IsKey (mkField d).Tag ∧ IsScalar d.2) :
    ∀ l ∈ Split (Join (inner.map scalarEntry) [',', '\n']) '\n',
      '#' ∉ l ∧ lbrace ∉ l ∧ rbrace ∉ l ∧ '\n' ∉ l ∧ l.getLast? ≠ some '\r' := by
  intro l hl
  cases inner with
  | nil =>
    simp only [List.map_nil, Join, Split, List.mem_singleton] at hl
    subst hl
    simp
  | cons d r =>
    rw [Split_scalar_text fo _ (by simp) h] at hl
    obtain ⟨x, hx, hl⟩ := mem_sepInit hl
    obtain ⟨e, he, rfl⟩ := List.mem_map.1 hx
    obtain ⟨h1, h2, h3, h4, c, hc, hs, _⟩ := scalarEntry_spec fo e (h e he)
    rcases hl with rfl | rfl
    · refine ⟨h4, h2, h3, h1, ?_⟩
      rw [hc]
      intro h0
      cases h0
      rw [isSpace_cr] at hs
      exact absurd hs (by simp)
    · refine ⟨?_, ?_, ?_, ?_, ?_⟩
      · simp only [List.mem_append, List.mem_singleton, not_or]
        exact ⟨h4, by decide⟩
      · simp only [List.mem_append, List.mem_singleton, not_or]
        exact ⟨h2, by decide⟩
      · simp only [List.mem_append, List.mem_singleton, not_or]
        exact ⟨h3, by decide⟩
      · simp only [List.mem_append, List.mem_singleton, not_or]
        exact ⟨h1, by decide⟩
      · rw [List.getLast?_append_of_ne_nil _ (by simp)]
        decide

theorem validLine_indented (l : Str) (h : '#' ∉ l) :
    validLine (' ' :: ' ' :: l) = some (' ' :: ' ' :: l) := by
  have h1 : '#' ∉ ' ' :: ' ' :: l := by
    simp only [List.mem_cons, not_or]
    exact ⟨by decide, by decide, h⟩
  unfold validLine
  rw [if_neg (by simp)]
  simp [Index_of_not_mem h1]

/-- The nested-record loop on indented lines without curly braces followed by
the closing line. -/
theorem scanInner_lines (ls : List Str) (comma : Str) (rest : List Str) (acc : Str)
    (hc : comma = [] ∨ comma = [','])
    (h : ∀ l ∈ ls, '#' ∉ l ∧ lbrace ∉ l ∧ rbrace ∉ l) :
    scanInner (ls.map (fun l => [' ', ' '] ++ l) ++ (rbrace :: comma) :: rest) 1 acc
      = .ok (acc ++ (ls.map (fun l => [' ', ' '] ++ l)).flatMap (fun l => l ++ ['\n']), rest) := by
  induction ls generalizing acc with
  | nil =>
    have hv : validLine (rbrace :: comma) = some (rbrace :: comma) := by
      rcases hc with rfl | rfl <;> decide
    have h1 : Contains (rbrace :: comma) lbrace = false := by
      rcases hc with rfl | rfl <;> decide
    have h2 : Index (rbrace :: comma) rbrace = 0 := by
      rcases hc with rfl | rfl <;> decide
    simp [scanInner, hv, h1, h2]
  | cons l r ih =>
    obtain ⟨h1, h2, h3⟩ := h l (by simp)
    have hv := validLine_indented l h1
    have hb1 : Contains (' ' :: ' ' :: l) lbrace = false := by
      rw [Contains_eq_false]
      simp only [List.mem_cons, not_or]
      exact ⟨by decide, by decide, h2⟩
    have hb2 : Index (' ' :: ' ' :: l) rbrace = -1 := Index_of_not_mem (by
      simp only [List.mem_cons, not_or]
      exact ⟨by decide, by decide, h3⟩)
    have hrec := ih (acc ++ (' ' :: ' ' :: l) ++ ['\n'])
      fun x hx => h x (List.mem_cons_of_mem _ hx)
    simp only [List.map_cons, List.cons_append, List.nil_append, scanInner, hv, hb1,
      Bool.false_eq_true, ↓reduceIte, hb2, ge_iff_le, Int.reduceNeg, Left.nonneg_neg_iff,
      Int.reduceLE, List.length_cons, gt_iff_lt, Nat.zero_lt_succ, one_ne_zero]
    simp only [List.cons_append, List.nil_append] at hrec
    refine Eq.trans hrec ?_
    simp

theorem parseValue_block (tag : Str) (ls : List Str) (comma : Str) (rest : List Str)
    (hc : comma = [] ∨ comma = [','])
    (h : ∀ l ∈ ls, '#' ∉ l ∧ lbrace ∉ l ∧ rbrace ∉ l) :
    parseValue tag [lbrace] (ls.map (fun l => [' ', ' '] ++ l) ++ (rbrace :: comma) :: rest)
      = .ok ({ key := tag, value := [lbrace], lines := [],
               innerData := (ls.map (fun l => [' ', ' '] ++ l)).flatMap (fun l => l ++ ['\n']) },
             rest) := by
  have h1 : Index [lbrace] '[' = -1 := by decide
  have h2 : Index [lbrace] ']' = -1 := by decide
  have h3 : Index [lbrace] lbrace = 0 := by decide
  have h4 : Index [lbrace] rbrace = -1 := by decide
  have hs := scanInner_lines ls comma rest [] hc h
  simp only [List.cons_append, List.nil_append] at hs
  unfold parseValue
  simp [h1, h2, h3, h4, hs]

theorem assignField_inner (inner : List Str → List (field F) → Option Fault × List (field F))
    (fo : FloatOps F) (k value innerData : Str) (decls : List (StructField × Value F))
    (hk : k ≠ ['-']) (hne : innerData ≠ []) :
    assignField inner fo { key := k, value := value, lines := [], innerData := innerData }
        { Tag := k, Value := .struct decls }
      = ((inner (scanLines innerData) (fieldsOf decls)).1.map (Fault.wrap .parseInner),
         { Tag := k, Value := .struct (store decls (inner (scanLines innerData) (fieldsOf decls)).2) }) := by
  unfold assignField
  have hlen : 0 < innerData.length := List.length_pos.2 hne
  have hA : (field.IsArray ({ Tag := k, Value := .struct decls } : field F)) = false := rfl
  have hI : (field.IsInner ({ Tag := k, Value := .struct decls } : field F)) = true := rfl
  simp [hk, hlen, hA, hI]

/-- The main loop on the indented lines of the encoding of a record of scalars,
as the nested-record loop hands them over. -/
theorem decode_inner_lines (fo : FloatOps F) (inner : List (StructField × Value F)) (n : Nat)
    (h : ScalarRecord inner)
    (hn : (Split (Join (inner.map scalarEntry) [',', '\n']) '\n').length ≤ n) :
    unmarshalLoop fo n
        ((Split (Join (inner.map scalarEntry) [',', '\n']) '\n').map (fun l => [' ', ' '] ++ l))
        (fieldsOf (zeroFields fo inner))
      = (none, fieldsOf inner) := by
  cases inner with
  | nil =>
    cases n with
    | zero => simp [Join, Split] at hn
    | succ n =>
      rw [zeroFields_nil]
      have : Split (Join (([] : List (StructField × Value F)).map scalarEntry) [',', '\n']) '\n'
          = [[]] := rfl
      rw [this]
      simp only [List.map_cons, List.map_nil, List.append_nil]
      rw [unmarshalLoop_succ, if_pos (Or.inl (by decide)), unmarshalLoop_nil]
  | cons d r =>
    rw [Split_scalar_text fo _ (by simp) h.1] at hn ⊢
    rw [sepInit_length, List.length_map] at hn
    have := decode_scalar_lines fo [' ', ' '] (by decide) (d :: r) [] n hn h.1 h.2.2
      (by simpa using h.2.1)
    simpa [fieldsOf] using this

end Cfg

namespace Cfg

variable {F : Type}

theorem scanLines_flatMap (ls : List Str) (tail : Str) (h : ∀ l ∈ ls, '\n' ∉ l)
    (hs : ∀ l ∈ ls, byteLen l < MaxScanTokenSize) :
    scanLines (ls.flatMap (fun l => l ++ ['\n']) ++ tail) = ls.map dropCR ++ scanLines tail := by
  induction ls with
  | nil => rfl
  | cons l r ih =>
    have h1 : (l :: r).flatMap (fun l => l ++ ['\n']) ++ tail
        = l ++ '\n' :: (r.flatMap (fun l => l ++ ['\n']) ++ tail) := by
      simp
    rw [h1, scanLines_cons _ (h l (by simp)) (hs l (by simp)),
      ih (fun z hz => h z (List.mem_cons_of_mem _ hz))
        fun z hz => hs z (List.mem_cons_of_mem _ hz)]
    rfl

theorem scanLines_innerData (ls : List Str)
    (h : ∀ l ∈ ls, '\n' ∉ l ∧ l.getLast? ≠ some '\r')
    (hs : ∀ l ∈ ls, byteLen ([' ', ' '] ++ l) < MaxScanTokenSize) :
    scanLines ((ls.map (fun l => [' ', ' '] ++ l)).flatMap (fun l => l ++ ['\n']))
      = ls.map (fun l => [' ', ' '] ++ l) := by
  have h1 := scanLines_flatMap (ls.map (fun l => [' ', ' '] ++ l)) [] (by
    intro x hx
    obtain ⟨l, hl, rfl⟩ := List.mem_map.1 hx
    simp only [List.mem_append, List.mem_cons, List.not_mem_nil, or_false, not_or]
    exact ⟨⟨by decide, by decide⟩, (h l hl).1⟩) (by
    intro x hx
    obtain ⟨l, hl, rfl⟩ := List.mem_map.1 hx
    exact hs l hl)
  rw [List.append_nil, scanLines_nil, List.append_nil] at h1
  rw [h1]
  refine (List.map_congr_left fun x hx => ?_).trans (List.map_id _)
  obtain ⟨l, hl, rfl⟩ := List.mem_map.1 hx
  apply dropCR_of_getLast
  cases l with
  | nil => decide
  | cons y ys =>
    rw [List.getLast?_append_of_ne_nil _ (by simp)]
    exact (h _ hl).2

/-- One iteration of the main loop on the block of a nested record of scalars:
the nested record that carries the key takes the encoded values. -/
theorem unmarshalLoop_nested_step (fo : FloatOps F) (n : Nat) (comma : Str)
    (sf : StructField) (inner : List (StructField × Value F)) (rest : List Str)
    (A B : List (field F)) (hc : comma = [] ∨ comma = [','])
    (hk : IsKey (mkField (sf, Value.struct inner)).Tag) (hs : ScalarRecord inner)
    (hexp : sf.IsExported = true)
    (hshort : ∀ l ∈ Split (Join (inner.map scalarEntry) [',', '\n']) '\n',
      byteLen ([' ', ' '] ++ l) < MaxScanTokenSize)
    (hA : ∀ g ∈ A, g.Tag ≠ (mkField (sf, Value.struct inner)).Tag)
    (hB : ∀ g ∈ B, g.Tag ≠ (mkField (sf, Value.struct inner)).Tag)
    (hn : (Split (Join (inner.map scalarEntry) [',', '\n']) '\n').length ≤ n) :
    unmarshalLoop fo (n + 1) (entryLines comma (sf, Value.struct inner) ++ rest)
        (A ++ mkField (sf, Value.zero fo (Value.struct inner)) :: B)
      = unmarshalLoop fo n rest (A ++ mkField (sf, Value.struct inner) :: B) := by
  have hspec := inner_line_spec fo inner hs.1
  have hlines : entryLines comma (sf, Value.struct inner) ++ rest
      = ([] ++ ((mkField (sf, Value.struct inner)).Tag ++ ':' :: ' ' :: [lbrace])) ::
        ((Split (Join (inner.map scalarEntry) [',', '\n']) '\n').map (fun l => [' ', ' '] ++ l)
          ++ (rbrace :: comma) :: rest) := by
    simp [entryLines]
  have hne : (Split (Join (inner.map scalarEntry) [',', '\n']) '\n') ≠ [] := Split_ne_nil _ _
  have hdata : ((Split (Join (inner.map scalarEntry) [',', '\n']) '\n').map
      (fun l => [' ', ' '] ++ l)).flatMap (fun l => l ++ ['\n']) ≠ [] := by
    cases hsp : Split (Join (inner.map scalarEntry) [',', '\n']) '\n' with
    | nil => exact absurd hsp hne
    | cons l ls => simp
  have hz : mkField (sf, Value.zero fo (Value.struct inner))
      = { Tag := (mkField (sf, Value.struct inner)).Tag,
          Value := .struct (zeroFields fo inner) } := by
    rw [zero_struct]
    exact mkField_of_exported sf _ hexp
  rw [hlines, unmarshalLoop_entry fo n [] _ _ (by simp) hk (by simp) (by decide) (by decide)
      (by decide),
    parseValue_block _ _ comma rest hc fun l hl => ⟨(hspec l hl).1, (hspec l hl).2.1,
      (hspec l hl).2.2.1⟩]
  simp only
  rw [assignFields_unique _ fo _ A B _ hA hB, hz,
    assignField_inner _ fo _ _ _ _ hk.2.1 hdata,
    scanLines_innerData _ (fun l hl => ⟨(hspec l hl).2.2.2.1, (hspec l hl).2.2.2.2⟩) hshort,
    decode_inner_lines fo inner n hs hn, store_same_shape (map_fst_zeroFields fo inner),
    mkField_of_exported sf (Value.struct inner) hexp]
  rfl

theorem entryLines_length (comma : Str) (d : StructField × Value F) :
    1 ≤ (entryLines comma d).length := by
  unfold entryLines
  split <;> simp

theorem entryLines_struct_length (comma : Str) (sf : StructField)
    (inner : List (StructField × Value F)) :
    (entryLines comma (sf, Value.struct inner)).length
      = (Split (Join (inner.map scalarEntry) [',', '\n']) '\n').length + 2 := by
  simp [entryLines]

/-- The main loop on the lines of the encoding of a record of scalars and nested
records of scalars: starting from zero values, the fields take the encoded
values. -/
theorem decode_record_lines (fo : FloatOps F) (post pre : List (StructField × Value F))
    (n : Nat) (hn : (recordLines post).length ≤ n)
    (hkeys : ∀ d ∈ post, IsKey (mkField d).Tag ∧ IsScalarOrNested d.2)
    (hexp : ∀ d ∈ post, d.1.IsExported = true)
    (hshort : ∀ l ∈ recordLines post, byteLen l < MaxScanTokenSize)
    (hnodup : ((fieldsOf (pre ++ post)).map (fun f => f.Tag)).Nodup) :
    unmarshalLoop fo n (recordLines post) (fieldsOf pre ++ fieldsOf (zeroFields fo post))
      = (none, fieldsOf pre ++ fieldsOf post) := by
  induction post generalizing pre n with
  | nil =>
    rw [zeroFields_nil]
    exact unmarshalLoop_nil fo n _
  | cons d r ih =>
    obtain ⟨sf, v⟩ := d
    rw [recordLines_cons] at hn hshort ⊢
    rw [List.length_append] at hn
    have hlen1 := entryLines_length (if r.length = 0 then [] else [',']) (sf, v)
    cases n with
    | zero => omega
    | succ n =>
      obtain ⟨hA, hB⟩ := tags_split hnodup
      have hB' : ∀ g ∈ fieldsOf (zeroFields fo r), g.Tag ≠ (mkField (sf, v)).Tag := by
        intro g hg
        have h1 : g.Tag ∈ (fieldsOf (zeroFields fo r)).map (fun f => f.Tag) :=
          List.mem_map.2 ⟨g, hg, rfl⟩
        rw [tags_zeroFields] at h1
        obtain ⟨g1, hg1, hg2⟩ := List.mem_map.1 h1
        rw [← hg2]
        exact hB g1 hg1
      have hk := hkeys (sf, v) (by simp)
      have hcomma : (if r.length = 0 then ([] : Str) else [',']) = [] ∨
          (if r.length = 0 then ([] : Str) else [',']) = [','] := by
        split_ifs
        · exact Or.inl rfl
        · exact Or.inr rfl
      have hih := ih (pre ++ [(sf, v)]) n (by omega)
        (fun d hd => hkeys d (List.mem_cons_of_mem _ hd))
        (fun d hd => hexp d (List.mem_cons_of_mem _ hd))
        (fun l hl => hshort l (List.mem_append_right _ hl)) (by simpa using hnodup)
      simp only [fieldsOf, List.map_append, List.map_cons, List.map_nil, List.append_assoc,
        List.singleton_append] at hih
      rw [zeroFields_cons]
      simp only [fieldsOf, List.map_cons]
      by_cases hst : ∃ inner, v = Value.struct inner
      · obtain ⟨inner, rfl⟩ := hst
        rw [entryLines_struct_length] at hn
        have hstep := unmarshalLoop_nested_step fo n _ sf inner (recordLines r)
          (fieldsOf pre) (fieldsOf (zeroFields fo r)) hcomma hk.1 hk.2
          (hexp (sf, Value.struct inner) (by simp))
          (fun l hl => hshort _ (List.mem_append_left _ (by
            simp only [entryLines, List.mem_cons, List.mem_append, List.mem_map]
            exact Or.inr (Or.inl ⟨l, hl, rfl⟩)))) hA hB' (by omega)
        simp only [fieldsOf] at hstep
        rw [hstep]
        exact hih
      · have hsc : IsScalar v := isScalar_of_not_struct hk.2 fun inner h => hst ⟨inner, h⟩
        have hel : entryLines (if r.length = 0 then [] else [',']) (sf, v)
            = [[] ++ (scalarEntry (sf, v) ++ (if r.length = 0 then [] else [',']))] := by
          unfold entryLines
          cases v with
          | struct inner => exact absurd ⟨inner, rfl⟩ hst
          | _ => rfl
        rw [hel]
        have hstep := unmarshalLoop_scalar_step fo n [] _ sf v (recordLines r)
          (fieldsOf pre) (fieldsOf (zeroFields fo r)) (by simp) hcomma hk.1 hsc
          (hexp (sf, v) (by simp)) hA hB'
        simp only [fieldsOf] at hstep
        simp only [List.singleton_append]
        rw [hstep]
        exact hih

theorem recordLines_last (fo : FloatOps F) (decls : List (StructField × Value F))
    (h : ∀ d ∈ decls, IsKey (mkField d).Tag ∧ IsScalarOrNested d.2) :
    ∀ l ∈ recordLines decls, ∃ c, l.getLast? = some c ∧ c ≠ '\r' := by
  induction decls with
  | nil => simp [recordLines]
  | cons d r ih =>
    obtain ⟨sf, v⟩ := d
    have hk := h (sf, v) (by simp)
    have hcomma : (if r.length = 0 then ([] : Str) else [',']) = [] ∨
        (if r.length = 0 then ([] : Str) else [',']) = [','] := by
      split_ifs
      · exact Or.inl rfl
      · exact Or.inr rfl
    intro l hl
    rw [recordLines_cons] at hl
    rcases List.mem_append.1 hl with hl | hl
    swap
    · exact ih (fun d hd => h d (List.mem_cons_of_mem _ hd)) l hl
    by_cases hst : ∃ inner, v = Value.struct inner
    · obtain ⟨inner, rfl⟩ := hst
      simp only [entryLines, List.mem_cons, List.mem_append, List.mem_map, List.mem_singleton,
        List.not_mem_nil, or_false] at hl
      rcases hl with rfl | ⟨x, hx, rfl⟩ | rfl
      · exact ⟨lbrace, by rw [List.getLast?_append_of_ne_nil _ (by simp)]; rfl, by decide⟩
      · have hx2 := (inner_line_spec fo inner hk.2.1 x hx).2.2.2.2
        cases x with
        | nil => exact ⟨' ', rfl, by decide⟩
        | cons y ys =>
          rw [List.getLast?_append_of_ne_nil _ (by simp)]
          refine ⟨_, List.getLast?_eq_getLast _ (by simp), ?_⟩
          intro h0
          rw [List.getLast?_eq_getLast _ (by simp), h0] at hx2
          exact hx2 rfl
      · rcases hcomma with h0 | h0 <;> rw [h0]
        · exact ⟨rbrace, rfl, by decide⟩
        · exact ⟨',', rfl, by decide⟩
    · have hsc : IsScalar v := isScalar_of_not_struct hk.2 fun inner h => hst ⟨inner, h⟩
      have hel : entryLines (if r.length = 0 then [] else [',']) (sf, v)
          = [scalarEntry (sf, v) ++ (if r.length = 0 then [] else [','])] := by
        unfold entryLines
        cases v with
        | struct inner => exact absurd ⟨inner, rfl⟩ hst
        | _ => rfl
      rw [hel, List.mem_singleton] at hl
      subst hl
      obtain ⟨_, _, _, _, c, hc, hs, _⟩ := scalarEntry_spec fo (sf, v) ⟨hk.1, hsc⟩
      rcases hcomma with h0 | h0 <;> rw [h0]
      · rw [List.append_nil]
        refine ⟨c, hc, ?_⟩
        rintro rfl
        rw [isSpace_cr] at hs
        exact absurd hs (by simp)
      · exact ⟨',', by rw [List.getLast?_append_of_ne_nil _ (by simp)]; rfl, by decide⟩

theorem allLines_record_text (fo : FloatOps F) (decls : List (StructField × Value F))
    (h : ∀ d ∈ decls, IsKey (mkField d).Tag ∧ IsScalarOrNested d.2) :
    allLines (Join (decls.map nestedEntry) [',', '\n']) = recordLines decls := by
  cases decls with
  | nil => rfl
  | cons d r =>
    exact allLines_of_Split (Split_record_text fo _ (by simp) h) (recordLines_last fo _ h)

/-- C2. One-level nested round trip: for every record whose fields are exported
nested records of exported string, bool and signed-integer scalars (or such
scalars themselves), with well-formed, pairwise distinct keys at each level and
clean string values, `Marshal` returns a text, and when every line of that text
is shorter than the 64 KiB limit of the scanner, `Unmarshal` of the text into the
zero record of the same shape returns a nil error and reproduces every field of
every nested record, and with them the whole record. -/
theorem nested_round_trip (fo : FloatOps F) (decls : List (StructField × Value F))
    (h : NestedRecord decls) :
    ∃ text, Marshal fo (.value (.struct decls)) = .ok text ∧
      (ShortLines text →
        Unmarshal fo text (.pointer (some (.struct (zeroFields fo decls))))
          = (none, .pointer (some (.struct decls)))) := by
  refine ⟨Join (decls.map nestedEntry) [',', '\n'], ?_, ?_⟩
  · simp only [Marshal, marshalLines_nested fo decls h.1 h.2.2]
  · intro hshort
    simp only [Unmarshal]
    rw [scanLines_eq_allLines hshort, allLines_record_text fo decls h.1]
    have hlen : (recordLines decls).length ≤ (Join (decls.map nestedEntry) [',', '\n']).length + 1 := by
      have h1 := textSize_allLines_le (Join (decls.map nestedEntry) [',', '\n'])
      rw [allLines_record_text fo decls h.1] at h1
      have h2 := length_le_textSize (recordLines decls)
      omega
    have hsl : ∀ l ∈ recordLines decls, byteLen l < MaxScanTokenSize := by
      intro l hl
      cases decls with
      | nil => simp [recordLines] at hl
      | cons d r =>
        rw [← Split_record_text fo _ (by simp) h.1] at hl
        exact hshort l hl
    have hd := decode_record_lines fo decls [] _ hlen h.1 h.2.2 hsl (by simpa using h.2.1)
    simp only [List.nil_append, fieldsOf, List.map_nil] at hd
    simp only [fieldsOf]
    rw [hd]
    simp only
    have := store_same_shape (map_fst_zeroFields fo decls)
    simp only [fieldsOf] at this
    rw [this]

end Cfg

namespace Cfg

/-! ## Closed instances -/

set_option maxRecDepth 100000

/-- C1, at the record of the test "encode simple values" (string, bool and int
fields), whose encoding has three short lines. -/
theorem scalar_round_trip_witness :
    ScalarRecord exScalars ∧
    ∃ text, Marshal unitFloat (.value (.struct exScalars)) = .ok text ∧ ShortLines text ∧
      Unmarshal unitFloat text (.pointer (some (.struct (zeroFields unitFloat exScalars))))
        = (none, .pointer (some (.struct exScalars))) :=
  ⟨by decide, by
    obtain ⟨text, hm, hu⟩ := scalar_round_trip unitFloat exScalars (by decide)
    have h0 : Marshal unitFloat (.value (.struct exScalars))
        = .ok "TestStr: 'this is a string',\nTestBool: true,\nTestInt: -100".toList := rfl
    rw [h0] at hm
    have ht := Except.ok.inj hm
    subst ht
    exact ⟨_, rfl, by decide, hu (by decide)⟩⟩

/-- C2, at the record of the test "encode inner struct", whose encoding has four
short lines. -/
theorem nested_round_trip_witness :
    NestedRecord exNested ∧
    ∃ text, Marshal unitFloat (.value (.struct exNested)) = .ok text ∧ ShortLines text ∧
      Unmarshal unitFloat text (.pointer (some (.struct (zeroFields unitFloat exNested))))
        = (none, .pointer (some (.struct exNested))) :=
  ⟨by decide, by
    obtain ⟨text, hm, hu⟩ := nested_round_trip unitFloat exNested (by decide)
    have h0 : Marshal unitFloat (.value (.struct exNested))
        = .ok "struct_slice: \x7b\n  Working: true,\n  IntVal: 42\n\x7d".toList := rfl
    rw [h0] at hm
    have ht := Except.ok.inj hm
    subst ht
    exact ⟨_, rfl, by decide, hu (by decide)⟩⟩

/-- C3, the code at a failing input: the encoding of a record nested two levels
deep is the brace text below, and decoding that text into the zero record of the
same shape returns the end-of-file error of the nested call, wrapped once. -/
theorem nested_depth_two_fails :
    Marshal unitFloat (.value (.struct exDeep))
      = .ok "a: \x7b\n  b: \x7b\n    c: 'x'\n  \x7d\n\x7d".toList ∧
    (Unmarshal unitFloat "a: \x7b\n  b: \x7b\n    c: 'x'\n  \x7d\n\x7d".toList
      (.pointer (some (.struct (zeroFields unitFloat exDeep))))).1
      = some (.error (.wrap .parseInner .endOfFile)) :=
  ⟨rfl, by decide⟩

/-- C4, the code at a failing input: decoding the inner document directly sets
the field, while decoding the single-line nested record panics with a slice
bounds error. -/
theorem single_line_nested_panics :
    Unmarshal unitFloat "test: true".toList
        (.pointer (some (.struct [(declared "Test" "test", .bool false)])))
      = (none, .pointer (some (.struct [(declared "Test" "test", .bool true)]))) ∧
    Unmarshal unitFloat "value: \x7b test: true \x7d".toList (.pointer (some (.struct exInner)))
      = (some (.panic .sliceBounds), .pointer (some (.struct exInner))) :=
  ⟨rfl, rfl⟩

/-- C10, the code at failing inputs: the multi-line array decodes, and so does
the key-only form; with a white-space-only line or an indented comment line
inserted inside the array, or a white-space-only line inserted after the key-only
line, decoding panics with an index out of range. -/
theorem blank_line_in_block_panics :
    Unmarshal unitFloat "modules: [\n  \"a\"\n]".toList (.pointer (some (.struct exModules)))
      = (none, .pointer (some (.struct
          [(declared "Modules" "modules", .slice (.strings [['a']]))]))) ∧
    (Unmarshal unitFloat "modules: [\n  \n  \"a\"\n]".toList
      (.pointer (some (.struct exModules)))).1 = some (.panic .indexOutOfRange) ∧
    (Unmarshal unitFloat "modules: [\n  # note\n  \"a\"\n]".toList
      (.pointer (some (.struct exModules)))).1 = some (.panic .indexOutOfRange) ∧
    Unmarshal unitFloat "modules:\n[\n  \"a\"\n]".toList (.pointer (some (.struct exModules)))
      = (none, .pointer (some (.struct
          [(declared "Modules" "modules", .slice (.strings [['a']]))]))) ∧
    (Unmarshal unitFloat "modules:\n  \n[\n  \"a\"\n]".toList
      (.pointer (some (.struct exModules)))).1 = some (.panic .indexOutOfRange) :=
  ⟨rfl, by decide, by decide, rfl, by decide⟩

/-- C5, at the key `key`, the token `test` and the exported field `Value` of the
test "simple value". -/
theorem quoted_and_bare_scalars_witness :
    IsKey "key".toList ∧ (declared "Value" "key").IsExported = true ∧
    "test".toList ≠ [] ∧ (∀ c ∈ "test".toList, tokenChar c = true) ∧
    (∀ doc ∈ ["key: 'test',".toList, "key: \"test\",".toList, "key: test,".toList],
      byteLen doc < MaxScanTokenSize) ∧
    ∀ doc ∈ ["key: 'test',".toList, "key: \"test\",".toList, "key: test,".toList],
      Unmarshal unitFloat doc
          (.pointer (some (.struct ([] ++ (declared "Value" "key", .string []) :: []))))
        = (none, .pointer (some (.struct
            ([] ++ (declared "Value" "key", .string "test".toList) :: [])))) :=
  ⟨by decide, by decide, by decide, by decide, by decide,
    fun doc hd =>
      quoted_and_bare_scalars unitFloat "key".toList "test".toList [] (declared "Value" "key")
        [] [] (by decide) (by decide) (by decide) (by decide) (by decide) (by decide) doc hd
        ((by decide : ∀ doc ∈ ["key: 'test',".toList, "key: \"test\",".toList,
          "key: test,".toList], byteLen doc < MaxScanTokenSize) doc hd)⟩

/-- C6, at the key `value` and the value line `test`. -/
theorem key_only_continuation_witness :
    ':' ∉ "value".toList ∧ (∃ c ∈ "test".toList, isSpace c = false) ∧
    "test".toList.head? ≠ some '#' ∧ ':' ∉ "test".toList ∧
    byteLen ("value".toList ++ [':', ' '] ++ "test".toList) < MaxScanTokenSize ∧
    Unmarshal unitFloat ("value".toList ++ [':', '\n'] ++ "test".toList)
        (.pointer (some (.struct exValue)))
      = Unmarshal unitFloat ("value".toList ++ [':', ' '] ++ "test".toList)
        (.pointer (some (.struct exValue))) :=
  ⟨by decide, by decide, by decide, by decide, by decide,
    key_only_continuation unitFloat "value".toList "test".toList _
      (by decide) (by decide) (by decide) (by decide) (by decide) (by decide) (by decide)
      (by decide)⟩

/-- C7, at the key `modules`, the exported field `Modules` and the tokens of the
tests. -/
theorem array_forms_append_witness :
    IsKey "modules".toList ∧ (declared "Modules" "modules").IsExported = true ∧
    (∀ t ∈ ["node-module".toList, "csharp-module".toList], ∀ c ∈ t, tokenChar c = true) ∧
    (∀ doc ∈ [arrayCommaForm "modules".toList ["node-module".toList, "csharp-module".toList],
        arrayCommaSpaceForm "modules".toList ["node-module".toList, "csharp-module".toList],
        arrayMultiLineForm "modules".toList ["node-module".toList, "csharp-module".toList]
          [true, false]], ShortLines doc) ∧
    ∀ doc ∈ [arrayCommaForm "modules".toList ["node-module".toList, "csharp-module".toList],
        arrayCommaSpaceForm "modules".toList ["node-module".toList, "csharp-module".toList],
        arrayMultiLineForm "modules".toList ["node-module".toList, "csharp-module".toList]
          [true, false]],
      Unmarshal unitFloat doc
          (.pointer (some (.struct
            ([] ++ (declared "Modules" "modules", .slice (.strings [['x']])) :: []))))
        = (none, .pointer (some (.struct
            ([] ++ (declared "Modules" "modules",
              .slice (.strings ([['x']] ++ ["node-module".toList, "csharp-module".toList])))
              :: [])))) :=
  ⟨by decide, by decide, by decide, by decide,
    fun doc hd =>
      array_forms_append unitFloat "modules".toList
        ["node-module".toList, "csharp-module".toList]
        [true, false] [['x']] (declared "Modules" "modules") [] []
        (by decide) (by decide) (by decide) (by decide) (by decide) (by decide) (by decide)
        doc hd
        ((by decide : ∀ doc ∈ [arrayCommaForm "modules".toList
            ["node-module".toList, "csharp-module".toList],
          arrayCommaSpaceForm "modules".toList ["node-module".toList, "csharp-module".toList],
          arrayMultiLineForm "modules".toList ["node-module".toList, "csharp-module".toList]
            [true, false]], ShortLines doc) doc hd)⟩

/-- C9, at the unknown key `password` in front of the document `value: test`. -/
theorem unknown_key_ignored_witness :
    ':' ∉ "password".toList ∧ (∃ c ∈ "secret,".toList, isSpace c = false) ∧
    (∀ f ∈ fieldsOf exValue, f.Tag = ['-'] ∨ f.Tag ≠ TrimSpace "password".toList) ∧
    byteLen ("password".toList ++ [':', ' '] ++ "secret,".toList) < MaxScanTokenSize ∧
    (Unmarshal unitFloat ("password".toList ++ [':', ' '] ++ "secret,".toList ++ ['\n']
          ++ "value: test".toList) (.pointer (some (.struct exValue)))
        = Unmarshal unitFloat "value: test".toList (.pointer (some (.struct exValue))) ∧
      Unmarshal unitFloat ("password".toList ++ [':', ' '] ++ "secret,".toList)
          (.pointer (some (.struct exValue)))
        = (none, .pointer (some (.struct exValue)))) :=
  ⟨by decide, by decide, by decide, by decide,
    unknown_key_ignored unitFloat "password".toList "secret,".toList "value: test".toList exValue
      (by decide) (by decide) (by decide) (by decide) (by decide) (by decide) (by decide)⟩

end Cfg

namespace Cfg

variable {F : Type}

/-! ## Invalid targets and malformed lines -/

/-- C11. Invalid decode target: for every target that is not a non-nil pointer
to a struct (nil, a non-pointer value, a nil pointer, a pointer to a non-struct)
there is one invalid-target error that `Unmarshal` returns for every input text,
with the target as it was: the outcome does not depend on the text, of which no
line is read. -/
theorem invalid_decode_target (fo : FloatOps F) (v : Arg F) (h : ¬ v.IsStructPointer) :
    ∃ e ∈ [Err.decodeNotPointer, Err.decodeNil, Err.decodeNotStruct],
      ∀ data, Unmarshal fo data v = (some (.error e), v) := by
  cases v with
  | nil => exact ⟨.decodeNotPointer, by simp, fun _ => rfl⟩
  | value w => exact ⟨.decodeNotPointer, by simp, fun _ => rfl⟩
  | pointer t =>
    cases t with
    | none => exact ⟨.decodeNil, by simp, fun _ => rfl⟩
    | some w =>
      cases w with
      | struct decls => exact absurd trivial h
      | string s => exact ⟨.decodeNotStruct, by simp, fun _ => rfl⟩
      | bool b => exact ⟨.decodeNotStruct, by simp, fun _ => rfl⟩
      | int k n => exact ⟨.decodeNotStruct, by simp, fun _ => rfl⟩
      | uint k n => exact ⟨.decodeNotStruct, by simp, fun _ => rfl⟩
      | float k x => exact ⟨.decodeNotStruct, by simp, fun _ => rfl⟩
      | slice xs => exact ⟨.decodeNotStruct, by simp, fun _ => rfl⟩
      | other i => exact ⟨.decodeNotStruct, by simp, fun _ => rfl⟩

/-- The main loop passes over the lines it skips. -/
theorem unmarshalLoop_skip (fo : FloatOps F) (skip : List Str) (n : Nat) (rest : List Str)
    (fields : List (field F)) (hskip : ∀ s ∈ skip, IsBlankOrComment s) :
    unmarshalLoop fo (n + skip.length) (skip ++ rest) fields = unmarshalLoop fo n rest fields := by
  induction skip with
  | nil => rfl
  | cons s r ih =>
    have hs : (TrimSpace s).length < 1 ∨ (TrimSpace s).head? = some '#' := hskip s (by simp)
    have hn : n + (s :: r).length = (n + r.length) + 1 := by simp [Nat.add_assoc]
    rw [hn]
    show unmarshalLoop fo (n + r.length + 1) (s :: (r ++ rest)) fields = _
    rw [unmarshalLoop_succ, if_pos hs]
    exact ih fun x hx => hskip x (List.mem_cons_of_mem _ hx)

/-- The main loop at a line without the separator. -/
theorem unmarshalLoop_no_separator (fo : FloatOps F) (n : Nat) (l : Str) (rest : List Str)
    (fields : List (field F)) (hl : ¬ IsBlankOrComment l) (hc : ':' ∉ l) :
    unmarshalLoop fo (n + 1) (l :: rest) fields = (some (.error .couldNotDecodeLine), fields) := by
  have hl2 : ¬ ((TrimSpace l).length < 1 ∨ (TrimSpace l).head? = some '#') := hl
  have hi : ¬ (Index (TrimSpace l) ':' ≥ 0) := by
    rw [Index_of_not_mem fun h => hc (mem_of_mem_TrimSpace h)]
    decide
  rw [unmarshalLoop_succ, if_neg hl2]
  unfold parseEntry
  simp only [hi, if_false]

/-- The scanner yields nothing from a text that begins with a line of
`MaxScanTokenSize` bytes or more. -/
theorem scanLines_long {l : Str} (rest : Str) (h : '\n' ∉ l)
    (hl : MaxScanTokenSize ≤ byteLen l) : scanLines (l ++ '\n' :: rest) = [] := by
  unfold scanLines
  rw [rawLines_cons rest h, List.takeWhile_cons, if_neg (by simpa using hl)]
  rfl

/-- Decoding a text that begins with a line of `MaxScanTokenSize` bytes or more:
the loop of `decodeState.unmarshal` never runs, the call returns a nil error and
the record keeps its values, whatever the text holds. -/
theorem Unmarshal_long_first_line (fo : FloatOps F) {l : Str} (rest : Str)
    (decls : List (StructField × Value F)) (h : '\n' ∉ l)
    (hl : MaxScanTokenSize ≤ byteLen l) :
    Unmarshal fo (l ++ '\n' :: rest) (.pointer (some (.struct decls)))
      = (none, .pointer (some (.struct decls))) := by
  simp only [Unmarshal]
  rw [scanLines_long rest h hl, unmarshalLoop_nil, store_fieldsOf]

/-- C18. Malformed line: for every document of which the scanner yields the
lines `skip ++ l :: rest` (the scanner yields the lines of the text up to the
first one of `MaxScanTokenSize` bytes or more, so these lines are all shorter),
where the lines of `skip` are blank or comments and `l` is neither and contains
no `:`, and for every target record, `Unmarshal` returns the
could-not-decode-line error and every field of the record keeps its pre-decode
value. -/
theorem malformed_first_line (fo : FloatOps F) (data : Str)
    (decls : List (StructField × Value F)) (skip : List Str) (l : Str) (rest : List Str)
    (hlines : scanLines data = skip ++ l :: rest)
    (hskip : ∀ s ∈ skip, IsBlankOrComment s) (hl : ¬ IsBlankOrComment l) (hc : ':' ∉ l) :
    Unmarshal fo data (.pointer (some (.struct decls)))
      = (some (.error .couldNotDecodeLine), .pointer (some (.struct decls))) := by
  have hsize := textSize_scanLines_le data
  have hlen := length_le_textSize (scanLines data)
  have hfuel : ∃ m, data.length + 1 = (m + 1) + skip.length := by
    rw [hlines] at hlen hsize
    simp only [List.length_append, List.length_cons] at hlen
    exact ⟨data.length + 1 - (skip.length + 1), by omega⟩
  obtain ⟨m, hm⟩ := hfuel
  simp only [Unmarshal]
  rw [hlines, hm, unmarshalLoop_skip fo skip (m + 1) _ _ hskip,
    unmarshalLoop_no_separator fo m l rest _ hl hc, store_fieldsOf]

end Cfg

namespace Cfg

variable {F : Type}

/-! ## The entries the encoder writes -/

theorem marshalEntry_plain (fo : FloatOps F) (sf : StructField) (v : Value F)
    (hs : IsPlainScalar v) :
    marshalEntry fo (mkField (sf, v)).Tag sf.IsExported v = .ok (plainEntry (sf, v)) := by
  cases v with
  | string s => simp [marshalEntry, marshalField, plainEntry, mkField]
  | bool b => cases b <;> simp [marshalEntry, marshalField, plainEntry, mkField, formatBool]
  | int k n =>
    by_cases hn : n < 0 <;>
      simp [marshalEntry, marshalField, plainEntry, mkField, formatInt, hn]
  | uint k n => simp [marshalEntry, marshalField, plainEntry, mkField]
  | float k x => exact absurd hs (by simp [IsPlainScalar])
  | slice xs => exact absurd hs (by simp [IsPlainScalar])
  | struct fs => exact absurd hs (by simp [IsPlainScalar])
  | other i => exact absurd hs (by simp [IsPlainScalar])

theorem marshalLines_plain (fo : FloatOps F) (decls : List (StructField × Value F))
    (h : ∀ d ∈ decls, IsPlainScalar d.2) :
    marshalLines fo decls
      = .ok ((decls.filter fun d => decide ((mkField d).Tag ≠ ['-'])).map plainEntry) := by
  induction decls with
  | nil => simp [marshalLines]
  | cons d r ih =>
    obtain ⟨sf, v⟩ := d
    have hr := ih fun d hd => h d (List.mem_cons_of_mem _ hd)
    rw [marshalLines_cons]
    by_cases hd : (mkField (sf, v)).Tag = ['-']
    · rw [if_pos hd, hr, List.filter_cons_of_neg (by simpa using hd)]
    · rw [if_neg hd, marshalEntry_plain fo sf v (h (sf, v) (by simp)), hr,
        List.filter_cons_of_pos (by simpa using hd)]
      rfl

/-- C13. Encoding of a scalar record: for every record whose fields are string,
bool, signed-integer or unsigned-integer scalars, `Marshal` returns no error, and
its output is the entries of the fields whose external key is not `-`, in
declaration order, joined by a comma and a line feed (`Join` puts the separator
between entries only); the entry of a string is `key: 'value'`, of a bool
`key: true` or `key: false`, of an integer `key: ` followed by its base-10
numeral. -/
theorem scalar_record_encoding (fo : FloatOps F) (decls : List (StructField × Value F))
    (h : ∀ d ∈ decls, IsPlainScalar d.2) :
    Marshal fo (.value (.struct decls))
      = .ok (Join ((decls.filter fun d => decide ((mkField d).Tag ≠ ['-'])).map plainEntry)
          [',', '\n']) := by
  simp only [Marshal, marshalLines_plain fo decls h]

theorem marshalLines_append (fo : FloatOps F) (pre post : List (StructField × Value F)) :
    marshalLines fo (pre ++ post) =
      match marshalLines fo pre with
      | .error p => .error p
      | .ok lp =>
        match marshalLines fo post with
        | .error p => .error p
        | .ok lq => .ok (lp ++ lq) := by
  induction pre with
  | nil =>
    simp only [List.nil_append, marshalLines]
    cases marshalLines fo post <;> rfl
  | cons d r ih =>
    obtain ⟨sf, v⟩ := d
    show marshalLines fo ((sf, v) :: (r ++ post)) = _
    rw [marshalLines_cons, marshalLines_cons, ih]
    by_cases hd : (mkField (sf, v)).Tag = ['-']
    · rw [if_pos hd, if_pos hd]
    · rw [if_neg hd, if_neg hd]
      cases marshalEntry fo (mkField (sf, v)).Tag sf.IsExported v with
      | error p => rfl
      | ok line =>
        cases marshalLines fo r with
        | error p => rfl
        | ok lp =>
          cases marshalLines fo post with
          | error p => rfl
          | ok lq => rfl

/-- The text `Marshal` returns for a record in which the field `(sf, v)` is not
excluded, in terms of the entry of that field and the entries of the fields
around it. -/
theorem Marshal_around (fo : FloatOps F) (sf : StructField) (v : Value F)
    (pre post : List (StructField × Value F)) (lp lq : List Str)
    (hk : (mkField (sf, v)).Tag ≠ ['-'])
    (hpre : marshalLines fo pre = .ok lp) (hpost : marshalLines fo post = .ok lq) :
    Marshal fo (.value (.struct (pre ++ (sf, v) :: post))) =
      match marshalEntry fo (mkField (sf, v)).Tag sf.IsExported v with
      | .error p => .error p
      | .ok line => .ok (Join (lp ++ line :: lq) [',', '\n']) := by
  simp only [Marshal, marshalLines_append, hpre, marshalLines_cons, if_neg hk, hpost]
  cases marshalEntry fo (mkField (sf, v)).Tag sf.IsExported v <;> rfl

/-- C14. Encoding of an array field: for every list of strings and every
string-slice field of a record whose external key `k` is not the exclusion mark,
the text `Marshal` returns holds, between the entries of the fields before and
after it, the entry `k: [`, a line feed, the lines made of two spaces and the
element between single quotation marks joined by a comma and a line feed, a line
feed, and `]`. -/
theorem array_entry_encoding (fo : FloatOps F) (sf : StructField) (es : List Str)
    (pre post : List (StructField × Value F)) (lp lq : List Str)
    (hk : (mkField (sf, (Value.slice (.strings es) : Value F))).Tag ≠ ['-'])
    (hpre : marshalLines fo pre = .ok lp) (hpost : marshalLines fo post = .ok lq) :
    Marshal fo (.value (.struct (pre ++ (sf, .slice (.strings es)) :: post)))
      = .ok (Join (lp ++
          ((mkField (sf, (Value.slice (.strings es) : Value F))).Tag ++ [':', ' ', '['] ++ ['\n']
            ++ Join (es.map fun e => [' ', ' ', sq] ++ e ++ [sq]) [',', '\n']
            ++ ['\n'] ++ [']']) :: lq) [',', '\n']) := by
  rw [Marshal_around fo sf _ pre post lp lq hk hpre hpost]
  simp [marshalEntry, arrayEntry, SliceValue.shown]

end Cfg

namespace Cfg

variable {F : Type}

/-- The text `Marshal` returns for a struct, from the loop over its fields. -/
theorem Marshal_struct (fo : FloatOps F) (decls : List (StructField × Value F)) :
    Marshal fo (.value (.struct decls)) =
      match marshalLines fo decls with
      | .error p => .error p
      | .ok ls => .ok (Join ls [',', '\n']) := rfl

/-- C15. Encoding of a nested record: for every record with a nested-record
field that is exported and whose external key `k` is not the exclusion mark,
(1) when `Marshal` returns the text `E` for the nested record, the text it
returns for the outer record holds, between the entries of the fields before and
after, the entry `k: ` and an opening brace, a line feed and two spaces, `E`
with every line feed replaced by a line feed and two spaces, a line feed, and a
closing brace; (2) when `Marshal` returns an error for the nested record, the
outer `Marshal` returns no text: it returns that error wrapped as a nested
failure when the fields before encode, and fails as the fields before do
otherwise. -/
theorem nested_entry_encoding (fo : FloatOps F) (sf : StructField)
    (inner pre post : List (StructField × Value F))
    (hk : (mkField (sf, (Value.struct inner : Value F))).Tag ≠ ['-'])
    (hexp : sf.IsExported = true) :
    (∀ E lp lq, Marshal fo (.value (.struct inner)) = .ok E →
      marshalLines fo pre = .ok lp → marshalLines fo post = .ok lq →
      Marshal fo (.value (.struct (pre ++ (sf, .struct inner) :: post)))
        = .ok (Join (lp ++
            ((mkField (sf, (Value.struct inner : Value F))).Tag ++ [':', ' ', lbrace]
              ++ ['\n', ' ', ' '] ++ ReplaceAll E '\n' ['\n', ' ', ' '] ++ ['\n'] ++ [rbrace])
            :: lq) [',', '\n'])) ∧
    (∀ e, Marshal fo (.value (.struct inner)) = .error (.error e) →
      (∀ lp, marshalLines fo pre = .ok lp →
        Marshal fo (.value (.struct (pre ++ (sf, .struct inner) :: post)))
          = .error (.error (.wrap .marshalInner e))) ∧
      (∀ p, marshalLines fo pre = .error p →
        Marshal fo (.value (.struct (pre ++ (sf, .struct inner) :: post))) = .error p)) := by
  constructor
  · intro E lp lq hE hpre hpost
    rw [Marshal_struct] at hE
    cases hl : marshalLines fo inner with
    | error p => simp [hl] at hE
    | ok ls =>
      rw [hl] at hE
      simp only [Except.ok.injEq] at hE
      subst hE
      rw [Marshal_around fo sf _ pre post lp lq hk hpre hpost, marshalEntry, hl, hexp]
      simp [innerEntry]
  · intro e he
    rw [Marshal_struct] at he
    have hl : marshalLines fo inner = .error (.error e) := by
      cases hl : marshalLines fo inner with
      | error p =>
        rw [hl] at he
        simpa using he
      | ok ls => simp [hl] at he
    have hentry : marshalEntry fo (mkField (sf, (Value.struct inner : Value F))).Tag
        sf.IsExported (.struct inner) = .error (.error (.wrap .marshalInner e)) := by
      rw [marshalEntry, hl, hexp]
      rfl
    have hcons : marshalLines fo ((sf, .struct inner) :: post)
        = .error (.error (.wrap .marshalInner e)) := by
      rw [marshalLines_cons, if_neg hk, hentry]
    constructor
    · intro lp hpre
      rw [Marshal_struct, marshalLines_append, hpre, hcons]
    · intro p hpre
      rw [Marshal_struct, marshalLines_append, hpre]

end Cfg

namespace Cfg

variable {F : Type}

/-! ## Coercion of tokens -/

theorem parseDigits_eq (s : Str) (acc : Nat) :
    parseDigits s acc =
      if ∀ c ∈ s, isDecimalDigit c = true then some (acc * 10 ^ s.length + digitsValue s)
      else none := by
  induction s generalizing acc with
  | nil => simp [parseDigits, digitsValue]
  | cons c cs ih =>
    by_cases hc : 48 ≤ c.toNat ∧ c.toNat ≤ 57
    · have hd : digitVal c = some (c.toNat - 48) := by
        unfold digitVal
        rw [if_pos hc]
      have hi : isDecimalDigit c = true := by
        unfold isDecimalDigit
        exact decide_eq_true hc
      simp only [parseDigits, hd, ih, List.mem_cons, forall_eq_or_imp, hi, true_and,
        List.length_cons, digitsValue]
      split_ifs
      · congr 1
        ring
      · rfl
    · have hd : digitVal c = none := by
        unfold digitVal
        rw [if_neg hc]
      have hi : ¬ isDecimalDigit c = true := by
        unfold isDecimalDigit
        simpa using hc
      simp only [parseDigits, hd, List.mem_cons, forall_eq_or_imp, hi, false_and, if_false]
      try simp

/-- The call `strconv.ParseUint(s, 10, 64)` succeeds exactly on the base-10
numerals within range, with their value. -/
theorem ParseUint_eq (s : Str) : ParseUint s = unsignedNumeral s := by
  unfold ParseUint unsignedNumeral
  cases s with
  | nil => simp
  | cons c cs =>
    simp only [parseDigits_eq, Nat.zero_mul, Nat.zero_add]
    by_cases h : ∀ x ∈ c :: cs, isDecimalDigit x = true
    · rw [if_pos h]
      by_cases h64 : digitsValue (c :: cs) < 2 ^ 64
      · rw [if_pos ⟨by simp, h, h64⟩]
        simp only [h64, if_true]
      · rw [if_neg fun hh => h64 hh.2.2]
        simp only [h64, if_false]
    · rw [if_neg h, if_neg fun hh => h hh.2.1]

theorem splitSign_plus (cs : Str) : splitSign ('+' :: cs) = (false, cs) := rfl

theorem splitSign_minus (cs : Str) : splitSign ('-' :: cs) = (true, cs) := rfl

theorem splitSign_other {c : Char} (cs : Str) (h1 : c ≠ '+') (h2 : c ≠ '-') :
    splitSign (c :: cs) = (false, c :: cs) := by
  simp [splitSign, h1, h2]

/-- The call `strconv.ParseInt(s, 10, 64)` succeeds exactly on the signed base-10
numerals within range, with their value. -/
theorem ParseInt_eq (s : Str) : ParseInt s = signedNumeral s := by
  cases s with
  | nil => simp [ParseInt, signedNumeral, splitSign]
  | cons c cs =>
    unfold ParseInt signedNumeral
    by_cases h1 : c = '+'
    · subst h1
      simp only [if_true, ParseUint_eq, unsignedNumeral, splitSign_plus, Bool.false_eq_true,
        if_false]
      by_cases hd : cs ≠ [] ∧ ∀ x ∈ cs, isDecimalDigit x = true
      · by_cases hr : digitsValue cs < 2 ^ 63
        · have h64 : digitsValue cs < 2 ^ 64 := by omega
          have hz : -(2 : ℤ) ^ 63 ≤ (digitsValue cs : ℤ) ∧ (digitsValue cs : ℤ) < 2 ^ 63 := by
            omega
          rw [if_pos ⟨hd.1, hd.2, h64⟩, if_pos ⟨hd.1, hd.2, hz⟩]
          simp only [hr, if_true]
        · have hz : ¬ (cs ≠ [] ∧ (∀ x ∈ cs, isDecimalDigit x = true) ∧
              -(2 : ℤ) ^ 63 ≤ (digitsValue cs : ℤ) ∧ (digitsValue cs : ℤ) < 2 ^ 63) := by
            intro h
            omega
          rw [if_neg hz]
          split_ifs <;> first | (simp; done) | (simp; omega)
      · have hz : ¬ (cs ≠ [] ∧ (∀ x ∈ cs, isDecimalDigit x = true) ∧
            -(2 : ℤ) ^ 63 ≤ (digitsValue cs : ℤ) ∧ (digitsValue cs : ℤ) < 2 ^ 63) :=
          fun h => hd ⟨h.1, h.2.1⟩
        have hu : ¬ (cs ≠ [] ∧ (∀ x ∈ cs, isDecimalDigit x = true) ∧ digitsValue cs < 2 ^ 64) :=
          fun h => hd ⟨h.1, h.2.1⟩
        rw [if_neg hz, if_neg hu]
    · by_cases h2 : c = '-'
      · subst h2
        simp only [show ('-' : Char) ≠ '+' by decide, if_false, if_true, ParseUint_eq,
          unsignedNumeral, splitSign_minus]
        by_cases hd : cs ≠ [] ∧ ∀ x ∈ cs, isDecimalDigit x = true
        · by_cases hr : digitsValue cs ≤ 2 ^ 63
          · have h64 : digitsValue cs < 2 ^ 64 := by omega
            have hz : -(2 : ℤ) ^ 63 ≤ -(digitsValue cs : ℤ) ∧ -(digitsValue cs : ℤ) < 2 ^ 63 := by
              omega
            rw [if_pos ⟨hd.1, hd.2, h64⟩, if_pos ⟨hd.1, hd.2, hz⟩]
            simp only [hr, if_true]
          · have hz : ¬ (cs ≠ [] ∧ (∀ x ∈ cs, isDecimalDigit x = true) ∧
                -(2 : ℤ) ^ 63 ≤ -(digitsValue cs : ℤ) ∧ -(digitsValue cs : ℤ) < 2 ^ 63) := by
              intro h
              omega
            rw [if_neg hz]
            split_ifs <;> first | (simp; done) | (simp; omega)
        · have hz : ¬ (cs ≠ [] ∧ (∀ x ∈ cs, isDecimalDigit x = true) ∧
              -(2 : ℤ) ^ 63 ≤ -(digitsValue cs : ℤ) ∧ -(digitsValue cs : ℤ) < 2 ^ 63) :=
            fun h => hd ⟨h.1, h.2.1⟩
          have hu : ¬ (cs ≠ [] ∧ (∀ x ∈ cs, isDecimalDigit x = true) ∧
              digitsValue cs < 2 ^ 64) := fun h => hd ⟨h.1, h.2.1⟩
          rw [if_neg hz, if_neg hu]
      · simp only [h1, h2, if_false, ParseUint_eq, unsignedNumeral, splitSign_other cs h1 h2,
          Bool.false_eq_true]
        by_cases hd : ∀ x ∈ c :: cs, isDecimalDigit x = true
        · by_cases hr : digitsValue (c :: cs) < 2 ^ 63
          · have h64 : digitsValue (c :: cs) < 2 ^ 64 := by omega
            have hz : -(2 : ℤ) ^ 63 ≤ (digitsValue (c :: cs) : ℤ) ∧
                (digitsValue (c :: cs) : ℤ) < 2 ^ 63 := by omega
            rw [if_pos ⟨by simp, hd, h64⟩, if_pos ⟨by simp, hd, hz⟩]
            simp only [hr, if_true]
          · have hz : ¬ (c :: cs ≠ [] ∧ (∀ x ∈ c :: cs, isDecimalDigit x = true) ∧
                -(2 : ℤ) ^ 63 ≤ (digitsValue (c :: cs) : ℤ) ∧
                (digitsValue (c :: cs) : ℤ) < 2 ^ 63) := by
              intro h
              omega
            rw [if_neg hz]
            split_ifs <;> first | (simp; done) | (simp; omega)
        · have hz : ¬ (c :: cs ≠ [] ∧ (∀ x ∈ c :: cs, isDecimalDigit x = true) ∧
              -(2 : ℤ) ^ 63 ≤ (digitsValue (c :: cs) : ℤ) ∧
              (digitsValue (c :: cs) : ℤ) < 2 ^ 63) := fun h => hd h.2.1
          have hu : ¬ (c :: cs ≠ [] ∧ (∀ x ∈ c :: cs, isDecimalDigit x = true) ∧
              digitsValue (c :: cs) < 2 ^ 64) := fun h => hd h.2.1
          rw [if_neg hz, if_neg hu]

/-- Decoding a document that consists of the single line `k: s` with a token
`s` into the field of a scalar kind that carries the key. -/
theorem Unmarshal_token_entry (fo : FloatOps F) {k s : Str}
    (pre post : List (StructField × Value F)) (sf : StructField) (v w : Value F)
    (hk : IsKey k) (hne : s ≠ []) (ht : ∀ c ∈ s, tokenChar c = true)
    (hshort : byteLen (k ++ [':', ' '] ++ s) < MaxScanTokenSize)
    (htag : (mkField (sf, v)).Tag = k)
    (hother : ∀ d ∈ pre ++ post, (mkField d).Tag ≠ k)
    (hset : setValue fo (mkField (sf, v)) s = .ok { Tag := k, Value := w }) :
    Unmarshal fo (k ++ [':', ' '] ++ s) (.pointer (some (.struct (pre ++ (sf, v) :: post))))
      = (none, .pointer (some (.struct (pre ++ (sf, w) :: post)))) := by
  obtain ⟨x, hx⟩ : ∃ x, s.head? = some x := by
    cases s with
    | nil => exact absurd rfl hne
    | cons x xs => exact ⟨x, rfl⟩
  obtain ⟨y, hy⟩ : ∃ y, s.getLast? = some y := ⟨_, List.getLast?_eq_getLast _ hne⟩
  have hxm : x ∈ s := List.mem_of_mem_head? hx
  have hym : y ∈ s := List.mem_of_mem_getLast? hy
  have hxt := tokenChar_iff.1 (ht x hxm)
  have hyt := tokenChar_iff.1 (ht y hym)
  have h0 : k ++ [':', ' '] ++ s = k ++ ':' :: ' ' :: s := by simp
  rw [h0] at hshort ⊢
  refine Unmarshal_plain_entry fo pre post sf v w hk hne ?_ ?_
    (fun c hc => plainChar_of_token (ht c hc)) hshort htag hother
    (removeCommaFromEnd_other hy hyt.2.2.2.2.2.2.1)
    (unwrap_plain hx hxt.2.2.2.2.2.2.2.1 hxt.2.2.2.2.2.2.2.2) hset
  · intro c hc
    rw [hx] at hc
    cases hc
    exact hxt.1
  · intro c hc
    rw [hy] at hc
    cases hc
    exact hyt.1

/-! ## Lower case -/

theorem toNat_ofNat_small (n : Nat) (h : n < 200) : (Char.ofNat n).toNat = n := by
  interval_cases n <;> rfl

theorem eq_of_toNat_eq (a b : Char) (h : a.toNat = b.toNat) : a = b :=
  Char.ext (UInt32.ext (by simpa [Char.toNat, UInt32.toNat] using h))

theorem toLower_upper (x : Char) (hx : 65 ≤ x.toNat ∧ x.toNat ≤ 90) :
    x.toLower.toNat = x.toNat + 32 := by
  have h : x.toLower = Char.ofNat (x.toNat + 32) := by
    unfold Char.toLower
    simp only [ge_iff_le, hx, and_self, if_true]
  rw [h, toNat_ofNat_small _ (by omega)]

theorem toLower_other (x : Char) (hx : ¬ (65 ≤ x.toNat ∧ x.toNat ≤ 90)) : x.toLower = x := by
  unfold Char.toLower
  simp only [ge_iff_le, hx, if_false]

/-- The characters that lower-case to a given lower-case letter are the letter
and its capital. -/
theorem toLower_eq_iff (c l u : Char) (hl : 97 ≤ l.toNat ∧ l.toNat ≤ 122)
    (hu : u.toNat + 32 = l.toNat) : c.toLower = l ↔ c = l ∨ c = u := by
  constructor
  · intro h
    by_cases hc : 65 ≤ c.toNat ∧ c.toNat ≤ 90
    · right
      apply eq_of_toNat_eq
      have h2 := toLower_upper c hc
      rw [h] at h2
      omega
    · left
      rw [toLower_other c hc] at h
      exact h
  · rintro (rfl | rfl)
    · exact toLower_other _ (by omega)
    · apply eq_of_toNat_eq
      rw [toLower_upper _ (by omega)]
      omega

/-- The only character that lower-cases to a given character before the capitals
is that character. -/
theorem toLower_eq_low (c l : Char) (hl : l.toNat < 65) : c.toLower = l ↔ c = l := by
  constructor
  · intro h
    by_cases hc : 65 ≤ c.toNat ∧ c.toNat ≤ 90
    · exfalso
      have h2 := toLower_upper c hc
      rw [h] at h2
      omega
    · rw [toLower_other c hc] at h
      exact h
  · rintro rfl
    exact toLower_other _ (by omega)

theorem boolValue_trueTokens : ∀ s ∈ trueTokens, boolValue s = true := by decide

/-- The tokens `boolValue` reads as true, letter by letter. -/
theorem boolValue_iff (s : Str) : boolValue s = true ↔ s ∈ trueTokens := by
  have ht := fun c => toLower_eq_iff c 't' 'T' (by decide) (by decide)
  have hr := fun c => toLower_eq_iff c 'r' 'R' (by decide) (by decide)
  have hu := fun c => toLower_eq_iff c 'u' 'U' (by decide) (by decide)
  have he := fun c => toLower_eq_iff c 'e' 'E' (by decide) (by decide)
  have hy := fun c => toLower_eq_iff c 'y' 'Y' (by decide) (by decide)
  have hs := fun c => toLower_eq_iff c 's' 'S' (by decide) (by decide)
  have h1 := fun c => toLower_eq_low c '1' (by decide)
  refine ⟨fun h => ?_, boolValue_trueTokens s⟩
  simp only [boolValue, ToLower, decide_eq_true_eq] at h
  rcases s with _ | ⟨a, _ | ⟨b, _ | ⟨c, _ | ⟨d, _ | ⟨e, r⟩⟩⟩⟩⟩
  · simp at h
  · simp only [List.map, List.cons.injEq, and_true, ht, hy, h1, reduceCtorEq, and_false,
      or_false, false_or] at h
    rcases h with (rfl | rfl) | (rfl | rfl) | rfl <;> decide
  · simp at h
  · simp only [List.map, List.cons.injEq, and_true, hy, he, hs, reduceCtorEq, and_false,
      or_false, false_or] at h
    rcases h with ⟨rfl | rfl, rfl | rfl, rfl | rfl⟩ <;> decide
  · simp only [List.map, List.cons.injEq, and_true, ht, hr, hu, he, reduceCtorEq, and_false,
      or_false, false_or] at h
    rcases h with ⟨rfl | rfl, rfl | rfl, rfl | rfl, rfl | rfl⟩ <;> decide
  · simp only [List.map, List.cons.injEq, reduceCtorEq, and_false, or_false] at h

/-- C19. Boolean coercion: for every string `s`, `boolValue s` is true exactly
when `s` is one of the words `t`, `true`, `y`, `yes`, `1` with each letter in
either case (`trueTokens` lists them), which is to say exactly when the
lower-cased `s` is one of these words; and for every other non-empty token `s` of
token characters, decoding the document `k: s`, shorter than the 64 KiB limit of
the scanner, into a record in which exactly one field, an exported bool, carries
the key `k` returns a nil error and sets that field to false, whatever it held,
leaving the other fields as they were. -/
theorem boolean_coercion (fo : FloatOps F) (s : Str) :
    (boolValue s = true ↔ s ∈ trueTokens) ∧
    (boolValue s = true ↔
      ToLower s ∈ [['t'], ['t', 'r', 'u', 'e'], ['y'], ['y', 'e', 's'], ['1']]) ∧
    ∀ (k : Str) (sf : StructField) (old : Bool) (pre post : List (StructField × Value F)),
      IsKey k → (mkField (sf, (Value.bool old : Value F))).Tag = k →
      sf.IsExported = true →
      (∀ d ∈ pre ++ post, (mkField d).Tag ≠ k) →
      s ≠ [] → (∀ c ∈ s, tokenChar c = true) →
      s ∉ trueTokens →
      byteLen (k ++ [':', ' '] ++ s) < MaxScanTokenSize →
      Unmarshal fo (k ++ [':', ' '] ++ s)
          (.pointer (some (.struct (pre ++ (sf, .bool old) :: post))))
        = (none, .pointer (some (.struct (pre ++ (sf, .bool false) :: post)))) := by
  have hiff : boolValue s = true ↔
      ToLower s ∈ [['t'], ['t', 'r', 'u', 'e'], ['y'], ['y', 'e', 's'], ['1']] := by
    simp [boolValue]
  refine ⟨boolValue_iff s, hiff, ?_⟩
  intro k sf old pre post hk htag hexp hother hne ht hfalse hshort
  have hb : boolValue s = false := by
    cases h : boolValue s with
    | false => rfl
    | true => exact absurd ((boolValue_iff s).1 h) hfalse
  refine Unmarshal_token_entry fo pre post sf _ _ hk hne ht hshort htag hother ?_
  rw [mkField_of_exported sf _ hexp, htag, ← hb]
  rfl

/-- C20. Silent zero on bad numbers: for every string `s`, `intValue` and
`uintValue` return a nil error; `intValue` returns the value of `s` when `s` is
a signed base-10 numeral within the range of `int64` and 0 otherwise, and
`uintValue` the value of `s` when `s` is an unsigned base-10 numeral within the
range of `uint64` and 0 otherwise; and for every non-empty token `s` of token
characters that is no such numeral, decoding the document `k: s`, shorter than
the 64 KiB limit of the scanner, into a record in which exactly one field, an
exported field of a signed (respectively unsigned) integer kind, carries the key
`k` returns a nil error and sets that field to 0, whatever it held. -/
theorem silent_zero_on_bad_numbers (fo : FloatOps F) (s : Str) :
    (intValue s).2 = none ∧ (uintValue s).2 = none ∧
    (intValue s).1 = (signedNumeral s).getD 0 ∧
    (uintValue s).1 = (unsignedNumeral s).getD 0 ∧
    ∀ (k : Str) (sf : StructField) (pre post : List (StructField × Value F)),
      IsKey k → (mkField (sf, (Value.bool false : Value F))).Tag = k →
      sf.IsExported = true →
      (∀ d ∈ pre ++ post, (mkField d).Tag ≠ k) →
      s ≠ [] → (∀ c ∈ s, tokenChar c = true) →
      byteLen (k ++ [':', ' '] ++ s) < MaxScanTokenSize →
      (∀ (ik : IntKind) (old : ℤ), signedNumeral s = none →
        Unmarshal fo (k ++ [':', ' '] ++ s)
            (.pointer (some (.struct (pre ++ (sf, .int ik old) :: post))))
          = (none, .pointer (some (.struct (pre ++ (sf, .int ik 0) :: post))))) ∧
      (∀ (uk : UintKind) (old : ℕ), unsignedNumeral s = none →
        Unmarshal fo (k ++ [':', ' '] ++ s)
            (.pointer (some (.struct (pre ++ (sf, .uint uk old) :: post))))
          = (none, .pointer (some (.struct (pre ++ (sf, .uint uk 0) :: post))))) := by
  have hi : intValue s = ((signedNumeral s).getD 0, none) := by
    unfold intValue
    rw [ParseInt_eq]
    cases signedNumeral s <;> rfl
  have hu : uintValue s = ((unsignedNumeral s).getD 0, none) := by
    unfold uintValue
    rw [ParseUint_eq]
    cases unsignedNumeral s <;> rfl
  refine ⟨by rw [hi], by rw [hu], by rw [hi], by rw [hu], ?_⟩
  intro k sf pre post hk htag hexp hother hne ht hshort
  have htag2 : ∀ v : Value F, (mkField (sf, v)).Tag = k := fun _ => htag
  constructor
  · intro ik old hbad
    refine Unmarshal_token_entry fo pre post sf _ _ hk hne ht hshort (htag2 _) hother ?_
    rw [mkField_of_exported sf _ hexp, htag2 (.int ik old)]
    have hw : wrapInt ik.bits 0 = 0 := by cases ik <;> decide
    simp only [setValue, field.IsArray, field.Kind, Value.Kind, hi, hbad,
      Option.getD_none, hw, assign]
    simp
  · intro uk old hbad
    refine Unmarshal_token_entry fo pre post sf _ _ hk hne ht hshort (htag2 _) hother ?_
    rw [mkField_of_exported sf _ hexp, htag2 (.uint uk old)]
    simp only [setValue, field.IsArray, field.Kind, Value.Kind, hu, hbad,
      Option.getD_none, wrapUint, assign]
    simp

end Cfg

namespace Cfg

variable {F : Type}

/-! ## Arrays against fields that are not slices -/

/-- The loop over the descriptors stops at the first descriptor that carries the
key when its iteration fails. -/
theorem assignFields_stop (inner : List Str → List (field F) → Option Fault × List (field F))
    (fo : FloatOps F) (e : Entry) (A B : List (field F)) (f f1 : field F) (p : Fault)
    (hA : ∀ g ∈ A, g.Tag ≠ e.key) (h : assignField inner fo e f = (some p, f1)) :
    assignFields inner fo e (A ++ f :: B) = (some p, A ++ f1 :: B) := by
  induction A with
  | nil => simp only [List.nil_append, assignFields, h]
  | cons a A ih =>
    simp only [List.mem_cons, forall_eq_or_imp] at hA
    show assignFields inner fo e (a :: (A ++ f :: B)) = _
    rw [assignFields, assignField_other inner fo e a hA.1]
    simp only [ih hA.2]
    rfl

/-- The iteration for a descriptor that carries the key of an entry with array
elements and is not a slice. -/
theorem assignField_mismatch (inner : List Str → List (field F) → Option Fault × List (field F))
    (fo : FloatOps F) (e : Entry) (f : field F) (hk : f.Tag = e.key) (hd : f.Tag ≠ ['-'])
    (hl : e.lines ≠ []) (hf : f.IsArray = false) :
    assignField inner fo e f = (some (.error .arrayIntoNonSlice), f) := by
  have hlen : e.lines.length > 0 := List.length_pos.2 hl
  unfold assignField
  rw [if_neg hd, if_pos hk]
  simp [hlen, hf]

theorem IsArray_of_Kind {sf : StructField} {v : Value F} (hv : v.Kind ≠ Kind.Slice) :
    (mkField (sf, v)).IsArray = false := by
  simp [field.IsArray, field.Kind, mkField, hv]

/-- Decoding a document whose first line opens an entry with array elements
whose key is carried first by a field that is not a slice. -/
theorem Unmarshal_block_mismatch (fo : FloatOps F) {doc k val : Str} {rest rest1 : List Str}
    {e : Entry} (pre post : List (StructField × Value F)) (sf : StructField) (v : Value F)
    (hlines : scanLines doc = (k ++ ':' :: ' ' :: val) :: rest)
    (hk : IsKey k) (hne : val ≠ []) (hh : ∀ c, val.head? = some c → isSpace c = false)
    (hl : ∀ c, val.getLast? = some c → isSpace c = false) (hc : '#' ∉ val)
    (htag : (mkField (sf, v)).Tag = k) (hv : v.Kind ≠ Kind.Slice)
    (hpre : ∀ d ∈ pre, (mkField d).Tag ≠ k)
    (hval : parseValue k val rest = .ok (e, rest1)) (he : e.key = k) (hel : e.lines ≠ []) :
    Unmarshal fo doc (.pointer (some (.struct (pre ++ (sf, v) :: post))))
      = (some (.error .arrayIntoNonSlice),
          .pointer (some (.struct (pre ++ (sf, v) :: post)))) := by
  have hA : ∀ g ∈ fieldsOf pre, g.Tag ≠ e.key := by
    intro g hg
    obtain ⟨d, hd, rfl⟩ := List.mem_map.1 hg
    rw [he]
    exact hpre d hd
  have hf : fieldsOf (pre ++ (sf, v) :: post) = fieldsOf pre ++ mkField (sf, v) :: fieldsOf post := by
    simp [fieldsOf]
  have hm := fun inner => assignField_mismatch inner fo e (mkField (sf, v)) (htag.trans he.symm)
    (htag ▸ hk.2.1) hel (IsArray_of_Kind hv)
  simp only [Unmarshal]
  rw [hlines]
  have h0 := unmarshalLoop_entry fo doc.length []
    rest (fieldsOf (pre ++ (sf, v) :: post)) (by simp) hk hne hh hl hc
  simp only [List.nil_append] at h0
  rw [h0, hval]
  simp only
  rw [hf, assignFields_stop _ fo e _ _ _ _ _ hA (hm _)]
  simp only
  rw [← hf, store_fieldsOf]

/-- The lines of a document that consists of one entry line. -/
theorem scanLines_entry_line {k val : Str} (hk : IsKey k) (hne : val ≠ [])
    (hl : ∀ c, val.getLast? = some c → isSpace c = false) (hnl : '\n' ∉ val)
    (hs : byteLen (k ++ ':' :: ' ' :: val) < MaxScanTokenSize) :
    scanLines (k ++ ':' :: ' ' :: val) = [k ++ ':' :: ' ' :: val] := by
  have hnl2 : '\n' ∉ k ++ ':' :: ' ' :: val := by
    simp only [List.mem_append, List.mem_cons, not_or]
    exact ⟨hk.not_mem_nl, by decide, by decide, hnl⟩
  have hcr : dropCR (k ++ ':' :: ' ' :: val) = k ++ ':' :: ' ' :: val := by
    apply dropCR_of_getLast
    rw [List.getLast?_append_of_ne_nil _ (by simp), List.getLast?_cons_cons,
      getLast?_cons_of_ne hne]
    intro h
    have := hl _ h
    rw [isSpace_cr] at this
    exact absurd this (by simp)
  rw [scanLines_single hnl2 (by simp) hs, hcr]

/-- The text between the brackets of a value `p[body]s`. -/
theorem slice_infix (p body s : Str) :
    slice (p ++ '[' :: (body ++ ']' :: s)) ((p.length : Int) + 1)
      ((p.length : Int) + 1 + (body.length : Int)) = some body := by
  unfold slice
  have hlen : (p ++ '[' :: (body ++ ']' :: s)).length = p.length + 1 + body.length + 1 + s.length := by
    simp
    omega
  rw [if_pos ⟨by omega, by omega, by rw [hlen]; push_cast; omega⟩]
  have h1 : ((p.length : Int) + 1 + (body.length : Int)).toNat = (p ++ ['[']).length + body.length := by
    simp
    omega
  have h2 : ((p.length : Int) + 1).toNat = (p ++ ['[']).length := by
    simp
  have h3 : p ++ '[' :: (body ++ ']' :: s) = (p ++ ['[']) ++ (body ++ ']' :: s) := by simp
  rw [h1, h2, h3, List.take_append, List.drop_left, List.take_left]

/-- The entry read from a value `p[body]s` in which the first opening bracket
precedes the first closing bracket and no brace is opened. -/
theorem parseValue_bracketed (k p body s : Str) (rest lines : List Str)
    (hp1 : '[' ∉ p) (hp2 : ']' ∉ p) (hb : ']' ∉ body)
    (hbr : lbrace ∉ p ++ '[' :: (body ++ ']' :: s))
    (hlines : removeCommas (if (Split (TrimSpace body) ' ').length = 1
        then Split (TrimSpace body) ',' else Split (TrimSpace body) ' ') = .ok lines) :
    parseValue k (p ++ '[' :: (body ++ ']' :: s)) rest =
      .ok ({ key := k, value := TrimSpace body, lines := lines, innerData := [] }, rest) := by
  have h1 : Index (p ++ '[' :: (body ++ ']' :: s)) '[' = (p.length : Int) :=
    Index_append_cons _ hp1
  have h2 : Index (p ++ '[' :: (body ++ ']' :: s)) ']'
      = (p.length : Int) + 1 + (body.length : Int) := by
    have h := @Index_append_cons (p ++ '[' :: body) ']' s (by
      simp only [List.mem_append, List.mem_cons, not_or]
      exact ⟨hp2, by decide, hb⟩)
    have h0 : p ++ '[' :: (body ++ ']' :: s) = (p ++ '[' :: body) ++ ']' :: s := by simp
    rw [h0, h]
    simp
    omega
  have h3 : Index (p ++ '[' :: (body ++ ']' :: s)) lbrace = -1 := Index_of_not_mem hbr
  have h5 : ¬ ((p.length : Int) + 1 + (body.length : Int) < 0) := by omega
  have h6 : (0 : Int) ≤ (p.length : Int) + 1 + (body.length : Int) := by omega
  have h7 : (0 : Int) ≤ (p.length : Int) := by omega
  unfold parseValue
  simp only [h1, h2, h3, ge_iff_le, h5, h6, h7, and_false, and_self, ↓reduceIte,
    oneLineArray, slice_infix, hlines]
  simp

/-- The trailing commas are removed from pieces that are not empty. -/
theorem removeCommas_of_ne_nil {ls : List Str} (h : ∀ l ∈ ls, l ≠ []) :
    ∃ lines, removeCommas ls = .ok lines ∧ lines.length = ls.length := by
  induction ls with
  | nil => exact ⟨[], rfl, rfl⟩
  | cons l r ih =>
    obtain ⟨lines, hr, hlen⟩ := ih fun x hx => h x (List.mem_cons_of_mem _ hx)
    obtain ⟨c, hc⟩ : ∃ c, l.getLast? = some c :=
      ⟨_, List.getLast?_eq_getLast _ (h l (by simp))⟩
    by_cases hcomma : c = ','
    · refine ⟨l.dropLast :: lines, ?_, by simp [hlen]⟩
      simp [removeCommas, removeCommaFromEnd, hc, hcomma, hr]
    · refine ⟨l :: lines, ?_, by simp [hlen]⟩
      simp [removeCommas, removeCommaFromEnd, hc, hcomma, hr]

/-- Decoding a one-line entry whose value `p[body]s` holds an opening bracket
before its first closing bracket, when every piece of the text between them is
non-empty, into a record whose first field with the key is not a slice. -/
theorem Unmarshal_bracketed_mismatch (fo : FloatOps F) (k p body s : Str)
    (sf : StructField) (v : Value F) (pre post : List (StructField × Value F))
    (hk : IsKey k) (htag : (mkField (sf, v)).Tag = k) (hv : v.Kind ≠ Kind.Slice)
    (hpre : ∀ d ∈ pre, (mkField d).Tag ≠ k)
    (hp1 : '[' ∉ p) (hp2 : ']' ∉ p) (hb : ']' ∉ body)
    (hval : ∀ c ∈ p ++ '[' :: (body ++ ']' :: s), c ≠ '#' ∧ c ≠ lbrace ∧ c ≠ '\n')
    (hh : ∀ c, (p ++ '[' :: (body ++ ']' :: s)).head? = some c → isSpace c = false)
    (hl : ∀ c, (p ++ '[' :: (body ++ ']' :: s)).getLast? = some c → isSpace c = false)
    (hpieces : ∀ l ∈ (if (Split (TrimSpace body) ' ').length = 1
        then Split (TrimSpace body) ',' else Split (TrimSpace body) ' '), l ≠ [])
    (hshort : byteLen (k ++ ':' :: ' ' :: (p ++ '[' :: (body ++ ']' :: s)))
      < MaxScanTokenSize) :
    Unmarshal fo (k ++ ':' :: ' ' :: (p ++ '[' :: (body ++ ']' :: s)))
        (.pointer (some (.struct (pre ++ (sf, v) :: post))))
      = (some (.error .arrayIntoNonSlice),
          .pointer (some (.struct (pre ++ (sf, v) :: post)))) := by
  obtain ⟨lines, hlines, hlen⟩ := removeCommas_of_ne_nil hpieces
  have hne : lines ≠ [] := by
    intro h0
    rw [h0] at hlen
    have hnil := List.length_eq_zero.1 hlen.symm
    split_ifs at hnil
    · exact Split_ne_nil _ _ hnil
    · exact Split_ne_nil _ _ hnil
  exact Unmarshal_block_mismatch fo pre post sf v
    (scanLines_entry_line hk (by simp) hl (fun h => (hval _ h).2.2 rfl) hshort) hk (by simp)
    hh hl (fun h => (hval _ h).1 rfl) htag hv hpre
    (parseValue_bracketed k p body s [] lines hp1 hp2 hb (fun h => (hval _ h).2.1 rfl) hlines)
    rfl hne

/-- C16, amended. Array into a non-array field: for every key `k` and every
record in which the first field with external key `k` is not a slice (a scalar
or a nested record), `Unmarshal` returns the array-into-non-slice error and
leaves every field of the record at its pre-decode value for (1) every one-line
document `k: val` shorter than the 64 KiB limit of the scanner whose value
`val = p[body]s`, written without surrounding white space, comment marker or
opening brace, holds an opening bracket before its first closing bracket, when
every piece of the trimmed text between the two brackets (the pieces between
spaces, or between commas when there is no space) is non-empty; and (2) every
terminated multi-line array of key `k` with one quoted token per line, at least
one token, and lines shorter than the limit. -/
theorem array_into_non_array (fo : FloatOps F) (k : Str)
    (sf : StructField) (v : Value F) (pre post : List (StructField × Value F))
    (hk : IsKey k) (htag : (mkField (sf, v)).Tag = k) (hv : v.Kind ≠ Kind.Slice)
    (hpre : ∀ d ∈ pre, (mkField d).Tag ≠ k) :
    (∀ val p body s : Str, val = p ++ '[' :: (body ++ ']' :: s) →
      '[' ∉ p → ']' ∉ p → ']' ∉ body →
      (∀ c ∈ val, c ≠ '#' ∧ c ≠ lbrace ∧ c ≠ '\n') →
      (∀ c, val.head? = some c → isSpace c = false) →
      (∀ c, val.getLast? = some c → isSpace c = false) →
      (∀ l ∈ (if (Split (TrimSpace body) ' ').length = 1
        then Split (TrimSpace body) ',' else Split (TrimSpace body) ' '), l ≠ []) →
      byteLen (k ++ [':', ' '] ++ val) < MaxScanTokenSize →
      Unmarshal fo (k ++ [':', ' '] ++ val) (.pointer (some (.struct (pre ++ (sf, v) :: post))))
        = (some (.error .arrayIntoNonSlice),
            .pointer (some (.struct (pre ++ (sf, v) :: post))))) ∧
    (∀ (ts : List Str) (commas : List Bool), ts ≠ [] →
      (∀ t ∈ ts, ∀ c ∈ t, tokenChar c = true) → commas.length = ts.length →
      ShortLines (arrayMultiLineForm k ts commas) →
      Unmarshal fo (arrayMultiLineForm k ts commas)
          (.pointer (some (.struct (pre ++ (sf, v) :: post))))
        = (some (.error .arrayIntoNonSlice),
            .pointer (some (.struct (pre ++ (sf, v) :: post))))) := by
  constructor
  · intro val p body s hv0 hp1 hp2 hb hval hh hl hpieces hshort
    subst hv0
    have h0 : k ++ [':', ' '] ++ (p ++ '[' :: (body ++ ']' :: s))
        = k ++ ':' :: ' ' :: (p ++ '[' :: (body ++ ']' :: s)) := by simp
    rw [h0] at hshort ⊢
    exact Unmarshal_bracketed_mismatch fo k p body s sf v pre post hk htag hv hpre hp1 hp2 hb
      hval hh hl hpieces hshort
  · intro ts commas hne ht hc hshort
    have hmap : ts.map dquote ≠ [] := by simpa using hne
    have hlines : scanLines (arrayMultiLineForm k ts commas)
        = (k ++ ':' :: ' ' :: ['[']) :: (List.zipWith arrayLine ts commas ++ [[']']]) := by
      rw [scanLines_eq_allLines hshort, allLines_multiLineForm k ts commas hk ht]
    exact Unmarshal_block_mismatch fo pre post sf v hlines hk
      (by simp) (by decide) (by decide) (by decide) htag hv hpre
      (parseValue_multiLineArray k ts commas hc ht) rfl hmap

end Cfg

namespace Cfg

variable {F : Type}

/-! ## Arrays that are not closed -/

theorem removeCommaFromEnd_ne_nil {s : Str} (h : s ≠ []) :
    ∃ r, removeCommaFromEnd s = .ok r ∧ ∀ c ∈ r, c ∈ s := by
  unfold removeCommaFromEnd
  cases hl : s.getLast? with
  | none => exact absurd (List.getLast?_eq_none_iff.1 hl) h
  | some c =>
    by_cases hc : c = ','
    · exact ⟨s.dropLast, by simp [hc], fun x hx => List.mem_of_mem_dropLast hx⟩
    · exact ⟨s, by simp [hc], fun x hx => hx⟩

theorem mem_of_mem_validLine {raw l : Str} (h : validLine raw = some l) : ∀ c ∈ l, c ∈ raw := by
  unfold validLine at h
  simp only at h
  split_ifs at h
  · simp only [Option.some.injEq] at h
    subst h
    intro c hc
    exact List.mem_of_mem_take (mem_of_mem_TrimSpace hc)
  · simp only [Option.some.injEq] at h
    subst h
    exact fun c hc => hc

/-- The multi-line array loop ends with the end-of-file error when no line left
holds a closing bracket and none of the lines it reads is empty once trimmed. -/
theorem scanArray_unterminated (rest : List Str) (n : Nat) (lines : List Str) (hn : 0 < n)
    (h : ∀ raw ∈ rest, ']' ∉ raw ∧ ∀ l, validLine raw = some l → TrimSpace l ≠ []) :
    scanArray rest n lines = .error (.error .endOfFile) := by
  induction rest generalizing n lines with
  | nil => rfl
  | cons raw rest ih =>
    have hr := h raw (by simp)
    have hrest : ∀ r ∈ rest, ']' ∉ r ∧ ∀ l, validLine r = some l → TrimSpace l ≠ [] :=
      fun r hm => h r (List.mem_cons_of_mem _ hm)
    rw [scanArray]
    cases hv : validLine raw with
    | none => exact ih n lines hn hrest
    | some l =>
      obtain ⟨r, hrc, hsub⟩ := removeCommaFromEnd_ne_nil (hr.2 l hv)
      have hnot : ']' ∉ r := fun hm =>
        hr.1 (mem_of_mem_validLine hv _ (mem_of_mem_TrimSpace (hsub _ hm)))
      have hi : ¬ (Index r ']' ≥ 0) := by
        rw [Index_of_not_mem hnot]
        decide
      simp only [hrc, hi, if_false]
      by_cases hc : Contains r '[' = true
      · simp only [hc, if_true, Nat.add_one_ne_zero, if_false]
        exact ih _ _ (Nat.succ_pos _) hrest
      · have hc2 : Contains r '[' = false := by simpa using hc
        simp only [hc2, Bool.false_eq_true, if_false, Nat.pos_iff_ne_zero.1 hn]
        exact ih _ _ hn hrest

/-- Decoding a document whose first line is an entry with `[` and no `]` in its
value, followed by lines of which none holds a closing bracket and none is empty
once trimmed: the end-of-file error, whatever the record and its keys, and the
record as it was. -/
theorem Unmarshal_unterminated (fo : FloatOps F) {doc k val : Str} {rest : List Str}
    (decls : List (StructField × Value F))
    (hlines : scanLines doc = (k ++ ':' :: ' ' :: val) :: rest)
    (hk : IsKey k) (hh : ∀ c, val.head? = some c → isSpace c = false)
    (hl : ∀ c, val.getLast? = some c → isSpace c = false) (hc : '#' ∉ val)
    (hopen : '[' ∈ val) (hclose : ']' ∉ val)
    (hrest : ∀ raw ∈ rest, ']' ∉ raw ∧ ∀ l, validLine raw = some l → TrimSpace l ≠ []) :
    Unmarshal fo doc (.pointer (some (.struct decls)))
      = (some (.error .endOfFile), .pointer (some (.struct decls))) := by
  have hne : val ≠ [] := List.ne_nil_of_mem hopen
  have h1 : Index val '[' ≥ 0 := Index_nonneg_iff.2 hopen
  have h2 : Index val ']' < 0 := by
    rw [Index_of_not_mem hclose]
    decide
  have hval : parseValue k val rest = .error (.error .endOfFile) := by
    unfold parseValue
    simp only [h1, h2, and_self, if_true, scanArray_unterminated rest 1 [] Nat.one_pos hrest]
  simp only [Unmarshal]
  rw [hlines]
  have h0 := unmarshalLoop_entry fo doc.length [] rest (fieldsOf decls) (by simp) hk hne hh hl hc
  simp only [List.nil_append] at h0
  rw [h0, hval]
  simp only
  rw [store_fieldsOf]

end Cfg

namespace Cfg

/-! ## Closed instances: targets, encodings, coercions -/

set_option maxRecDepth 100000

/-- C11, at the integer target of the test "invalid pointer". -/
theorem invalid_decode_target_witness :
    ¬ (Arg.value (.int .Int 10) : Arg Unit).IsStructPointer ∧
    ∃ e ∈ [Err.decodeNotPointer, Err.decodeNil, Err.decodeNotStruct],
      ∀ data, Unmarshal unitFloat data (.value (.int .Int 10))
        = (some (.error e), .value (.int .Int 10)) :=
  ⟨fun h => h, invalid_decode_target unitFloat (.value (.int .Int 10)) fun h => h⟩

/-- C12, the code at failing inputs: `Marshal` of an integer, of a string and of
a slice panics inside reflection instead of returning an error, and so does
`Marshal` of a nil interface; of the values that are not structs only pointers
make it return the error. -/
theorem marshal_non_struct_panics :
    Marshal unitFloat (.value (.int .Int 10)) = .error (.panic .reflect) ∧
    Marshal unitFloat (.value (.string ['a'])) = .error (.panic .reflect) ∧
    Marshal unitFloat (.value (.slice (.strings [['a']]))) = .error (.panic .reflect) ∧
    Marshal unitFloat .nil = .error (.panic .reflect) ∧
    Marshal unitFloat (.pointer (some (.struct exValue))) = .error (.error .encodeNotStruct) :=
  ⟨rfl, rfl, rfl, rfl, rfl⟩

/-- C13, at the record of the test "encode simple values" (string, bool, int and
uint fields). -/
theorem scalar_record_encoding_witness :
    (∀ d ∈ exSimple, IsPlainScalar d.2) ∧
    Marshal unitFloat (.value (.struct exSimple))
      = .ok (Join ((exSimple.filter fun d => decide ((mkField d).Tag ≠ ['-'])).map plainEntry)
          [',', '\n']) ∧
    Join ((exSimple.filter fun d => decide ((mkField d).Tag ≠ ['-'])).map plainEntry) [',', '\n']
      = "TestStr: 'this is a string',\nTestBool: true,\nTestInt: -100,\ntest_uint: 100".toList :=
  ⟨by decide, scalar_record_encoding unitFloat exSimple (by decide), by decide⟩

/-- C14, at the record of the test "encode slice". -/
theorem array_entry_encoding_witness :
    (mkField (declared "StringSlice" "", (Value.slice (.strings [['a'], ['b'], ['c']]) :
      Value Unit))).Tag ≠ ['-'] ∧
    marshalLines unitFloat [] = .ok [] ∧
    Marshal unitFloat (.value (.struct
        ([] ++ (declared "StringSlice" "", .slice (.strings [['a'], ['b'], ['c']])) :: [])))
      = .ok "StringSlice: [\n  'a',\n  'b',\n  'c'\n]".toList :=
  ⟨by decide, rfl,
    array_entry_encoding unitFloat (declared "StringSlice" "") [['a'], ['b'], ['c']] [] [] [] []
      (by decide) rfl rfl⟩

/-- C15, at the record of the test "encode inner struct" and at a nested record
with a field the encoder has no rule for. -/
theorem nested_entry_encoding_witness :
    (declared "StructSlice" "struct_slice").IsExported = true ∧
    (declared "Inner" "inner").IsExported = true ∧
    Marshal unitFloat (.value (.struct
        [(declared "Working" "", .bool true), (declared "IntVal" "", .int .Int 42)]))
      = .ok "Working: true,\nIntVal: 42".toList ∧
    Marshal unitFloat (.value (.struct ([] ++ (declared "StructSlice" "struct_slice",
        .struct [(declared "Working" "", .bool true), (declared "IntVal" "", .int .Int 42)])
        :: [])))
      = .ok "struct_slice: \x7b\n  Working: true,\n  IntVal: 42\n\x7d".toList ∧
    Marshal unitFloat (.value (.struct [(declared "M" "m", .other 0)]))
      = .error (.error (.wrap .marshalField .couldNotEncode)) ∧
    Marshal unitFloat (.value (.struct ([] ++ (declared "Inner" "inner",
        .struct [(declared "M" "m", .other 0)]) :: [])))
      = .error (.error (.wrap .marshalInner (.wrap .marshalField .couldNotEncode))) :=
  ⟨rfl, rfl, rfl,
    (nested_entry_encoding unitFloat (declared "StructSlice" "struct_slice")
      [(declared "Working" "", .bool true), (declared "IntVal" "", .int .Int 42)] [] []
      (by decide) rfl).1 "Working: true,\nIntVal: 42".toList [] [] rfl rfl rfl,
    rfl,
    ((nested_entry_encoding unitFloat (declared "Inner" "inner")
      [(declared "M" "m", .other 0)] [] [] (by decide) rfl).2
      (.wrap .marshalField .couldNotEncode) rfl).1 [] rfl⟩

/-- C16, the claim at inputs where it fails: an array that is opened and never
closed ends with the end-of-file error, not the type error, the string field
keeping its value; and after a multi-line array that is closed before any
element, the string field is assigned the text of the opening bracket and the
call returns a nil error. -/
theorem array_into_scalar_counterexample :
    Unmarshal unitFloat "value: [".toList (.pointer (some (.struct exValue)))
      = (some (.error .endOfFile), .pointer (some (.struct exValue))) ∧
    Unmarshal unitFloat "value: [\n]".toList (.pointer (some (.struct exValue)))
      = (none, .pointer (some (.struct [(declared "Value" "value", .string ['['])]))) :=
  ⟨rfl, rfl⟩

/-- C16 amended, at the key `value` and the string field of the test "simple
value": the one-line values `[a b]`, `['a','b']`, `x[1]` and `[a]`, and the
multi-line array of the array tests. -/
theorem array_into_non_array_witness :
    IsKey "value".toList ∧
    (Value.string [] : Value Unit).Kind ≠ Kind.Slice ∧
    (∀ doc ∈ ["value: [a b]".toList, "value: ['a','b']".toList, "value: x[1]".toList,
        "value: [a]".toList], byteLen doc < MaxScanTokenSize) ∧
    ShortLines (arrayMultiLineForm "value".toList ["node-module".toList, "csharp-module".toList]
      [true, false]) ∧
    ∀ doc ∈ ["value: [a b]".toList, "value: ['a','b']".toList, "value: x[1]".toList,
        "value: [a]".toList,
        arrayMultiLineForm "value".toList ["node-module".toList, "csharp-module".toList]
          [true, false]],
      Unmarshal unitFloat doc
          (.pointer (some (.struct ([] ++ (declared "Value" "value", .string []) :: []))))
        = (some (.error .arrayIntoNonSlice),
            .pointer (some (.struct ([] ++ (declared "Value" "value", .string []) :: [])))) := by
  have h := array_into_non_array unitFloat "value".toList (declared "Value" "value")
    (.string []) [] [] (by decide) (by decide) (by decide) (by decide)
  refine ⟨by decide, by decide, by decide, by decide, ?_⟩
  intro doc hdoc
  simp only [List.mem_cons, List.mem_singleton, List.not_mem_nil, or_false] at hdoc
  rcases hdoc with rfl | rfl | rfl | rfl | rfl
  · exact h.1 "[a b]".toList [] "a b".toList [] rfl (by decide) (by decide) (by decide)
      (by decide) (by decide) (by decide) (by decide) (by decide)
  · exact h.1 "['a','b']".toList [] "'a','b'".toList [] rfl (by decide) (by decide)
      (by decide) (by decide) (by decide) (by decide) (by decide) (by decide)
  · exact h.1 "x[1]".toList ['x'] ['1'] [] rfl (by decide) (by decide) (by decide)
      (by decide) (by decide) (by decide) (by decide) (by decide)
  · exact h.1 "[a]".toList [] ['a'] [] rfl (by decide) (by decide) (by decide)
      (by decide) (by decide) (by decide) (by decide) (by decide)
  · exact h.2 ["node-module".toList, "csharp-module".toList] [true, false] (by decide)
      (by decide) (by decide) (by decide)

/-- C17, the code at failing inputs: an array that is never closed ends with the
end-of-file error when the lines after it hold elements, and with an index out of
range panic when one of them consists of white space, whether the key is that of
a field or not. -/
theorem unterminated_array_blank_line_panics :
    Unmarshal unitFloat "modules: [\n  \"a\"".toList (.pointer (some (.struct exModules)))
      = (some (.error .endOfFile), .pointer (some (.struct exModules))) ∧
    (Unmarshal unitFloat "modules: [\n  \"a\"\n  ".toList
      (.pointer (some (.struct exModules)))).1 = some (.panic .indexOutOfRange) ∧
    (Unmarshal unitFloat "other: [\n  \n".toList
      (.pointer (some (.struct exModules)))).1 = some (.panic .indexOutOfRange) :=
  ⟨rfl, by decide, by decide⟩

/-- C18, at a document that begins with a comment, an empty line and a line of
white space, followed by a line without the separator. -/
theorem malformed_first_line_witness :
    scanLines "# settings\n\n  \nvalue test\nvalue: x".toList
      = ["# settings".toList, [], "  ".toList] ++ "value test".toList :: ["value: x".toList] ∧
    (∀ s ∈ ["# settings".toList, [], "  ".toList], IsBlankOrComment s) ∧
    ¬ IsBlankOrComment "value test".toList ∧ ':' ∉ "value test".toList ∧
    Unmarshal unitFloat "# settings\n\n  \nvalue test\nvalue: x".toList
        (.pointer (some (.struct exValue)))
      = (some (.error .couldNotDecodeLine), .pointer (some (.struct exValue))) :=
  ⟨by decide, by decide, by decide, by decide,
    malformed_first_line unitFloat "# settings\n\n  \nvalue test\nvalue: x".toList exValue
      ["# settings".toList, [], "  ".toList] "value test".toList ["value: x".toList]
      (by decide) (by decide) (by decide) (by decide)⟩

/-- C19, at the tokens `YES` and `True`, which read as true, and at the token
`No` and the record of the test "bool value" holding `true`. -/
theorem boolean_coercion_witness :
    "YES".toList ∈ trueTokens ∧ boolValue "YES".toList = true ∧
    ToLower "True".toList ∈ [['t'], ['t', 'r', 'u', 'e'], ['y'], ['y', 'e', 's'], ['1']] ∧
    boolValue "True".toList = true ∧
    IsKey "value".toList ∧ (declared "Value" "value").IsExported = true ∧
    (∀ c ∈ "No".toList, tokenChar c = true) ∧ "No".toList ∉ trueTokens ∧
    byteLen ("value".toList ++ [':', ' '] ++ "No".toList) < MaxScanTokenSize ∧
    Unmarshal unitFloat ("value".toList ++ [':', ' '] ++ "No".toList)
        (.pointer (some (.struct ([] ++ (declared "Value" "value", .bool true) :: []))))
      = (none, .pointer (some (.struct ([] ++ (declared "Value" "value", .bool false) :: [])))) :=
  ⟨by decide, (boolean_coercion unitFloat "YES".toList).1.2 (by decide),
    by decide, (boolean_coercion unitFloat "True".toList).2.1.2 (by decide),
    by decide, by decide, by decide, by decide, by decide,
    (boolean_coercion unitFloat "No".toList).2.2 "value".toList (declared "Value" "value") true
      [] [] (by decide) (by decide) (by decide) (by decide) (by decide) (by decide) (by decide)
      (by decide)⟩

/-- C20, at the token `12a` and the record of the test "int value" holding a
non-zero number. -/
theorem silent_zero_on_bad_numbers_witness :
    IsKey "value".toList ∧ (declared "Value" "value").IsExported = true ∧
    (∀ c ∈ "12a".toList, tokenChar c = true) ∧
    signedNumeral "12a".toList = none ∧
    byteLen ("value".toList ++ [':', ' '] ++ "12a".toList) < MaxScanTokenSize ∧
    Unmarshal unitFloat ("value".toList ++ [':', ' '] ++ "12a".toList)
        (.pointer (some (.struct ([] ++ (declared "Value" "value", .int .Int 7) :: []))))
      = (none, .pointer (some (.struct ([] ++ (declared "Value" "value", .int .Int 0) :: [])))) :=
  ⟨by decide, by decide, by decide, by decide, by decide,
    ((silent_zero_on_bad_numbers unitFloat "12a".toList).2.2.2.2 "value".toList
      (declared "Value" "value") [] [] (by decide) (by decide) (by decide) (by decide)
      (by decide) (by decide) (by decide)).1 .Int 7 (by decide)⟩

end Cfg

namespace Cfg

variable {F : Type}

/-! ## The comment marker inside a value -/

/-- One iteration of the main loop on a line `key: value#tail`: the value is cut
at the first comment marker, whatever surrounds it. -/
theorem unmarshalLoop_entry_comment (fo : FloatOps F) (n : Nat) {k val : Str} (tail : Str)
    (rest : List Str) (fields : List (field F))
    (hk : IsKey k) (hne : val ≠ []) (hh : ∀ c, val.head? = some c → isSpace c = false)
    (hl : ∀ c, val.getLast? = some c → isSpace c = false) (hc : '#' ∉ val)
    (ht : ∀ c, (val ++ '#' :: tail).getLast? = some c → isSpace c = false) :
    unmarshalLoop fo (n + 1) ((k ++ ':' :: ' ' :: (val ++ '#' :: tail)) :: rest) fields =
      match parseValue k val rest with
      | .error p => (some p, fields)
      | .ok (e, rest1) =>
        match assignFields (unmarshalLoop fo n) fo e fields with
        | (some p, fields1) => (some p, fields1)
        | (none, fields1) => unmarshalLoop fo n rest1 fields1 := by
  have hskip : ¬ ((k ++ ':' :: ' ' :: (val ++ '#' :: tail)).length < 1 ∨
      (k ++ ':' :: ' ' :: (val ++ '#' :: tail)).head? = some '#') := by
    simp only [not_or]
    refine ⟨by simp, ?_⟩
    obtain ⟨hk1, _, hk3⟩ := hk
    cases k with
    | nil => exact absurd rfl hk1
    | cons x xs =>
      have := keyChar_ne_hash (hk3 x (by simp))
      simpa using this
  have hh2 : ∀ c, (val ++ '#' :: tail).head? = some c → isSpace c = false := by
    intro c hc2
    cases val with
    | nil => exact absurd rfl hne
    | cons x xs => exact hh c (by simpa using hc2)
  have h0 := @TrimSpace_entry_line [] k (val ++ '#' :: tail) (by simp) hk ht (by simp)
  simp only [List.nil_append] at h0
  rw [unmarshalLoop_succ, h0, if_neg hskip,
    parseEntry_same_line rest hk.not_mem_colon (by simp), TrimSpace_cons_space,
    TrimSpace_of_ends hh2 ht, removeComment_append_cons tail hc, TrimSpace_of_ends hh hl,
    hk.TrimSpace]
  try rfl

/-- The function `unwrapQuotationMarks` on a text whose last character is not a
quotation mark. -/
theorem unwrap_unmatched {s : Str} {c : Char} (h : s.getLast? = some c) (h1 : c ≠ sq)
    (h2 : c ≠ dq) : unwrapQuotationMarks s = .ok s := by
  cases s with
  | nil => simp at h
  | cons x xs =>
    unfold unwrapQuotationMarks
    simp [h, h1, h2]

/-- C21, amended. Comment marker inside quotes: for every key `k`, either
quotation mark `q`, every non-empty token `a` of token characters and every text
`b` without a line feed, decoding the document `k: qa#bq`, shorter than the
64 KiB limit of the scanner, into a record in which exactly one field, an
exported string, carries the key `k` returns a nil error and sets that field to
the opening quotation mark followed by `a`: the value is cut at its first `#`,
also when the `#` lies between quotation marks. -/
theorem comment_marker_inside_quotes (fo : FloatOps F) (k a b old : Str) (q : Char)
    (sf : StructField) (pre post : List (StructField × Value F))
    (hk : IsKey k) (htag : (mkField (sf, (Value.string old : Value F))).Tag = k)
    (hexp : sf.IsExported = true)
    (hother : ∀ d ∈ pre ++ post, (mkField d).Tag ≠ k)
    (hq : q = sq ∨ q = dq) (hne : a ≠ []) (ha : ∀ c ∈ a, tokenChar c = true) (hb : '\n' ∉ b)
    (hshort : byteLen (k ++ [':', ' ', q] ++ a ++ ['#'] ++ b ++ [q]) < MaxScanTokenSize) :
    Unmarshal fo (k ++ [':', ' ', q] ++ a ++ ['#'] ++ b ++ [q])
        (.pointer (some (.struct (pre ++ (sf, .string old) :: post))))
      = (none, .pointer (some (.struct (pre ++ (sf, .string (q :: a)) :: post)))) := by
  have hqs : isSpace q = false := by rcases hq with rfl | rfl <;> decide
  have hqp : plainChar q := by rcases hq with rfl | rfl <;> decide
  have hqn : q ≠ '\n' := by rcases hq with rfl | rfl <;> decide
  have hqh : q ≠ '#' := by rcases hq with rfl | rfl <;> decide
  obtain ⟨y, hy⟩ : ∃ y, a.getLast? = some y := ⟨_, List.getLast?_eq_getLast _ hne⟩
  have hyt := tokenChar_iff.1 (ha y (List.mem_of_mem_getLast? hy))
  have hlast : (q :: a).getLast? = some y := by rw [getLast?_cons_of_ne hne, hy]
  have hdoc : k ++ [':', ' ', q] ++ a ++ ['#'] ++ b ++ [q]
      = k ++ ':' :: ' ' :: ((q :: a) ++ '#' :: (b ++ [q])) := by simp
  have hend : ∀ c, ((q :: a) ++ '#' :: (b ++ [q])).getLast? = some c → isSpace c = false := by
    intro c hc
    have : ((q :: a) ++ '#' :: (b ++ [q])) = ((q :: a) ++ '#' :: b) ++ [q] := by simp
    rw [this, List.getLast?_append_of_ne_nil _ (by simp)] at hc
    simp only [List.getLast?_singleton, Option.some.injEq] at hc
    rw [← hc]
    exact hqs
  have hnl : '\n' ∉ (q :: a) ++ '#' :: (b ++ [q]) := by
    simp only [List.mem_append, List.mem_cons, List.mem_singleton, List.not_mem_nil, or_false,
      not_or]
    refine ⟨⟨fun h => hqn h.symm, fun h => ?_⟩, by decide, hb, fun h => hqn h.symm⟩
    exact absurd (tokenChar_iff.1 (ha _ h)).1 (by decide)
  have hlines : scanLines (k ++ ':' :: ' ' :: ((q :: a) ++ '#' :: (b ++ [q])))
      = [k ++ ':' :: ' ' :: ((q :: a) ++ '#' :: (b ++ [q]))] :=
    scanLines_entry_line hk (by simp) hend hnl (hdoc ▸ hshort)
  have hplain : ∀ c ∈ q :: a, c ≠ '[' ∧ c ≠ ']' ∧ c ≠ lbrace ∧ c ≠ rbrace := by
    intro c hc
    have hp : plainChar c := by
      rcases List.mem_cons.1 hc with rfl | hc
      · exact hqp
      · exact plainChar_of_token (ha c hc)
    exact ⟨hp.2.1, hp.2.2.1, hp.2.2.2.1, hp.2.2.2.2.1⟩
  have hhash : '#' ∉ q :: a := by
    simp only [List.mem_cons, not_or]
    exact ⟨fun h => hqh h.symm, fun h => (tokenChar_iff.1 (ha _ h)).2.1 rfl⟩
  have hset : setValue fo (mkField (sf, (Value.string old : Value F))) (q :: a)
      = .ok { Tag := k, Value := .string (q :: a) } := by
    rw [mkField_of_exported sf _ hexp, htag]
    rfl
  have hassign := fun inner : List Str → List (field F) → Option Fault × List (field F) =>
    assignField_simple inner fo htag hk.2.1
      (removeCommaFromEnd_other hlast hyt.2.2.2.2.2.2.1)
      (unwrap_unmatched hlast hyt.2.2.2.2.2.2.2.1 hyt.2.2.2.2.2.2.2.2) hset
  have hA : ∀ g ∈ fieldsOf pre, g.Tag ≠ k := by
    intro g hg
    obtain ⟨d, hd, rfl⟩ := List.mem_map.1 hg
    exact hother d (List.mem_append_left _ hd)
  have hB : ∀ g ∈ fieldsOf post, g.Tag ≠ k := by
    intro g hg
    obtain ⟨d, hd, rfl⟩ := List.mem_map.1 hg
    exact hother d (List.mem_append_right _ hd)
  have hf : fieldsOf (pre ++ (sf, (Value.string old : Value F)) :: post)
      = fieldsOf pre ++ mkField (sf, .string old) :: fieldsOf post := by
    simp [fieldsOf]
  rw [hdoc]
  simp only [Unmarshal]
  rw [hlines, unmarshalLoop_entry_comment fo _ (b ++ [q]) [] _ hk (by simp)
    (fun c hc => by simp only [List.head?_cons, Option.some.injEq] at hc; rw [← hc]; exact hqs)
    (fun c hc => by rw [hlast] at hc; cases hc; exact hyt.1) hhash hend,
    parseValue_plain k (q :: a) [] hplain]
  simp only
  rw [hf, assignFields_unique _ fo _ _ _ _ hA hB, hassign]
  simp only [unmarshalLoop_nil]
  rw [store_update]

end Cfg

namespace Cfg

variable {F : Type}

/-! ## The keys of the descriptors -/

theorem mkField_resolvedKey (d : StructField × Value F) (h : TrimSpace d.1.Name = d.1.Name) :
    mkField d = { Tag := resolvedKey d.1, Value := d.2, Exported := d.1.IsExported } := by
  unfold mkField resolvedKey
  by_cases ht : d.1.Tag = []
  · simp [ht, h]
  · have hl : d.1.Tag.length ≠ 0 := fun hl => ht (List.length_eq_zero.1 hl)
    simp [ht, hl]

/-- C22, amended. Field mapping: for every record whose field names carry no
surrounding white space (every identifier), passed by value or through a
pointer with the same result, `extractFields` returns exactly one descriptor per
declared field, in declaration order, holding the value of the field, whether
the field is exported and, as external key, the tag with the surrounding white
space removed when the tag is not empty and the declared name verbatim
otherwise; this is the key of the specification for every field whose tag is
empty or keeps a character after trimming. -/
theorem field_mapping (decls : List (StructField × Value F))
    (hname : ∀ d ∈ decls, TrimSpace d.1.Name = d.1.Name) :
    extractFields (.pointer (some (.struct decls))) = extractFields (.value (.struct decls)) ∧
    extractFields (.value (.struct decls))
      = some (decls.map fun d =>
          ({ Tag := resolvedKey d.1, Value := d.2, Exported := d.1.IsExported } : field F)) ∧
    ∀ d ∈ decls, (d.1.Tag = [] ∨ TrimSpace d.1.Tag ≠ []) → resolvedKey d.1 = specifiedKey d.1 := by
  refine ⟨rfl, ?_, ?_⟩
  · simp only [extractFields, fieldsOf, Option.some.injEq]
    exact List.map_congr_left fun d hd => mkField_resolvedKey d (hname d hd)
  · intro d _ h
    unfold resolvedKey specifiedKey
    rcases h with h | h
    · simp [h, TrimSpace_nil]
    · have ht : d.1.Tag ≠ [] := by
        intro h0
        rw [h0, TrimSpace_nil] at h
        exact h rfl
      simp [h, ht]

end Cfg

namespace Cfg

variable {F : Type}

/-! ## Round trip of a slice of strings -/

theorem squote_getLast? (e : Str) : (squote e).getLast? = some sq := by
  unfold squote
  rw [getLast?_cons_of_ne (by simp)]
  simp

theorem mem_squote {e : Str} {c : Char} : c ∈ squote e ↔ c = sq ∨ c ∈ e := by
  simp only [squote, List.mem_cons, List.mem_append, List.mem_singleton, List.not_mem_nil,
    or_false]
  tauto

theorem plainChar_squote {e : Str} (he : CleanStr e) : ∀ c ∈ squote e, plainChar c := by
  intro c hc
  rcases mem_squote.1 hc with rfl | hc
  · decide
  · exact he c hc

theorem arrayEntry_eq (tag : Str) (es : List Str) :
    arrayEntry tag es
      = (tag ++ [':', ' ', '[']) ++ '\n' :: (Join (es.map elementLine) [',', '\n'] ++ '\n' :: [']']) := by
  unfold arrayEntry
  have h : (fun e : Str => [' ', ' ', sq] ++ e ++ [sq]) = elementLine := by
    funext e
    simp [elementLine, squote]
  rw [h]
  simp

/-- One turn of the multi-line array loop on the line of an element, with or
without a comma after it. -/
theorem scanArray_element (e suffix : Str) (rest acc : List Str) (he : CleanStr e)
    (hs : suffix = [] ∨ suffix = [',']) :
    scanArray ((elementLine e ++ suffix) :: rest) 1 acc = scanArray rest 1 (acc ++ [squote e]) := by
  have hp := plainChar_squote he
  have hhash : '#' ∉ elementLine e ++ suffix := by
    intro h
    simp only [elementLine, List.mem_append, List.mem_cons, List.not_mem_nil, or_false] at h
    rcases h with (h | h) | h
    · revert h; decide
    · exact (hp _ h).1 rfl
    · rcases hs with rfl | rfl
      · simp at h
      · revert h; simp
  have hv : validLine (elementLine e ++ suffix) = some (elementLine e ++ suffix) := by
    unfold validLine
    rw [if_neg (by simp [elementLine])]
    simp [Index_of_not_mem hhash]
  have hlast : ∀ x, (squote e ++ suffix).getLast? = some x → isSpace x = false := by
    intro x hx
    rcases hs with rfl | rfl
    · rw [List.append_nil, squote_getLast?] at hx
      cases hx
      decide
    · rw [List.getLast?_append_of_ne_nil _ (by simp)] at hx
      cases hx
      decide
  have htrim : TrimSpace (elementLine e ++ suffix) = squote e ++ suffix := by
    unfold elementLine
    rw [List.append_assoc, TrimSpace_leading _ (by decide)]
    refine TrimSpace_of_ends ?_ hlast
    intro x hx
    simp only [squote, List.cons_append, List.head?_cons, Option.some.injEq] at hx
    rw [← hx]
    decide
  have hrc : removeCommaFromEnd (squote e ++ suffix) = .ok (squote e) := by
    rcases hs with rfl | rfl
    · rw [List.append_nil]
      exact removeCommaFromEnd_other (squote_getLast? e) (by decide)
    · exact removeCommaFromEnd_comma _
  have hcn : Contains (squote e) '[' = false :=
    Contains_eq_false.2 fun h => (hp _ h).2.1 rfl
  have hi : Index (squote e) ']' = -1 := Index_of_not_mem fun h => (hp _ h).2.2.1 rfl
  have hlen : 0 < (squote e).length := by simp [squote]
  rw [scanArray]
  simp only [hv, htrim, hrc, hcn, Bool.false_eq_true, ↓reduceIte, hi, ge_iff_le, Int.reduceNeg,
    Left.nonneg_neg_iff, Int.reduceLE, gt_iff_lt, hlen, one_ne_zero]

/-- The multi-line array loop on the element lines `Marshal` writes, followed by
the closing bracket. -/
theorem scanArray_elements (es : List Str) (acc : List Str) (he : ∀ e ∈ es, CleanStr e) :
    scanArray (sepInit [','] (es.map elementLine) ++ [[']']]) 1 acc
      = .ok (acc ++ es.map squote, []) := by
  induction es generalizing acc with
  | nil =>
    have hv : validLine [']'] = some [']'] := by decide
    have ht : TrimSpace [']'] = [']'] := by decide
    have hr : removeCommaFromEnd [']'] = .ok [']'] := rfl
    have hcn : Contains [']'] '[' = false := by decide
    have hi : Index [']'] ']' = 0 := by decide
    simp [sepInit, scanArray, hv, ht, hr, hcn, hi]
  | cons e r ih =>
    rw [List.map_cons, sepInit_cons]
    show scanArray ((elementLine e ++ _) :: (sepInit [','] (r.map elementLine) ++ [[']']])) 1 acc = _
    rw [scanArray_element e _ _ acc (he e (by simp)) (by split_ifs <;> simp),
      ih _ fun z hz => he z (List.mem_cons_of_mem _ hz)]
    simp

/-- The lines of the entry `Marshal` writes for a slice with at least one
element. -/
theorem allLines_arrayEntry (k : Str) (es : List Str) (hk : IsKey k) (hne : es ≠ [])
    (he : ∀ e ∈ es, CleanStr e) :
    allLines (arrayEntry k es)
      = (k ++ ':' :: ' ' :: ['[']) :: (sepInit [','] (es.map elementLine) ++ [[']']]) := by
  have hnl : '\n' ∉ k ++ [':', ' ', '['] := by
    simp only [List.mem_append, List.mem_cons, List.not_mem_nil, or_false, not_or]
    exact ⟨hk.not_mem_nl, by decide, by decide, by decide⟩
  have hd : dropCR (k ++ [':', ' ', '[']) = k ++ [':', ' ', '['] := by
    rw [dropCR_append k (by simp)]
    rfl
  have hel : ∀ x ∈ es.map elementLine, '\n' ∉ x := by
    intro x hx h
    obtain ⟨e, hem, rfl⟩ := List.mem_map.1 hx
    simp only [elementLine, List.mem_append, List.mem_cons, List.not_mem_nil, or_false] at h
    rcases h with h | h
    · revert h; decide
    · exact (plainChar_squote (he e hem) _ h).2.2.2.2.2 rfl
  have hsplit : Split (Join (es.map elementLine) [',', '\n'] ++ '\n' :: [']']) '\n'
      = sepInit [','] (es.map elementLine) ++ [[']']] := by
    rw [Split_append_sep, show [',', '\n'] = [','] ++ ['\n'] from rfl,
      Split_Join_sep '\n' [','] _ (by simpa using hne) hel (by decide)]
    rfl
  have hlast : ∀ l ∈ sepInit [','] (es.map elementLine) ++ [[']']],
      ∃ c, l.getLast? = some c ∧ c ≠ '\r' := by
    intro l hl
    rcases List.mem_append.1 hl with hl | hl
    · obtain ⟨x, hx, hl⟩ := mem_sepInit hl
      obtain ⟨e, _, rfl⟩ := List.mem_map.1 hx
      rcases hl with rfl | rfl
      · refine ⟨sq, ?_, by decide⟩
        unfold elementLine
        rw [List.getLast?_append_of_ne_nil _ (by simp [squote]), squote_getLast?]
      · exact ⟨',', by rw [List.getLast?_append_of_ne_nil _ (by simp)]; rfl, by decide⟩
    · simp only [List.mem_singleton] at hl
      subst hl
      exact ⟨']', rfl, by decide⟩
  rw [arrayEntry_eq, allLines_cons _ hnl, hd, allLines_of_Split hsplit hlast]

theorem setSliceValues_squote (fo : FloatOps F) (tag : Str) (old es : List Str) :
    setSliceValues fo { Tag := tag, Value := .slice (.strings old) } (es.map squote)
      = (none, { Tag := tag, Value := .slice (.strings (old ++ es)) }) := by
  induction es generalizing old with
  | nil => simp [setSliceValues]
  | cons t ts ih =>
    have h1 : setSliceValue fo { Tag := tag, Value := .slice (.strings old) } t
        = .ok { Tag := tag, Value := .slice (.strings (old ++ [t])) } := rfl
    simp only [List.map_cons, setSliceValues]
    rw [show squote t = sq :: (t ++ [sq]) from rfl, unwrap_quoted sq t (Or.inl rfl)]
    simp only [h1, ih]
    simp

theorem assignField_squote (inner : List Str → List (field F) → Option Fault × List (field F))
    (fo : FloatOps F) (k value : Str) (old es : List Str) (hk : k ≠ ['-']) (hne : es ≠ []) :
    assignField inner fo { key := k, value := value, lines := es.map squote, innerData := [] }
        { Tag := k, Value := .slice (.strings old) }
      = (none, { Tag := k, Value := .slice (.strings (old ++ es)) }) := by
  unfold assignField
  have hlen : 0 < (es.map squote).length := by
    cases es with
    | nil => exact absurd rfl hne
    | cons t r => simp
  have hA : (field.IsArray ({ Tag := k, Value := .slice (.strings old) } : field F)) = true := rfl
  simp only [hk, ↓reduceIte, gt_iff_lt, hlen, decide_True, hA, not_true_eq_false, and_false,
    and_self, setSliceValues_squote]

/-- Round trip of a slice of strings with at least one element: for every
record that consists of an exported string slice with a well-formed key, holding
a non-empty list of strings free of `#`, brackets, curly braces and line feeds,
`Marshal` returns a text and, when the lines of that text are shorter than the
64 KiB limit of the scanner, `Unmarshal` of that text into the record with the
empty slice returns a nil error and leaves the slice with the same elements in
the same order. -/
theorem string_slice_round_trip (fo : FloatOps F) (sf : StructField) (es : List Str)
    (hk : IsKey (mkField (sf, (Value.slice (.strings es) : Value F))).Tag)
    (hexp : sf.IsExported = true)
    (hne : es ≠ []) (he : ∀ e ∈ es, CleanStr e) :
    ∃ text, Marshal fo (.value (.struct [(sf, .slice (.strings es))])) = .ok text ∧
      (ShortLines text →
        Unmarshal fo text (.pointer (some (.struct [(sf, .slice (.strings []))])))
          = (none, .pointer (some (.struct [(sf, .slice (.strings es))])))) := by
  have hM : Marshal fo (.value (.struct [(sf, .slice (.strings es))]))
      = .ok (arrayEntry (mkField (sf, (Value.slice (.strings es) : Value F))).Tag es) := by
    have h := Marshal_around fo sf (.slice (.strings es)) [] [] [] [] hk.2.1 rfl rfl
    simp only [List.nil_append] at h
    rw [h]
    simp [marshalEntry, SliceValue.shown, Join]
  refine ⟨_, hM, fun hshort => ?_⟩
  have hval : parseValue (mkField (sf, (Value.slice (.strings es) : Value F))).Tag ['[']
      (sepInit [','] (es.map elementLine) ++ [[']']])
      = .ok ({ key := (mkField (sf, (Value.slice (.strings es) : Value F))).Tag, value := ['['],
               lines := es.map squote, innerData := [] }, []) := by
    have h1 : Index ['['] '[' = 0 := by decide
    have h2 : Index ['['] ']' = -1 := by decide
    have h3 : Index ['['] lbrace = -1 := by decide
    have h4 : Index ['['] rbrace = -1 := by decide
    have hs := scanArray_elements es [] he
    unfold parseValue
    simp only [h1, h2, h3, h4, hs]
    simp
  have h := Unmarshal_one_block fo [] [] sf (.slice (.strings [])) (.slice (.strings es))
    ((scanLines_eq_allLines hshort).trans (allLines_arrayEntry _ es hk hne he)) hk (by simp)
    (by decide) (by decide) (by decide)
    (by simp) hval rfl (fun inner => by
      have := assignField_squote inner fo
        (mkField (sf, (Value.slice (.strings es) : Value F))).Tag ['['] [] es hk.2.1 hne
      have hm : mkField (sf, (Value.slice (.strings []) : Value F))
          = { Tag := (mkField (sf, (Value.slice (.strings es) : Value F))).Tag,
              Value := .slice (.strings []) } :=
        mkField_of_exported sf _ hexp
      rw [hm]
      simpa using this)
  simpa using h

end Cfg

namespace Cfg

/-! ## Closed instances: comments, keys, panics, slices -/

set_option maxRecDepth 100000

/-- C21, the claim at an input where it fails: decoding `value: 'a#b'` into a
string field returns a nil error and leaves the opening quotation mark and `a`
in the field, not `a#b`. -/
theorem comment_in_quotes_counterexample :
    Unmarshal unitFloat "value: 'a#b'".toList (.pointer (some (.struct exValue)))
      = (none, .pointer (some (.struct [(declared "Value" "value", .string [sq, 'a'])]))) ∧
    [sq, 'a'] ≠ ['a', '#', 'b'] :=
  ⟨rfl, by decide⟩

/-- C21 amended, at the key `value`, the single quotation mark and the texts
`a` and `b`. -/
theorem comment_marker_inside_quotes_witness :
    IsKey "value".toList ∧ (declared "Value" "value").IsExported = true ∧
    (∀ c ∈ ['a'], tokenChar c = true) ∧ '\n' ∉ ['b'] ∧
    byteLen ("value".toList ++ [':', ' ', sq] ++ ['a'] ++ ['#'] ++ ['b'] ++ [sq])
      < MaxScanTokenSize ∧
    Unmarshal unitFloat ("value".toList ++ [':', ' ', sq] ++ ['a'] ++ ['#'] ++ ['b'] ++ [sq])
        (.pointer (some (.struct ([] ++ (declared "Value" "value", .string []) :: []))))
      = (none, .pointer (some (.struct
          ([] ++ (declared "Value" "value", .string (sq :: ['a'])) :: [])))) :=
  ⟨by decide, by decide, by decide, by decide, by decide,
    comment_marker_inside_quotes unitFloat "value".toList ['a'] ['b'] [] sq
      (declared "Value" "value") [] [] (by decide) (by decide) (by decide) (by decide)
      (Or.inl rfl) (by decide) (by decide) (by decide) (by decide)⟩

/-- C22, the claim at an input where it fails: for a field `F1` whose tag
consists of two spaces the descriptor carries the empty key, while the key of the
specification is the name `F1`. -/
theorem blank_tag_counterexample :
    extractFields (.value (.struct [(declared "F1" "  ", (Value.int .Int 0 : Value Unit))]))
      = some [{ Tag := [], Value := .int .Int 0 }] ∧
    specifiedKey (declared "F1" "  ") = ['F', '1'] :=
  ⟨rfl, by decide⟩

/-- C22 amended, at the record of the test of `extractFields`, whose keys are
`F1`, `value_f2`, `F3` and `F4`. -/
theorem field_mapping_witness :
    (∀ d ∈ exFields, TrimSpace d.1.Name = d.1.Name) ∧
    (extractFields (.pointer (some (.struct exFields))) = extractFields (.value (.struct exFields)) ∧
      extractFields (.value (.struct exFields))
        = some (exFields.map fun d =>
            ({ Tag := resolvedKey d.1, Value := d.2, Exported := d.1.IsExported } : field Unit)) ∧
      ∀ d ∈ exFields, (d.1.Tag = [] ∨ TrimSpace d.1.Tag ≠ []) →
        resolvedKey d.1 = specifiedKey d.1) ∧
    exFields.map (fun d => resolvedKey d.1)
      = ["F1".toList, "value_f2".toList, "F3".toList, "F4".toList] :=
  ⟨by decide, field_mapping exFields (by decide), by decide⟩

/-- C23, the code at failing inputs, for records with one string field and with
one string slice: a value that is empty once its comma or its comment is removed
panics with an index out of range, a lone quotation mark with slice bounds out
of range, `[]` with an index out of range, a closing bracket before the opening
one with slice bounds out of range, and a multi-line array without elements
reaches the "wrong implementation" panic of `setValue`. -/
theorem decode_panics :
    (Unmarshal unitFloat "value: ,".toList (.pointer (some (.struct exValue)))).1
      = some (.panic .indexOutOfRange) ∧
    (Unmarshal unitFloat "value: # note".toList (.pointer (some (.struct exValue)))).1
      = some (.panic .indexOutOfRange) ∧
    (Unmarshal unitFloat "value: '".toList (.pointer (some (.struct exValue)))).1
      = some (.panic .sliceBounds) ∧
    (Unmarshal unitFloat "modules: []".toList (.pointer (some (.struct exModules)))).1
      = some (.panic .indexOutOfRange) ∧
    (Unmarshal unitFloat "value: ]a[".toList (.pointer (some (.struct exValue)))).1
      = some (.panic .sliceBounds) ∧
    (Unmarshal unitFloat "modules: [\n]".toList (.pointer (some (.struct exModules)))).1
      = some (.panic .wrongImplementation) :=
  ⟨by decide, by decide, by decide, by decide, by decide, by decide⟩

/-- C24, the code at a failing input: the encoding of the record of the test
"slice value" with the empty slice is `modules: [`, an empty line and `]`, and
decoding that text into the same record panics in `setValue` ("wrong
implementation"); with one element the round trip succeeds. -/
theorem empty_slice_round_trip_panics :
    Marshal unitFloat (.value (.struct exModules)) = .ok "modules: [\n\n]".toList ∧
    Unmarshal unitFloat "modules: [\n\n]".toList (.pointer (some (.struct exModules)))
      = (some (.panic .wrongImplementation), .pointer (some (.struct exModules))) ∧
    Marshal unitFloat (.value (.struct [(declared "Modules" "modules", .slice (.strings [['a']]))]))
      = .ok "modules: [\n  'a'\n]".toList ∧
    Unmarshal unitFloat "modules: [\n  'a'\n]".toList (.pointer (some (.struct exModules)))
      = (none, .pointer (some (.struct
          [(declared "Modules" "modules", .slice (.strings [['a']]))]))) :=
  ⟨rfl, rfl, rfl, rfl⟩

/-- The handles of unexported fields are read-only: decoding an entry into the
unexported string field `value` panics in the setter, decoding a block into the
unexported nested record `inner` and encoding that record panic in `Interface`,
while the unexported scalar field is encoded like an exported one. -/
theorem unexported_fields_panic :
    (Unmarshal unitFloat "value: x".toList
      (.pointer (some (.struct [(declared "value" "", .string [])])))).1
      = some (.panic .reflect) ∧
    (Unmarshal unitFloat "inner: \x7b\n  A: true\n\x7d".toList
      (.pointer (some (.struct [(declared "inner" "", .struct [(declared "A" "", .bool false)])])))).1
      = some (.panic .reflect) ∧
    Marshal unitFloat (.value (.struct
        [(declared "inner" "", .struct [(declared "A" "", .bool true)])]))
      = .error (.panic .reflect) ∧
    Marshal unitFloat (.value (.struct [(declared "value" "", .string ['x'])]))
      = .ok "value: 'x'".toList :=
  ⟨by decide, by decide, rfl, rfl⟩

end Cfg
